import Mathlib

/-!
The distributed open-addressing hash set `htable`.

A shallow embedding of `htable.c` / `htable.h`.

* Machine words (`uint64_t`, `bucket_t`) are natural numbers; every unsigned
  64-bit operation of the source is reduced modulo `2^64` (`u64`, `sub64`).
* The compile-time constants that the header lets the build override
  (`HTABLE_CHUNK_SIZE`, `HTABLE_MAX_NR_OF_CHUNKS`, `HTABLE_BLOCK_SIZE`), the
  number of UPC threads `THREADS`, the external function `hash` and the
  behaviour of the remote transport are the fields of `Env`.  The masks inside
  `HTABLE_BLOCK` and `HTABLE_THREAD` are literals in the header and are
  literals here.
* The context `htable_ctx` is passed explicitly.  The shared table, the private
  staging buffer and the handle array are total functions on indices.
* The calls into the UPC runtime (`upc_memget_nb`, `upc_sync`, `CAS`), the
  stores into handle slots and the reads of staged buckets are recorded in a
  trace (newest event first) so that statements about what a call does, and in
  which order, can be made.
-/

namespace Htable

/-- Reduction of a natural number to an unsigned 64-bit word. -/
def u64 (x : Nat) : Nat := x % 18446744073709551616

/-- Unsigned 64-bit subtraction `a - b` of two words. -/
def sub64 (a b : Nat) : Nat := (a + 18446744073709551616 - b) % 18446744073709551616

/-- The size of a bucket in bytes: `sizeof(bucket_t)`. -/
def sizeof_bucket_t : Nat := 8

def HTABLE_MASK_DATA : Nat := 0x7fffffffffffffff
def HTABLE_MASK_OCCUPIED : Nat := 0x8000000000000000

def HTABLE_FULL : Nat := 0
def HTABLE_FOUND : Nat := 1
def HTABLE_INSERTED : Nat := 2

/-- Everything the code takes from outside: the overridable constants of
`htable.h`, the number of UPC threads, the hash function of `hash.h`, and the
transport: `fetch id t a` is the word that the non-blocking fetch with handle
`id`, issued while the shared table was `t`, delivers for table index `a`. -/
structure Env where
  HTABLE_CHUNK_SIZE : Nat
  HTABLE_MAX_NR_OF_CHUNKS : Nat
  HTABLE_BLOCK_SIZE : Nat
  THREADS : Nat
  hash : Nat → Nat
  fetch : Nat → (Nat → Nat) → Nat → Nat

/-- Every fetch returns the table contents that are current when it is issued.
In single-process execution nobody else writes the table, so these are the
contents during the whole call; with several processes, later contents reach
the staging buffer through the action `land` below. -/
def Env.fetch_current (e : Env) : Prop := ∀ id t a, e.fetch id t a = t a

/-- The reference build: the block size is the `2^27` that the masks of
`HTABLE_BLOCK` and `HTABLE_THREAD` are written for, a chunk is non-empty and
fits into a block, there is at least one probe chunk and one thread, and the
`int` constants are in the range of `int`. -/
def Env.wf (e : Env) : Prop :=
  e.HTABLE_BLOCK_SIZE = 134217728 ∧
  1 ≤ e.HTABLE_CHUNK_SIZE ∧ e.HTABLE_CHUNK_SIZE ≤ e.HTABLE_BLOCK_SIZE ∧
  1 ≤ e.HTABLE_MAX_NR_OF_CHUNKS ∧ e.HTABLE_MAX_NR_OF_CHUNKS < 2147483648 ∧
  1 ≤ e.THREADS ∧ e.THREADS < 2147483648

instance (e : Env) : Decidable e.wf := by
  unfold Env.wf; infer_instance

/-- `HTABLE_BLOCK(addr)`. -/
def HTABLE_BLOCK (addr : Nat) : Nat := addr &&& 0x0000000007ffffff

/-- `HTABLE_THREAD(addr)`. -/
def HTABLE_THREAD (addr : Nat) : Nat := (addr &&& 0xfffffffff8000000) >>> 27

/-- `HTABLE_ADDR(addr)`. -/
def HTABLE_ADDR (e : Env) (addr : Nat) : Nat :=
  addr % u64 (e.HTABLE_BLOCK_SIZE * e.THREADS)

/-- What the code does to the outside world, in the order it does it. -/
inductive Event where
  /-- `query_chunk(ctx, h, n)` was entered. -/
  | query (n : Nat)
  /-- `upc_memget_nb` copied `size` buckets from table index `src` to staging
  index `dst` and returned handle `id`. -/
  | memget (id dst src size : Nat)
  /-- `upc_sync` was called on handle `id`. -/
  | sync (id : Nat)
  /-- `ctx->handle[slot]` held `old` and was assigned `new`. -/
  | store (slot : Nat) (old new : Option Nat)
  /-- The scan read `ctx->chunks[index]`. -/
  | inspect (index : Nat)
  /-- `CAS(&table[addr], expected, desired)` returned `observed`. -/
  | cas (addr expected desired observed : Nat)
  deriving DecidableEq, Repr

/-- The context `htable_ctx_t`, with the ghost fields `fresh` (the next handle
the transport will hand out) and `trace` (newest event first). -/
structure htable_ctx where
  chunks : Nat → Nat
  handle : Nat → Option Nat
  table : Nat → Nat
  fresh : Nat
  trace : List Event

/-- `upc_sync(handle)`: waits for the fetch; the words were staged when the
fetch was issued and are not read before this call. -/
def upc_sync (ctx : htable_ctx) (id : Nat) : htable_ctx :=
  { ctx with trace := Event.sync id :: ctx.trace }

/-- `upc_memget_nb(&ctx->chunks[dst], &ctx->table[src], nbytes)`: stages
`nbytes / sizeof(bucket_t)` consecutive buckets, the ones with table indices
`src`, `src + 1`, ..., and returns a new handle (never `NULL`).  The words are
those the transport `e.fetch` delivers for this handle. -/
def upc_memget_nb (e : Env) (ctx : htable_ctx) (dst src nbytes : Nat) : Nat × htable_ctx :=
  let size := nbytes / sizeof_bucket_t
  (ctx.fresh,
    { ctx with
      chunks := fun k =>
        if dst ≤ k ∧ k < dst + size then e.fetch ctx.fresh ctx.table (src + (k - dst))
        else ctx.chunks k
      fresh := ctx.fresh + 1
      trace := Event.memget ctx.fresh dst src size :: ctx.trace })

/-- The assignment `ctx->handle[slot] = v`. -/
def store_handle (ctx : htable_ctx) (slot : Nat) (v : Option Nat) : htable_ctx :=
  { ctx with
    handle := Function.update ctx.handle slot v
    trace := Event.store slot (ctx.handle slot) v :: ctx.trace }

/-- One iteration of the loop of `sync_on_chunk`. -/
def sync_slot (ctx : htable_ctx) (index : Nat) : htable_ctx :=
  match ctx.handle index with
  | some id => store_handle (upc_sync ctx id) index none
  | none => ctx

/-- `sync_on_chunk(ctx, n)`: the loop `for (i = 0; i < 2; i++)`. -/
def sync_on_chunk (ctx : htable_ctx) (n : Nat) : htable_ctx :=
  sync_slot (sync_slot ctx (2 * n + 0)) (2 * n + 1)

/-- `query_chunk(ctx, h, n)`. -/
def query_chunk (e : Env) (ctx : htable_ctx) (h n : Nat) : htable_ctx :=
  let ctx := sync_on_chunk { ctx with trace := Event.query n :: ctx.trace } n
  let index1 := u64 (h + u64 (n * e.HTABLE_CHUNK_SIZE))
  let index2 := sub64 (u64 (index1 + e.HTABLE_CHUNK_SIZE)) 1
  let owner1 := HTABLE_THREAD index1
  let owner2 := HTABLE_THREAD index2
  if owner1 ≠ owner2 then
    let size1 := sub64 e.HTABLE_BLOCK_SIZE (HTABLE_BLOCK index1)
    let size2 := sub64 e.HTABLE_CHUNK_SIZE size1
    let r1 := upc_memget_nb e ctx (u64 (n * e.HTABLE_CHUNK_SIZE))
      (HTABLE_ADDR e index1) (u64 (sizeof_bucket_t * size1))
    let ctx := store_handle r1.2 (2 * n) (some r1.1)
    let r2 := upc_memget_nb e ctx (u64 (u64 (n * e.HTABLE_CHUNK_SIZE) + size1))
      (HTABLE_ADDR e (u64 (index1 + size1))) (u64 (sizeof_bucket_t * size2))
    store_handle r2.2 (2 * n + 1) (some r2.1)
  else
    let r1 := upc_memget_nb e ctx (u64 (n * e.HTABLE_CHUNK_SIZE))
      (HTABLE_ADDR e index1) (u64 (sizeof_bucket_t * e.HTABLE_CHUNK_SIZE))
    let ctx := store_handle r1.2 (2 * n) (some r1.1)
    store_handle ctx (2 * n + 1) none

/-- `CAS(&ctx->table[addr], old, new)`: returns the word that was present and
stores `new` when that word equals `old`. -/
def CAS (ctx : htable_ctx) (addr old new : Nat) : Nat × htable_ctx :=
  let cur := ctx.table addr
  (cur,
    { ctx with
      table := if cur = old then Function.update ctx.table addr new else ctx.table
      trace := Event.cas addr old new cur :: ctx.trace })

/-- The loop `for (j = ...; j < HTABLE_CHUNK_SIZE; j++)` of
`htable_find_or_put` for chunk `i`, with `fuel` iterations left to run from
`j`.  `some r` is `return r`; `none` means the loop ran to its end. -/
def scan_chunk (e : Env) (h data i : Nat) : Nat → Nat → htable_ctx → Option Nat × htable_ctx
  | 0, _, ctx => (none, ctx)
  | fuel + 1, j, ctx =>
    let index := u64 (u64 (i * e.HTABLE_CHUNK_SIZE) + j)
    let ctx := { ctx with trace := Event.inspect index :: ctx.trace }
    if ctx.chunks index &&& HTABLE_MASK_OCCUPIED = 0 then
      let r := CAS ctx (HTABLE_ADDR e (u64 (h + index))) (ctx.chunks index)
        (data ||| HTABLE_MASK_OCCUPIED)
      if r.2.chunks index = r.1 then (some HTABLE_INSERTED, r.2)
      else if r.1 &&& HTABLE_MASK_DATA = data then (some HTABLE_FOUND, r.2)
      else scan_chunk e h data i fuel (j + 1) r.2
    else if ctx.chunks index &&& HTABLE_MASK_DATA = data then (some HTABLE_FOUND, ctx)
    else scan_chunk e h data i fuel (j + 1) ctx

/-- The loop `for (i = ...; i < HTABLE_MAX_NR_OF_CHUNKS; i++)` of
`htable_find_or_put`, with `fuel` iterations left to run from `i`. -/
def chunk_loop (e : Env) (h data : Nat) : Nat → Nat → htable_ctx → Nat × htable_ctx
  | 0, _, ctx => (HTABLE_FULL, ctx)
  | fuel + 1, i, ctx =>
    let ctx := if u64 (i + 1) < e.HTABLE_MAX_NR_OF_CHUNKS then query_chunk e ctx h (u64 (i + 1)) else ctx
    let ctx := sync_on_chunk ctx i
    match scan_chunk e h data i e.HTABLE_CHUNK_SIZE 0 ctx with
    | (some r, ctx) => (r, ctx)
    | (none, ctx) => chunk_loop e h data fuel (i + 1) ctx

/-- `htable_find_or_put(ctx, data)`: the result code and the context after the
call. -/
def htable_find_or_put (e : Env) (ctx : htable_ctx) (data : Nat) : Nat × htable_ctx :=
  let data := data &&& HTABLE_MASK_DATA
  let h := u64 (e.hash data)
  let ctx := query_chunk e ctx h 0
  chunk_loop e h data e.HTABLE_MAX_NR_OF_CHUNKS 0 ctx

/-- `htable_init(ctx)`: `chunks0` and `table0` are the contents of the memory
that `posix_memalign` and `upc_all_alloc` return; every handle slot is set to
`NULL`. -/
def htable_init (chunks0 table0 : Nat → Nat) : htable_ctx :=
  { chunks := chunks0, handle := fun _ => none, table := table0, fresh := 0, trace := [] }

/-- The loop of `htable_free` over the handle slots, with `fuel` iterations
left to run from slot `i`. -/
def free_loop : Nat → Nat → htable_ctx → htable_ctx
  | 0, _, ctx => ctx
  | fuel + 1, i, ctx =>
    match ctx.handle i with
    | some id => free_loop fuel (i + 1) (upc_sync ctx id)
    | none => free_loop fuel (i + 1) ctx

/-- `htable_free(ctx)`: waits on every handle slot that is not `NULL`. -/
def htable_free (e : Env) (ctx : htable_ctx) : htable_ctx :=
  free_loop (2 * e.HTABLE_MAX_NR_OF_CHUNKS) 0 ctx

/-- The reference constants of `htable.h` on `T` threads, with the identity as
hash function and a transport that returns the current table contents. -/
def reference_env (T : Nat) : Env :=
  { HTABLE_CHUNK_SIZE := 32, HTABLE_MAX_NR_OF_CHUNKS := 64, HTABLE_BLOCK_SIZE := 134217728,
    THREADS := T, hash := fun x => x, fetch := fun _ t a => t a }

/-- A context right after `htable_init` with zero-filled memory. -/
def zero_ctx : htable_ctx := htable_init (fun _ => 0) (fun _ => 0)


/-- The table index of the `k`-th bucket probed by a lookup whose hash is `h`:
the index `HTABLE_ADDR(h + index)` that the compare-and-swap is given. -/
def probe (e : Env) (h k : Nat) : Nat := HTABLE_ADDR e (u64 (h + k))

/-- The plain linear probe that the chunked lookup is meant to implement: look
at the buckets `probe e h k`, `probe e h (k+1)`, ... (at most `fuel` of them);
claim the first one whose occupancy bit is clear; report `FOUND` at the first
one occupied with payload `d`; `none` when the budget is used up. -/
def linear_probe (e : Env) (h d : Nat) (t : Nat → Nat) : Nat → Nat → Option Nat × (Nat → Nat)
  | 0, _ => (none, t)
  | fuel + 1, k =>
    if t (probe e h k) &&& HTABLE_MASK_OCCUPIED = 0 then
      (some HTABLE_INSERTED, Function.update t (probe e h k) (d ||| HTABLE_MASK_OCCUPIED))
    else if t (probe e h k) &&& HTABLE_MASK_DATA = d then (some HTABLE_FOUND, t)
    else linear_probe e h d t fuel (k + 1)


/-- The words staged for chunk `i` are the current contents of the buckets the
scan of chunk `i` addresses. -/
def staged (e : Env) (ctx : htable_ctx) (h i : Nat) : Prop :=
  ∀ j, j < e.HTABLE_CHUNK_SIZE →
    ctx.chunks (i * e.HTABLE_CHUNK_SIZE + j) = ctx.table (probe e h (i * e.HTABLE_CHUNK_SIZE + j))

/-- The probe budget `HTABLE_MAX_NR_OF_CHUNKS * HTABLE_CHUNK_SIZE`. -/
def budget (e : Env) : Nat := e.HTABLE_MAX_NR_OF_CHUNKS * e.HTABLE_CHUNK_SIZE

/-- The probe sequence of the value `v`: the table index of the `k`-th bucket
that `htable_find_or_put(v)` inspects and may compare-and-swap. -/
def probe_seq (e : Env) (v k : Nat) : Nat := probe e (u64 (e.hash (v &&& HTABLE_MASK_DATA))) k

/-- The occupancy bit (bit 63) of a bucket word is set. -/
def occupied (w : Nat) : Prop := w &&& HTABLE_MASK_OCCUPIED ≠ 0

instance (w : Nat) : Decidable (occupied w) := by
  unfold occupied; infer_instance

/-- The payload (bits 0 to 62) of a bucket word. -/
def payload (w : Nat) : Nat := w &&& HTABLE_MASK_DATA

/-- The context after a sequence of `htable_find_or_put` calls, one per element
of the list, in order. -/
def run (e : Env) : htable_ctx → List Nat → htable_ctx
  | ctx, [] => ctx
  | ctx, v :: vs => run e (htable_find_or_put e ctx v).2 vs

/-- The calls of such a sequence: each value with the result code returned. -/
def calls (e : Env) : htable_ctx → List Nat → List (Nat × Nat)
  | _, [] => []
  | ctx, v :: vs =>
    (v, (htable_find_or_put e ctx v).1) :: calls e (htable_find_or_put e ctx v).2 vs

/-- The value `v` is in the table: scanning the probe sequence of `v` meets a
bucket occupied with the payload of `v` before any unoccupied bucket and within
the budget. -/
def present (e : Env) (t : Nat → Nat) (v : Nat) : Prop :=
  ∃ k, k < budget e ∧ occupied (t (probe_seq e v k)) ∧
    payload (t (probe_seq e v k)) = v &&& HTABLE_MASK_DATA ∧
    ∀ k2, k2 < k → occupied (t (probe_seq e v k2))

/-- The event is a call of `query_chunk`. -/
def Event.isQuery : Event → Bool
  | .query _ => true
  | _ => false

/-- The event is a read of a staged bucket by the scan. -/
def Event.isInspect : Event → Bool
  | .inspect _ => true
  | _ => false

/-- What holds of every event of a call: a prefetch is for a chunk number
below `C`, and a compare-and-swap expects a word whose occupancy bit is clear. -/
def call_event (C : Nat) : Event → Prop
  | .query n => n < C
  | .cas _ x _ _ => x &&& HTABLE_MASK_OCCUPIED = 0
  | _ => True

/-- The trace `after` is the trace `before` extended by events that all satisfy
`P`, at most `q` of them calls of `query_chunk` and at most `i` of them reads
of a staged bucket. -/
def Emitted (P : Event → Prop) (q i : Nat) (before after : List Event) : Prop :=
  ∃ evs, after = evs ++ before ∧ evs.countP Event.isQuery ≤ q ∧
    evs.countP Event.isInspect ≤ i ∧ ∀ ev, ev ∈ evs → P ev

/-- A small build for evaluation: chunks of two buckets, two chunks, one
thread, every value hashed to bucket 0, and a transport that returns the
current table contents. -/
def small_env : Env :=
  { HTABLE_CHUNK_SIZE := 2, HTABLE_MAX_NR_OF_CHUNKS := 2, HTABLE_BLOCK_SIZE := 134217728,
    THREADS := 1, hash := fun _ => 0, fetch := fun _ t a => t a }

/-- A context whose table holds the payload 7 in every bucket. -/
def sevens_ctx : htable_ctx := htable_init (fun _ => 0) (fun _ => 0x8000000000000007)

/-- No assignment to a handle slot overwrote a handle that had not been waited
on: whenever a slot that held the handle `id` was assigned, `upc_sync` had
been called on `id` before (the trace is newest first). -/
def stores_ok : List Event → Prop
  | [] => True
  | Event.store _ (some id) _ :: rest => Event.sync id ∈ rest ∧ stores_ok rest
  | _ :: rest => stores_ok rest

/-- The state of the handle slots between calls: every handle held by a slot
(one of the first `N` slots) was issued and has not been waited on, no handle
is held twice, every handle issued so far is either held by a slot or has been
waited on exactly once, and no handle that was not waited on was overwritten. -/
structure handles_ok (N : Nat) (ctx : htable_ctx) : Prop where
  held : ∀ s id, ctx.handle s = some id → s < N ∧ id < ctx.fresh ∧ Event.sync id ∉ ctx.trace
  inj : ∀ s1 s2 id, ctx.handle s1 = some id → ctx.handle s2 = some id → s1 = s2
  issued : ∀ id, id < ctx.fresh →
    (∃ s, ctx.handle s = some id) ∨ ctx.trace.count (Event.sync id) = 1
  unissued : ∀ id, ctx.fresh ≤ id → Event.sync id ∉ ctx.trace
  memget_lt : ∀ id dst src size, Event.memget id dst src size ∈ ctx.trace → id < ctx.fresh
  stores : stores_ok ctx.trace

/-- The state of the handle slots inside the loop of `htable_free`, when the
slots below `i` have been waited on. -/
structure free_inv (N i : Nat) (ctx : htable_ctx) : Prop where
  held : ∀ s id, i ≤ s → ctx.handle s = some id → Event.sync id ∉ ctx.trace
  range : ∀ s id, ctx.handle s = some id → s < N
  inj : ∀ s1 s2 id, ctx.handle s1 = some id → ctx.handle s2 = some id → s1 = s2
  issued : ∀ id, id < ctx.fresh →
    (∃ s, i ≤ s ∧ ctx.handle s = some id) ∨ ctx.trace.count (Event.sync id) = 1
  memget_lt : ∀ id dst src size, Event.memget id dst src size ∈ ctx.trace → id < ctx.fresh
  stores : stores_ok ctx.trace

/-- The event is neither a transport call on a handle nor an assignment to a
handle slot. -/
def Event.quiet : Event → Prop
  | .query _ => True
  | .inspect _ => True
  | .cas _ _ _ _ => True
  | _ => False

/-! ### Several processes on one table

The processes of a UPC program share the table and nothing else.  Between two
accesses to the table a process works on its private context only, so an
interleaving of the processes is a sequence of the following actions: a process
runs its code up to and including its next access to the table (a program
step), or a word of a fetch that a process has issued and not yet waited on
arrives late, carrying the content its bucket has at that moment. -/

/-- Where a process is inside `htable_find_or_put`. -/
inductive Pc where
  /-- Before `query_chunk(ctx, h, 0)`. -/
  | start
  /-- At the test `i < HTABLE_MAX_NR_OF_CHUNKS` of the outer loop. -/
  | head (i : Nat)
  /-- Before `sync_on_chunk(ctx, i)`. -/
  | wait (i : Nat)
  /-- At the test `j < HTABLE_CHUNK_SIZE` of the inner loop. -/
  | slot (i j : Nat)
  /-- The call has returned `r`. -/
  | done (r : Nat)
  deriving DecidableEq

/-- A process: its private context (the field `table` is overwritten with the
shared table at every step) and its position in the code. -/
structure Proc where
  ctx : htable_ctx
  pc : Pc

/-- The shared table and the processes. -/
structure World where
  table : Nat → Nat
  procs : Nat → Proc

/-- One program step of a process calling `htable_find_or_put(v)` while the
shared table is `t`: the code between two positions of `Pc`.  An iteration of
the inner loop is `scan_chunk` with one iteration to run.  The shared table
after the step is the field `table` of the resulting context. -/
def prog_step (e : Env) (v : Nat) (t : Nat → Nat) (q : Proc) : Proc :=
  let data := v &&& HTABLE_MASK_DATA
  let h := u64 (e.hash data)
  let c : htable_ctx := { q.ctx with table := t }
  match q.pc with
  | .start => ⟨query_chunk e c h 0, .head 0⟩
  | .head i =>
    if i < e.HTABLE_MAX_NR_OF_CHUNKS then
      ⟨if u64 (i + 1) < e.HTABLE_MAX_NR_OF_CHUNKS then query_chunk e c h (u64 (i + 1)) else c,
        .wait i⟩
    else ⟨c, .done HTABLE_FULL⟩
  | .wait i => ⟨sync_on_chunk c i, .slot i 0⟩
  | .slot i j =>
    if j < e.HTABLE_CHUNK_SIZE then
      match scan_chunk e h data i 1 j c with
      | (some r, c2) => ⟨c2, .done r⟩
      | (none, c2) => ⟨c2, .slot i (j + 1)⟩
    else ⟨c, .head (i + 1)⟩
  | .done r => ⟨c, .done r⟩

/-- A late arrival: while a handle of chunk `n` is held by one of its two slots,
the staged word `k` is replaced by what the fetch of chunk `n` delivers for it
from the table as it is now. -/
def land (e : Env) (v : Nat) (t : Nat → Nat) (q : Proc) (n k : Nat) : Proc :=
  let h := u64 (e.hash (v &&& HTABLE_MASK_DATA))
  if n < e.HTABLE_MAX_NR_OF_CHUNKS ∧
      (q.ctx.handle (2 * n) ≠ none ∨ q.ctx.handle (2 * n + 1) ≠ none) then
    let x := (query_chunk e { q.ctx with table := t } h n).chunks k
    { q with ctx := { q.ctx with chunks := Function.update q.ctx.chunks k x } }
  else q

/-- The actions of an interleaving. -/
inductive Action where
  /-- Process `p` takes its next program step. -/
  | run (p : Nat)
  /-- The staged word `k` of chunk `n` of process `p` arrives late. -/
  | land (p n k : Nat)
  deriving DecidableEq

/-- The action is a program step of process `p`. -/
def Action.runs (p : Nat) : Action → Bool
  | .run p2 => decide (p2 = p)
  | .land _ _ _ => false

/-- The effect of one action on the world of `N` processes calling
`htable_find_or_put(v)`. -/
def act (e : Env) (v N : Nat) (w : World) : Action → World
  | .run p =>
    if p < N then
      { table := (prog_step e v w.table (w.procs p)).ctx.table
        procs := Function.update w.procs p (prog_step e v w.table (w.procs p)) }
    else w
  | .land p n k =>
    if p < N then
      { w with procs := Function.update w.procs p (land e v w.table (w.procs p) n k) }
    else w

/-- The world after an interleaving. -/
def exec (e : Env) (v N : Nat) (w : World) (sched : List Action) : World :=
  sched.foldl (act e v N) w

/-- The world in which every process is about to call `htable_find_or_put`
with a context fresh from `htable_init`; `chunks0 p` is the content of the
staging memory of process `p`. -/
def init_world (t0 : Nat → Nat) (chunks0 : Nat → Nat → Nat) : World :=
  { table := t0, procs := fun p => ⟨htable_init (chunks0 p) t0, .start⟩ }

/-- A number of program steps within which every call returns. -/
def call_steps (e : Env) : Nat := 2 + e.HTABLE_MAX_NR_OF_CHUNKS * (e.HTABLE_CHUNK_SIZE + 3)

/-- An upper bound on the program steps a call still takes from a position. -/
def Pc.togo (e : Env) : Pc → Nat
  | .start => 2 + e.HTABLE_MAX_NR_OF_CHUNKS * (e.HTABLE_CHUNK_SIZE + 3)
  | .head i => 1 + (e.HTABLE_MAX_NR_OF_CHUNKS - i) * (e.HTABLE_CHUNK_SIZE + 3)
  | .wait i => (e.HTABLE_MAX_NR_OF_CHUNKS - i) * (e.HTABLE_CHUNK_SIZE + 3)
  | .slot i j => (e.HTABLE_MAX_NR_OF_CHUNKS - i) * (e.HTABLE_CHUNK_SIZE + 3) - 1 - j
  | .done _ => 0

/-- The word a call for `v` stores: `(v & HTABLE_MASK_DATA) | HTABLE_MASK_OCCUPIED`. -/
def stored (v : Nat) : Nat := (v &&& HTABLE_MASK_DATA) ||| HTABLE_MASK_OCCUPIED

/-- Position `ks` is the first unoccupied bucket of the probe sequence of `v`
in the table `t0`, and the buckets before it hold other payloads. -/
structure first_free (e : Env) (v : Nat) (t0 : Nat → Nat) (ks : Nat) : Prop where
  lt : ks < budget e
  clear : ¬ occupied (t0 (probe_seq e v ks))
  before : ∀ k, k < ks → occupied (t0 (probe_seq e v k)) ∧
    payload (t0 (probe_seq e v k)) ≠ v &&& HTABLE_MASK_DATA

/-- A word `x` that a process may have staged for probe position `k`. -/
def good (e : Env) (v : Nat) (t0 : Nat → Nat) (ks : Nat) (tab : Nat → Nat) (k x : Nat) : Prop :=
  (k < ks → x = t0 (probe_seq e v k)) ∧
  (k = ks → x = t0 (probe_seq e v ks) ∨ (x = stored v ∧ tab (probe_seq e v ks) = stored v))

/-- Every word staged for chunk `i` is good. -/
def valid (e : Env) (v : Nat) (t0 : Nat → Nat) (ks : Nat) (tab : Nat → Nat) (c : htable_ctx)
    (i : Nat) : Prop :=
  ∀ j, j < e.HTABLE_CHUNK_SIZE →
    good e v t0 ks tab (i * e.HTABLE_CHUNK_SIZE + j) (c.chunks (i * e.HTABLE_CHUNK_SIZE + j))

/-- What holds of a process at each position. -/
def proc_inv (e : Env) (v : Nat) (t0 : Nat → Nat) (ks : Nat) (tab : Nat → Nat) (q : Proc) : Prop :=
  match q.pc with
  | .start => True
  | .head i => i * e.HTABLE_CHUNK_SIZE ≤ ks ∧ valid e v t0 ks tab q.ctx i
  | .wait i => i * e.HTABLE_CHUNK_SIZE ≤ ks ∧ valid e v t0 ks tab q.ctx i ∧
      (i + 1 < e.HTABLE_MAX_NR_OF_CHUNKS → valid e v t0 ks tab q.ctx (i + 1))
  | .slot i j => i * e.HTABLE_CHUNK_SIZE + j ≤ ks ∧ j ≤ e.HTABLE_CHUNK_SIZE ∧
      valid e v t0 ks tab q.ctx i ∧
      (i + 1 < e.HTABLE_MAX_NR_OF_CHUNKS → valid e v t0 ks tab q.ctx (i + 1))
  | .done r => (r = HTABLE_INSERTED ∨ r = HTABLE_FOUND) ∧ tab (probe_seq e v ks) = stored v

/-- What holds of the shared table. -/
structure table_inv (e : Env) (v : Nat) (t0 : Nat → Nat) (ks : Nat) (tab : Nat → Nat) : Prop where
  other : ∀ a, a ≠ probe_seq e v ks → tab a = t0 a
  target : tab (probe_seq e v ks) = t0 (probe_seq e v ks) ∨ tab (probe_seq e v ks) = stored v

/-- What holds of every world the processes can reach. -/
structure world_inv (e : Env) (v : Nat) (t0 : Nat → Nat) (ks N : Nat) (w : World) : Prop where
  tab : table_inv e v t0 ks w.table
  procs : ∀ p, p < N → proc_inv e v t0 ks w.table (w.procs p)
  winner : w.table (probe_seq e v ks) = stored v →
    ∃ win, win < N ∧ (w.procs win).pc = .done HTABLE_INSERTED ∧
      ∀ p, p < N → p ≠ win → (w.procs p).pc ≠ .done HTABLE_INSERTED
  nobody : w.table (probe_seq e v ks) ≠ stored v →
    ∀ p, p < N → (w.procs p).pc ≠ .done HTABLE_INSERTED

/-- The process after `n` program steps taken alone, with nobody else touching
the table. -/
def solo (e : Env) (v : Nat) : Nat → Proc → Proc
  | 0, q => q
  | n + 1, q => solo e v n (prog_step e v q.ctx.table q)

/-- An interleaving of two processes: process 0 goes first up to its wait on
chunk 0, process 1 catches up, a word of the prefetched chunk 1 of process 1
arrives late, and then the two alternate. -/
def demo_sched : List Action :=
  [.run 0, .run 0, .run 1, .run 1, .land 1 1 2, .run 1, .run 0, .run 0, .run 1,
   .run 0, .run 1, .run 0, .run 1, .run 0, .run 1, .run 0, .run 1, .run 0, .run 1,
   .run 0, .run 1, .run 0, .run 1, .run 0, .run 1]

/-- `upc_threadof(&ctx->table[i])` for the array declared
`shared [HTABLE_BLOCK_SIZE] bucket_t *table`: UPC deals the blocks of
`HTABLE_BLOCK_SIZE` elements out to the threads in turn, so element `i` has
affinity to thread `(i / HTABLE_BLOCK_SIZE) % THREADS`. -/
def upc_threadof (e : Env) (i : Nat) : Nat := (i / e.HTABLE_BLOCK_SIZE) % e.THREADS

/-- `htable_owner(ctx, data)`. -/
def htable_owner (e : Env) (data : Nat) : Nat :=
  let h := u64 (e.hash (data &&& HTABLE_MASK_DATA))
  upc_threadof e (HTABLE_ADDR e h)

/-- The outcome of `htable_init(ctx)` in the build `e`, where `none` stands for
an initialisation that failed.  The source function returns `void`, compares
no constants and has no failing path (it does not look at the result `r` of
`posix_memalign` either), so the outcome is always the context of
`htable_init`. -/
def htable_init_outcome (_e : Env) (chunks0 table0 : Nat → Nat) : Option htable_ctx :=
  some (htable_init chunks0 table0)

/-- A build whose chunks are longer than a block: `HTABLE_CHUNK_SIZE` is
`2^27 + 1`. -/
def oversized_env : Env :=
  { HTABLE_CHUNK_SIZE := 134217729, HTABLE_MAX_NR_OF_CHUNKS := 64, HTABLE_BLOCK_SIZE := 134217728,
    THREADS := 1, hash := fun x => x, fetch := fun _ t a => t a }

/-- The reference constants on three threads, with a hash function that maps
every value to `2^64 - 3`. -/
def wrap_env : Env :=
  { HTABLE_CHUNK_SIZE := 32, HTABLE_MAX_NR_OF_CHUNKS := 64, HTABLE_BLOCK_SIZE := 134217728,
    THREADS := 3, hash := fun _ => 18446744073709551613, fetch := fun _ t a => t a }

/-- A context whose table holds the payload 7 in the three buckets before
index `2 * 2^27` and is zero elsewhere. -/
def wrap_ctx : htable_ctx :=
  htable_init (fun _ => 0)
    (fun a => if 268435453 ≤ a ∧ a < 268435456 then 0x8000000000000007 else 0)

/-- The event is a transport call on a handle or an assignment to a handle
slot. -/
def Event.transport : Event → Prop
  | .memget _ _ _ _ => True
  | .sync _ => True
  | .store _ _ _ => True
  | _ => False

/-- The reference procedure in the words of the specification, not of the
source: scan `k`, `k + 1`, ... (at most `fuel` buckets) over
`table[((hash(d) + k) mod 2^64) mod (T*B)]`; at the first bucket with the
occupancy bit clear write `d | 0x8000000000000000` and return `INSERTED`; at the
first bucket occupied with payload `d` return `FOUND`; return `FULL` if the
scan ends. -/
def spec_scan (e : Env) (d : Nat) (t : Nat → Nat) : Nat → Nat → Nat × (Nat → Nat)
  | 0, _ => (HTABLE_FULL, t)
  | fuel + 1, k =>
    let a := ((e.hash d + k) % 18446744073709551616) % (e.THREADS * e.HTABLE_BLOCK_SIZE)
    if t a &&& 0x8000000000000000 = 0 then
      (HTABLE_INSERTED, Function.update t a (d ||| 0x8000000000000000))
    else if t a &&& 0x7fffffffffffffff = d then (HTABLE_FOUND, t)
    else spec_scan e d t fuel (k + 1)

/-- The reference procedure in the words of the specification for the value
`v`: with `d = v & 0x7fffffffffffffff`, the scan of
`k = 0 .. HTABLE_MAX_NR_OF_CHUNKS * HTABLE_CHUNK_SIZE - 1`. -/
def spec_find_or_put (e : Env) (t : Nat → Nat) (v : Nat) : Nat × (Nat → Nat) :=
  spec_scan e (v &&& 0x7fffffffffffffff) t (e.HTABLE_MAX_NR_OF_CHUNKS * e.HTABLE_CHUNK_SIZE) 0

/-- The first buckets of the probe sequence of the hash `h` hold the payloads
of the list `ps`, marked occupied, in the order of the list, and the rest of
the probe budget is zero. -/
def filled (e : Env) (h : Nat) (t : Nat → Nat) (ps : List Nat) : Prop :=
  (∀ i p, ps[i]? = some p → t (probe e h i) = stored p) ∧
  ∀ k, ps.length ≤ k → k < budget e → t (probe e h k) = 0

/-- The staged index that the event reads, when the event is a read of a staged
bucket by the scan. -/
def Event.slot : Event → Option Nat
  | .inspect k => some k
  | _ => none

/-- The staged indices read by the scan in a trace, newest first. -/
def inspected (evs : List Event) : List Nat := evs.filterMap Event.slot

/-- The event does not end the scan for the payload `d`: if it is a
compare-and-swap then it failed and observed another payload. -/
def Event.goes_on (d : Nat) : Event → Prop
  | .cas _ x _ o => o ≠ x ∧ o &&& HTABLE_MASK_DATA ≠ d
  | _ => True

/-- What holds of an event of a call for the payload `d` with hash `h` on a
table `t0`, given the events `rest` of the call before it: no event before it
ended the scan, and a compare-and-swap comes directly after the read of a
staged bucket `k`, addresses `HTABLE_ADDR(h + k)`, expects a word with the
occupancy bit clear, offers `d` with the occupancy bit, and observes the word of
`t0`. -/
def scan_rule (e : Env) (h d : Nat) (t0 : Nat → Nat) (ev : Event) (rest : List Event) : Prop :=
  (∀ ev2, ev2 ∈ rest → ev2.goes_on d) ∧
  match ev with
  | .cas a x y o =>
    ∃ k rest2, rest = Event.inspect k :: rest2 ∧ a = HTABLE_ADDR e (u64 (h + k)) ∧
      x &&& HTABLE_MASK_OCCUPIED = 0 ∧ y = d ||| HTABLE_MASK_OCCUPIED ∧ o = t0 a
  | _ => True

/-- Every event of the trace (newest first) satisfies `rule` with respect to
the events before it. -/
def hist_ok (rule : Event → List Event → Prop) : List Event → Prop
  | [] => True
  | ev :: rest => rule ev rest ∧ hist_ok rule rest

/-- How a call for the payload `d` on the table `t0` that returned `res` ended:
`INSERTED` after a compare-and-swap that observed the expected word and wrote
the table; `FOUND` with the table as it was, after a compare-and-swap that
failed and observed the payload `d`, or after the read of a staged bucket. -/
def finished (d : Nat) (t0 : Nat → Nat) (evs : List Event) (res : Nat) (t : Nat → Nat) : Prop :=
  (res = HTABLE_INSERTED ∧ ∃ a x y rest, evs = Event.cas a x y x :: rest ∧
    t = Function.update t0 a y) ∨
  (res = HTABLE_FOUND ∧ t = t0 ∧
    ((∃ a x y o rest, evs = Event.cas a x y o :: rest ∧ o ≠ x ∧ o &&& HTABLE_MASK_DATA = d) ∨
      ∃ k rest, evs = Event.inspect k :: rest))

/-- The context `c` after the events `evs` (newest first), which change
nothing but the trace. -/
def htable_ctx.log (c : htable_ctx) (evs : List Event) : htable_ctx :=
  { c with trace := evs ++ c.trace }

/-- The small build with a transport that delivers stale words: every fetched
word is zero, whatever the table holds. -/
def stale_env : Env :=
  { HTABLE_CHUNK_SIZE := 2, HTABLE_MAX_NR_OF_CHUNKS := 2, HTABLE_BLOCK_SIZE := 134217728,
    THREADS := 1, hash := fun _ => 0, fetch := fun _ _ _ => 0 }

/-- Depth-1 lookahead at an event that belongs to chunk `i`, given the events
`rest` of the call before it: if `i + 1 < HTABLE_MAX_NR_OF_CHUNKS` then
`query_chunk` has been called for chunk `i + 1` and has issued a fetch into the
staging slot of that chunk, and `query_chunk` has not been called for any later
chunk. -/
def lookahead (e : Env) (i : Nat) (rest : List Event) : Prop :=
  (i + 1 < e.HTABLE_MAX_NR_OF_CHUNKS →
    Event.query (i + 1) ∈ rest ∧
    ∃ id src size, Event.memget id (u64 ((i + 1) * e.HTABLE_CHUNK_SIZE)) src size ∈ rest) ∧
  ∀ n, Event.query n ∈ rest → n ≤ i + 1

/-- What holds of an event of a call that started when the next handle was
`f0`, given the events `rest` of the call before it: the read of a staged
bucket `k` has the lookahead of its chunk `k / HTABLE_CHUNK_SIZE`; a handle
slot `s` that held a handle of this call is assigned `NULL`, directly after
`upc_sync` on that handle, with the lookahead of its chunk `s / 2`; and a fetch
gets a handle of this call. -/
def lookahead_rule (e : Env) (f0 : Nat) (ev : Event) (rest : List Event) : Prop :=
  match ev with
  | .inspect k => lookahead e (k / e.HTABLE_CHUNK_SIZE) rest
  | .store s (some id) new =>
    f0 ≤ id → new = none ∧ (∃ rest2, rest = Event.sync id :: rest2) ∧ lookahead e (s / 2) rest
  | .memget id _ _ _ => f0 ≤ id
  | _ => True

/-- The state of a call that started with the handle slots `hd0` and the next
handle `f0`, when chunk `i` is the next to be scanned: `evs` are the events of
the call so far. -/
structure prefetch_inv (e : Env) (f0 : Nat) (hd0 : Nat → Option Nat) (i : Nat)
    (c : htable_ctx) (evs : List Event) : Prop where
  hist : hist_ok (lookahead_rule e f0) evs
  queried : ∀ n, Event.query n ∈ evs → n ≤ i
  issued : i < e.HTABLE_MAX_NR_OF_CHUNKS → Event.query i ∈ evs ∧
    ∃ id src size, Event.memget id (u64 (i * e.HTABLE_CHUNK_SIZE)) src size ∈ evs
  idle : ∀ s, s < 2 * i → c.handle s = none
  later : ∀ s, 2 * (i + 1) ≤ s → c.handle s = hd0 s
  own : ∀ s id, c.handle s = some id → f0 ≤ id → s / 2 = i
  held : i < e.HTABLE_MAX_NR_OF_CHUNKS → ∃ id, f0 ≤ id ∧ c.handle (2 * i) = some id
  fresh : f0 ≤ c.fresh

/-! ## Machine arithmetic -/

theorem HTABLE_BLOCK_eq (x : Nat) : HTABLE_BLOCK x = x % 134217728 := by
  have h := Nat.and_pow_two_sub_one_eq_mod x 27
  simpa [HTABLE_BLOCK] using h

theorem HTABLE_THREAD_eq (x : Nat) (hx : x < 18446744073709551616) :
    HTABLE_THREAD x = x / 134217728 := by
  have h1 : (0xfffffffff8000000 : Nat) = (2 ^ 37 - 1) <<< 27 := by decide
  have h2 : (x &&& ((2 ^ 37 - 1) <<< 27)) >>> 27 = (x >>> 27) &&& (2 ^ 37 - 1) := by
    apply Nat.eq_of_testBit_eq
    intro i
    simp only [Nat.testBit_shiftRight, Nat.testBit_and, Nat.testBit_shiftLeft]
    simp
  unfold HTABLE_THREAD
  rw [h1, h2, Nat.and_pow_two_sub_one_eq_mod, Nat.shiftRight_eq_div_pow]
  norm_num
  omega

theorem occupied_or (d : Nat) : (d ||| HTABLE_MASK_OCCUPIED) &&& HTABLE_MASK_OCCUPIED ≠ 0 := by
  intro h
  have h2 : ((d ||| HTABLE_MASK_OCCUPIED) &&& HTABLE_MASK_OCCUPIED).testBit 63 = true := by
    have e : HTABLE_MASK_OCCUPIED = 2 ^ 63 := by decide
    rw [e, Nat.testBit_and, Nat.testBit_or, Nat.testBit_two_pow_self]
    simp
  rw [h] at h2
  simp at h2

theorem payload_or (v : Nat) :
    ((v &&& HTABLE_MASK_DATA) ||| HTABLE_MASK_OCCUPIED) &&& HTABLE_MASK_DATA
      = v &&& HTABLE_MASK_DATA := by
  have e1 : HTABLE_MASK_OCCUPIED = 2 ^ 63 := by decide
  have e2 : HTABLE_MASK_DATA = 2 ^ 63 - 1 := by decide
  rw [e1, e2]
  apply Nat.eq_of_testBit_eq
  intro i
  simp only [Nat.testBit_and, Nat.testBit_or, Nat.testBit_two_pow_sub_one, Nat.testBit_two_pow]
  by_cases h : i < 63
  · have h3 : ¬ (63 = i) := by omega
    simp [h, h3]
  · simp [h]

theorem mask_data_idem (v : Nat) :
    (v &&& HTABLE_MASK_DATA) &&& HTABLE_MASK_DATA = v &&& HTABLE_MASK_DATA := by
  rw [Nat.land_assoc, Nat.and_self]

/-- Inside one block of the blocked layout, adding an offset commutes with the
reduction modulo the table length. -/
theorem mod_add_block (y d T : Nat) (h : y % 134217728 + d < 134217728) :
    (y + d) % (134217728 * T) = y % (134217728 * T) + d := by
  rcases Nat.eq_zero_or_pos T with hT | hT
  · subst hT; simp
  have hM : 0 < 134217728 * T := by omega
  have h1 : y % (134217728 * T) % 134217728 = y % 134217728 := Nat.mod_mul_right_mod y _ T
  have h2 : y % (134217728 * T) < 134217728 * T := Nat.mod_lt _ hM
  have h3 : (y + d) % (134217728 * T) = (y % (134217728 * T) + d) % (134217728 * T) := by
    rw [Nat.mod_add_mod]
  rw [h3]
  apply Nat.mod_eq_of_lt
  generalize y % (134217728 * T) = r at h1 h2
  omega

/-! ## Frame properties of the transport calls -/

@[simp] theorem sync_slot_table (ctx : htable_ctx) (s : Nat) : (sync_slot ctx s).table = ctx.table := by
  unfold sync_slot; split <;> rfl

@[simp] theorem sync_slot_chunks (ctx : htable_ctx) (s : Nat) :
    (sync_slot ctx s).chunks = ctx.chunks := by
  unfold sync_slot; split <;> rfl

@[simp] theorem sync_slot_fresh (ctx : htable_ctx) (s : Nat) : (sync_slot ctx s).fresh = ctx.fresh := by
  unfold sync_slot; split <;> rfl

@[simp] theorem sync_on_chunk_table (ctx : htable_ctx) (n : Nat) :
    (sync_on_chunk ctx n).table = ctx.table := by
  simp [sync_on_chunk]

@[simp] theorem sync_on_chunk_chunks (ctx : htable_ctx) (n : Nat) :
    (sync_on_chunk ctx n).chunks = ctx.chunks := by
  simp [sync_on_chunk]

@[simp] theorem sync_on_chunk_fresh (ctx : htable_ctx) (n : Nat) :
    (sync_on_chunk ctx n).fresh = ctx.fresh := by
  simp [sync_on_chunk]

@[simp] theorem query_chunk_table (e : Env) (ctx : htable_ctx) (h n : Nat) :
    (query_chunk e ctx h n).table = ctx.table := by
  unfold query_chunk
  simp only []
  split <;> simp [store_handle, upc_memget_nb]

/-- Fetch and compare-and-swap address the same buckets: in the reference
build, with a transport that returns the current contents, `query_chunk`
stages in slot `n` exactly the buckets that the scan of chunk `n` will
compare-and-swap, and leaves the other staged words alone. -/
theorem query_chunk_chunks (e : Env) (hwf : e.wf) (hsp : e.fetch_current)
    (ctx : htable_ctx) (h n k : Nat)
    (hn : n < e.HTABLE_MAX_NR_OF_CHUNKS) :
    (query_chunk e ctx h n).chunks k =
      if n * e.HTABLE_CHUNK_SIZE ≤ k ∧ k < n * e.HTABLE_CHUNK_SIZE + e.HTABLE_CHUNK_SIZE
      then ctx.table (probe e h k) else ctx.chunks k := by
  obtain ⟨hB, hS1, hSB, hC1, hC, hT1, hT⟩ := hwf
  have hm : n * e.HTABLE_CHUNK_SIZE < 288230376151711744 := by
    have h1 : n * e.HTABLE_CHUNK_SIZE ≤ 2147483647 * 134217728 :=
      Nat.mul_le_mul (by omega) (by omega)
    omega
  have hM : u64 (e.HTABLE_BLOCK_SIZE * e.THREADS) = 134217728 * e.THREADS := by
    unfold u64; rw [hB]; omega
  unfold query_chunk probe HTABLE_ADDR
  simp only [hM]
  generalize n * e.HTABLE_CHUNK_SIZE = m at hm ⊢
  generalize hS : e.HTABLE_CHUNK_SIZE = S at *
  have hx : u64 (h + u64 m) < 18446744073709551616 := Nat.mod_lt _ (by norm_num)
  have hx2 : sub64 (u64 (u64 (h + u64 m) + S)) 1 < 18446744073709551616 := Nat.mod_lt _ (by norm_num)
  rw [HTABLE_THREAD_eq _ hx, HTABLE_THREAD_eq _ hx2, HTABLE_BLOCK_eq]
  split
  · rename_i hne
    simp only [store_handle, upc_memget_nb, sync_on_chunk_chunks, sync_on_chunk_table, hsp _ _ _]
    unfold u64 sub64 sizeof_bucket_t at *
    rw [hB]
    by_cases h2 : (m % 18446744073709551616 + ((134217728 + 18446744073709551616 -
        (h + m % 18446744073709551616) % 18446744073709551616 % 134217728) % 18446744073709551616)) % 18446744073709551616 ≤ k ∧
        k < (m % 18446744073709551616 + ((134217728 + 18446744073709551616 -
        (h + m % 18446744073709551616) % 18446744073709551616 % 134217728) % 18446744073709551616)) % 18446744073709551616 +
        8 * ((S + 18446744073709551616 - (134217728 + 18446744073709551616 -
        (h + m % 18446744073709551616) % 18446744073709551616 % 134217728) % 18446744073709551616) % 18446744073709551616) % 18446744073709551616 / 8
    · rw [if_pos h2]
      have h3 : m ≤ k ∧ k < m + S := by omega
      rw [if_pos h3]
      congr 1
      rw [← mod_add_block _ _ _ (by omega)]
      congr 1
      omega
    · rw [if_neg h2]
      by_cases h4 : m % 18446744073709551616 ≤ k ∧ k < m % 18446744073709551616 +
          8 * ((134217728 + 18446744073709551616 -
          (h + m % 18446744073709551616) % 18446744073709551616 % 134217728) % 18446744073709551616) % 18446744073709551616 / 8
      · rw [if_pos h4]
        have h3 : m ≤ k ∧ k < m + S := by omega
        rw [if_pos h3]
        congr 1
        rw [← mod_add_block _ _ _ (by omega)]
        congr 1
        omega
      · rw [if_neg h4]
        have h3 : ¬ (m ≤ k ∧ k < m + S) := by omega
        rw [if_neg h3]
  · rename_i heq
    simp only [store_handle, upc_memget_nb, sync_on_chunk_chunks, sync_on_chunk_table, hsp _ _ _]
    unfold u64 sub64 sizeof_bucket_t at *
    by_cases h4 : m % 18446744073709551616 ≤ k ∧ k < m % 18446744073709551616 +
        8 * S % 18446744073709551616 / 8
    · rw [if_pos h4]
      have h3 : m ≤ k ∧ k < m + S := by omega
      rw [if_pos h3]
      congr 1
      rw [← mod_add_block _ _ _ (by omega)]
      congr 1
      omega
    · rw [if_neg h4]
      have h3 : ¬ (m ≤ k ∧ k < m + S) := by omega
      rw [if_neg h3]

/-! ## The chunked lookup is a linear probe -/

theorem linear_probe_zero (e : Env) (h d : Nat) (t : Nat → Nat) (k : Nat) :
    linear_probe e h d t 0 k = (none, t) := rfl

theorem linear_probe_succ (e : Env) (h d : Nat) (t : Nat → Nat) (fuel k : Nat) :
    linear_probe e h d t (fuel + 1) k =
      if t (probe e h k) &&& HTABLE_MASK_OCCUPIED = 0 then
        (some HTABLE_INSERTED, Function.update t (probe e h k) (d ||| HTABLE_MASK_OCCUPIED))
      else if t (probe e h k) &&& HTABLE_MASK_DATA = d then (some HTABLE_FOUND, t)
      else linear_probe e h d t fuel (k + 1) := rfl

theorem linear_probe_none (e : Env) (h d : Nat) (t : Nat → Nat) (fuel k : Nat)
    (hnone : (linear_probe e h d t fuel k).1 = none) :
    (linear_probe e h d t fuel k).2 = t := by
  induction fuel generalizing k with
  | zero => rfl
  | succ fuel ih =>
    rw [linear_probe_succ] at hnone ⊢
    by_cases h1 : t (probe e h k) &&& HTABLE_MASK_OCCUPIED = 0
    · simp [h1] at hnone
    · by_cases h2 : t (probe e h k) &&& HTABLE_MASK_DATA = d
      · simp [h1, h2] at hnone
      · simp only [h1, h2, if_false] at hnone ⊢
        exact ih _ hnone

theorem linear_probe_add (e : Env) (h d : Nat) (t : Nat → Nat) (a b k : Nat) :
    linear_probe e h d t (a + b) k =
      if (linear_probe e h d t a k).1 = none then linear_probe e h d t b (k + a)
      else linear_probe e h d t a k := by
  induction a generalizing k with
  | zero => simp [linear_probe_zero]
  | succ a ih =>
    rw [show a + 1 + b = (a + b) + 1 by omega, linear_probe_succ, linear_probe_succ]
    by_cases h1 : t (probe e h k) &&& HTABLE_MASK_OCCUPIED = 0
    · simp [h1]
    · by_cases h2 : t (probe e h k) &&& HTABLE_MASK_DATA = d
      · simp [h1, h2]
      · simp only [h1, h2, if_false]
        rw [ih, show k + 1 + a = k + (a + 1) by omega]

theorem scan_chunk_frame (e : Env) (h d i fuel j : Nat) (ctx : htable_ctx) :
    (scan_chunk e h d i fuel j ctx).2.chunks = ctx.chunks ∧
    (scan_chunk e h d i fuel j ctx).2.handle = ctx.handle ∧
    (scan_chunk e h d i fuel j ctx).2.fresh = ctx.fresh := by
  induction fuel generalizing j ctx with
  | zero => simp [scan_chunk]
  | succ fuel ih =>
    unfold scan_chunk
    simp only []
    split_ifs
    · simp [CAS]
    · simp [CAS]
    · refine ⟨(ih _ _).1.trans ?_, (ih _ _).2.1.trans ?_, (ih _ _).2.2.trans ?_⟩ <;> simp [CAS]
    · simp
    · refine ⟨(ih _ _).1.trans ?_, (ih _ _).2.1.trans ?_, (ih _ _).2.2.trans ?_⟩ <;> simp

theorem scan_chunk_linear (e : Env) (h d i fuel j : Nat) (ctx : htable_ctx)
    (hi : i * e.HTABLE_CHUNK_SIZE + j + fuel < 18446744073709551616)
    (hst : ∀ j2, j ≤ j2 → j2 < j + fuel →
      ctx.chunks (i * e.HTABLE_CHUNK_SIZE + j2) = ctx.table (probe e h (i * e.HTABLE_CHUNK_SIZE + j2))) :
    (scan_chunk e h d i fuel j ctx).1 = (linear_probe e h d ctx.table fuel (i * e.HTABLE_CHUNK_SIZE + j)).1 ∧
    (scan_chunk e h d i fuel j ctx).2.table = (linear_probe e h d ctx.table fuel (i * e.HTABLE_CHUNK_SIZE + j)).2 := by
  induction fuel generalizing j ctx with
  | zero => simp [scan_chunk, linear_probe]
  | succ fuel ih =>
    have hidx : u64 (u64 (i * e.HTABLE_CHUNK_SIZE) + j) = i * e.HTABLE_CHUNK_SIZE + j := by
      unfold u64; omega
    have hs := hst j (le_refl _) (by omega)
    rw [linear_probe_succ]
    unfold scan_chunk
    simp only [hidx, CAS]
    have hp : HTABLE_ADDR e (u64 (h + (i * e.HTABLE_CHUNK_SIZE + j))) = probe e h (i * e.HTABLE_CHUNK_SIZE + j) := rfl
    rw [hp, hs]
    by_cases h1 : ctx.table (probe e h (i * e.HTABLE_CHUNK_SIZE + j)) &&& HTABLE_MASK_OCCUPIED = 0
    · simp [h1]
    · simp only [h1, if_false]
      by_cases h2 : ctx.table (probe e h (i * e.HTABLE_CHUNK_SIZE + j)) &&& HTABLE_MASK_DATA = d
      · simp [h2]
      · simp only [h2, if_false]
        have := ih (j + 1) { ctx with trace := Event.inspect (i * e.HTABLE_CHUNK_SIZE + j) :: ctx.trace }
          (by omega) (fun j2 hj2 hj3 => hst j2 (by omega) (by omega))
        simpa [Nat.add_assoc] using this

theorem chunk_loop_succ (e : Env) (h d fuel i : Nat) (ctx : htable_ctx) :
    chunk_loop e h d (fuel + 1) i ctx =
      match scan_chunk e h d i e.HTABLE_CHUNK_SIZE 0
        (sync_on_chunk (if u64 (i + 1) < e.HTABLE_MAX_NR_OF_CHUNKS
          then query_chunk e ctx h (u64 (i + 1)) else ctx) i) with
      | (some r, ctx) => (r, ctx)
      | (none, ctx) => chunk_loop e h d fuel (i + 1) ctx := rfl

theorem chunk_loop_linear (e : Env) (hwf : e.wf) (hsp : e.fetch_current) (h d fuel i : Nat)
    (ctx : htable_ctx) (hfi : i + fuel = e.HTABLE_MAX_NR_OF_CHUNKS) (hst : staged e ctx h i) :
    (chunk_loop e h d fuel i ctx).1 =
      ((linear_probe e h d ctx.table (fuel * e.HTABLE_CHUNK_SIZE) (i * e.HTABLE_CHUNK_SIZE)).1).getD
        HTABLE_FULL ∧
    (chunk_loop e h d fuel i ctx).2.table =
      (linear_probe e h d ctx.table (fuel * e.HTABLE_CHUNK_SIZE) (i * e.HTABLE_CHUNK_SIZE)).2 := by
  induction fuel generalizing i ctx with
  | zero => simp [chunk_loop, linear_probe_zero]
  | succ fuel ih =>
    have hwf2 := hwf
    obtain ⟨hB, hS1, hSB, hC1, hC, hT1, hT⟩ := hwf2
    have hu : u64 (i + 1) = i + 1 := by unfold u64; omega
    have hiS : i * e.HTABLE_CHUNK_SIZE + e.HTABLE_CHUNK_SIZE ≤ 2147483647 * 134217728 := by
      have h1 : (i + 1) * e.HTABLE_CHUNK_SIZE ≤ 2147483647 * 134217728 :=
        Nat.mul_le_mul (by omega) (by omega)
      rw [Nat.add_mul, Nat.one_mul] at h1
      exact h1
    rw [chunk_loop_succ, hu]
    -- the context in which chunk `i` is scanned
    generalize hc : sync_on_chunk (if i + 1 < e.HTABLE_MAX_NR_OF_CHUNKS
          then query_chunk e ctx h (i + 1) else ctx) i = c
    have hct : c.table = ctx.table := by
      rw [← hc]; split_ifs <;> simp
    have hcs : staged e c h i := by
      intro j hj
      rw [hct, ← hst j hj, ← hc, sync_on_chunk_chunks]
      split_ifs with hlt
      · rw [query_chunk_chunks e hwf hsp ctx h (i + 1) _ hlt, if_neg]
        rw [Nat.add_mul]; omega
      · rfl
    have hcs2 : i + 1 < e.HTABLE_MAX_NR_OF_CHUNKS → staged e c h (i + 1) := by
      intro hlt j hj
      rw [hct, ← hc, sync_on_chunk_chunks, if_pos hlt,
        query_chunk_chunks e hwf hsp ctx h (i + 1) _ hlt, if_pos]
      omega
    have hsl := scan_chunk_linear e h d i e.HTABLE_CHUNK_SIZE 0 c (by omega)
      (fun j2 _ hj2 => hcs j2 (by omega))
    have hfr := scan_chunk_frame e h d i e.HTABLE_CHUNK_SIZE 0 c
    rw [show (fuel + 1) * e.HTABLE_CHUNK_SIZE = e.HTABLE_CHUNK_SIZE + fuel * e.HTABLE_CHUNK_SIZE by
      rw [Nat.add_mul, Nat.one_mul, Nat.add_comm], linear_probe_add]
    rw [Nat.add_zero, hct] at hsl
    cases hsc : scan_chunk e h d i e.HTABLE_CHUNK_SIZE 0 c with
    | mk r c2 =>
      rw [hsc] at hsl hfr
      cases r with
      | some r =>
        have hne : ¬ (linear_probe e h d ctx.table e.HTABLE_CHUNK_SIZE (i * e.HTABLE_CHUNK_SIZE)).1 = none := by
          rw [← hsl.1]; simp
        simp only [if_neg hne]
        rw [← hsl.1, ← hsl.2]
        simp
      | none =>
        have hnone : (linear_probe e h d ctx.table e.HTABLE_CHUNK_SIZE (i * e.HTABLE_CHUNK_SIZE)).1 = none := by
          rw [← hsl.1]
        have hc2t : c2.table = ctx.table := by
          rw [hsl.2]; exact linear_probe_none _ _ _ _ _ _ hnone
        simp only [if_pos hnone]
        rw [show i * e.HTABLE_CHUNK_SIZE + e.HTABLE_CHUNK_SIZE = (i + 1) * e.HTABLE_CHUNK_SIZE by
          rw [Nat.add_mul, Nat.one_mul]]
        rcases Nat.eq_zero_or_pos fuel with hf | hf
        · subst hf
          simp [chunk_loop, linear_probe_zero, hc2t]
        · have hst2 : staged e c2 h (i + 1) := by
            intro j hj
            rw [hfr.1, hc2t, ← hct]
            exact hcs2 (by omega) j hj
          have := ih (i + 1) c2 (by omega) hst2
          rw [hc2t] at this
          exact this

/-- The chunked and prefetched lookup computes the plain linear probe: in the
reference build and single-process execution, `htable_find_or_put` returns the
result and the final table of `linear_probe` over the whole probe budget. -/
theorem find_or_put_linear (e : Env) (hwf : e.wf) (hsp : e.fetch_current) (ctx : htable_ctx)
    (v : Nat) :
    (htable_find_or_put e ctx v).1 =
      ((linear_probe e (u64 (e.hash (v &&& HTABLE_MASK_DATA))) (v &&& HTABLE_MASK_DATA) ctx.table
        (e.HTABLE_MAX_NR_OF_CHUNKS * e.HTABLE_CHUNK_SIZE) 0).1).getD HTABLE_FULL ∧
    (htable_find_or_put e ctx v).2.table =
      (linear_probe e (u64 (e.hash (v &&& HTABLE_MASK_DATA))) (v &&& HTABLE_MASK_DATA) ctx.table
        (e.HTABLE_MAX_NR_OF_CHUNKS * e.HTABLE_CHUNK_SIZE) 0).2 := by
  unfold htable_find_or_put
  simp only []
  have hst : staged e (query_chunk e ctx (u64 (e.hash (v &&& HTABLE_MASK_DATA))) 0)
      (u64 (e.hash (v &&& HTABLE_MASK_DATA))) 0 := by
    intro j hj
    rw [query_chunk_table, query_chunk_chunks e hwf hsp ctx _ 0 _ (by have := hwf.2.2.2.1; omega), if_pos]
    omega
  have := chunk_loop_linear e hwf hsp (u64 (e.hash (v &&& HTABLE_MASK_DATA))) (v &&& HTABLE_MASK_DATA)
    e.HTABLE_MAX_NR_OF_CHUNKS 0 _ (by omega) hst
  simpa using this

/-! ## What a linear probe returns -/

theorem linear_probe_inserted (e : Env) (h d : Nat) (t : Nat → Nat) (fuel k : Nat)
    (hr : (linear_probe e h d t fuel k).1 = some HTABLE_INSERTED) :
    ∃ k1, k ≤ k1 ∧ k1 < k + fuel ∧ t (probe e h k1) &&& HTABLE_MASK_OCCUPIED = 0 ∧
      (∀ k2, k ≤ k2 → k2 < k1 → t (probe e h k2) &&& HTABLE_MASK_OCCUPIED ≠ 0 ∧
        t (probe e h k2) &&& HTABLE_MASK_DATA ≠ d) ∧
      (linear_probe e h d t fuel k).2 =
        Function.update t (probe e h k1) (d ||| HTABLE_MASK_OCCUPIED) := by
  induction fuel generalizing k with
  | zero => simp [linear_probe_zero] at hr
  | succ fuel ih =>
    rw [linear_probe_succ] at hr ⊢
    by_cases h1 : t (probe e h k) &&& HTABLE_MASK_OCCUPIED = 0
    · refine ⟨k, le_refl _, by omega, h1, fun k2 hk2 hk3 => absurd hk3 (by omega), ?_⟩
      simp [h1]
    · by_cases h2 : t (probe e h k) &&& HTABLE_MASK_DATA = d
      · simp [h1, h2, HTABLE_FOUND, HTABLE_INSERTED] at hr
      · simp only [h1, h2, if_false] at hr ⊢
        obtain ⟨k1, hk1, hk1b, hclr, hbef, htab⟩ := ih (k + 1) hr
        refine ⟨k1, by omega, by omega, hclr, ?_, htab⟩
        intro k2 hk2 hk3
        rcases Nat.eq_or_lt_of_le hk2 with heq | hlt
        · subst heq; exact ⟨h1, h2⟩
        · exact hbef k2 hlt hk3

theorem linear_probe_found (e : Env) (h d : Nat) (t : Nat → Nat) (fuel k : Nat)
    (hr : (linear_probe e h d t fuel k).1 = some HTABLE_FOUND) :
    (linear_probe e h d t fuel k).2 = t ∧
    ∃ k1, k ≤ k1 ∧ k1 < k + fuel ∧ t (probe e h k1) &&& HTABLE_MASK_OCCUPIED ≠ 0 ∧
      t (probe e h k1) &&& HTABLE_MASK_DATA = d ∧
      (∀ k2, k ≤ k2 → k2 < k1 → t (probe e h k2) &&& HTABLE_MASK_OCCUPIED ≠ 0 ∧
        t (probe e h k2) &&& HTABLE_MASK_DATA ≠ d) := by
  induction fuel generalizing k with
  | zero => simp [linear_probe_zero] at hr
  | succ fuel ih =>
    rw [linear_probe_succ] at hr ⊢
    by_cases h1 : t (probe e h k) &&& HTABLE_MASK_OCCUPIED = 0
    · simp [h1, HTABLE_FOUND, HTABLE_INSERTED] at hr
    · by_cases h2 : t (probe e h k) &&& HTABLE_MASK_DATA = d
      · simp only [h1, h2, if_false, if_true]
        exact ⟨trivial, k, le_refl _, by omega, h1, h2, fun k2 hk2 hk3 => absurd hk3 (by omega)⟩
      · simp only [h1, h2, if_false] at hr ⊢
        obtain ⟨htab, k1, hk1, hk1b, hocc, hpay, hbef⟩ := ih (k + 1) hr
        refine ⟨htab, k1, by omega, by omega, hocc, hpay, ?_⟩
        intro k2 hk2 hk3
        rcases Nat.eq_or_lt_of_le hk2 with heq | hlt
        · subst heq; exact ⟨h1, h2⟩
        · exact hbef k2 hlt hk3

theorem linear_probe_none_iff (e : Env) (h d : Nat) (t : Nat → Nat) (fuel k : Nat) :
    (linear_probe e h d t fuel k).1 = none ↔
      ∀ k1, k ≤ k1 → k1 < k + fuel → t (probe e h k1) &&& HTABLE_MASK_OCCUPIED ≠ 0 ∧
        t (probe e h k1) &&& HTABLE_MASK_DATA ≠ d := by
  induction fuel generalizing k with
  | zero =>
    simp only [linear_probe_zero, true_iff]
    intro k1 h1 h2; omega
  | succ fuel ih =>
    rw [linear_probe_succ]
    by_cases h1 : t (probe e h k) &&& HTABLE_MASK_OCCUPIED = 0
    · simp only [h1, if_true]
      constructor
      · intro hc; simp at hc
      · intro hall; exact absurd h1 (hall k (le_refl _) (by omega)).1
    · by_cases h2 : t (probe e h k) &&& HTABLE_MASK_DATA = d
      · simp only [h1, h2, if_false, if_true]
        constructor
        · intro hc; simp at hc
        · intro hall; exact absurd h2 (hall k (le_refl _) (by omega)).2
      · simp only [h1, h2, if_false]
        rw [ih (k + 1)]
        constructor
        · intro hall k1 hk1 hk2
          rcases Nat.eq_or_lt_of_le hk1 with heq | hlt
          · subst heq; exact ⟨h1, h2⟩
          · exact hall k1 hlt (by omega)
        · intro hall k1 hk1 hk2
          exact hall k1 (by omega) (by omega)

theorem linear_probe_result (e : Env) (h d : Nat) (t : Nat → Nat) (fuel k : Nat) :
    (linear_probe e h d t fuel k).1 = none ∨
    (linear_probe e h d t fuel k).1 = some HTABLE_FOUND ∨
    (linear_probe e h d t fuel k).1 = some HTABLE_INSERTED := by
  induction fuel generalizing k with
  | zero => left; rfl
  | succ fuel ih =>
    rw [linear_probe_succ]
    by_cases h1 : t (probe e h k) &&& HTABLE_MASK_OCCUPIED = 0
    · simp [h1]
    · by_cases h2 : t (probe e h k) &&& HTABLE_MASK_DATA = d
      · simp [h1, h2]
      · simp only [h1, h2, if_false]; exact ih _

theorem linear_probe_present (e : Env) (h d : Nat) (t : Nat → Nat) (fuel k k1 : Nat)
    (hk1 : k ≤ k1) (hk1b : k1 < k + fuel)
    (hocc : t (probe e h k1) &&& HTABLE_MASK_OCCUPIED ≠ 0)
    (hpay : t (probe e h k1) &&& HTABLE_MASK_DATA = d)
    (hbef : ∀ k2, k ≤ k2 → k2 < k1 → t (probe e h k2) &&& HTABLE_MASK_OCCUPIED ≠ 0) :
    (linear_probe e h d t fuel k).1 = some HTABLE_FOUND := by
  induction fuel generalizing k with
  | zero => omega
  | succ fuel ih =>
    rw [linear_probe_succ]
    rcases Nat.eq_or_lt_of_le hk1 with heq | hlt
    · subst heq; simp [hocc, hpay]
    · have h1 := hbef k (le_refl _) hlt
      by_cases h2 : t (probe e h k) &&& HTABLE_MASK_DATA = d
      · simp [h1, h2]
      · simp only [h1, h2, if_false]
        exact ih (k + 1) hlt (by omega) (fun k2 hk2 hk3 => hbef k2 (by omega) hk3)

/-! ## Immortality of occupied buckets -/

theorem CAS_immortal (ctx : htable_ctx) (addr old new a : Nat)
    (hold : old &&& HTABLE_MASK_OCCUPIED = 0)
    (hocc : ctx.table a &&& HTABLE_MASK_OCCUPIED ≠ 0) :
    (CAS ctx addr old new).2.table a = ctx.table a := by
  unfold CAS
  simp only []
  split_ifs with h1
  · rw [Function.update_apply]
    split_ifs with h2
    · subst h2; rw [h1] at hocc; exact absurd hold hocc
    · rfl
  · rfl

theorem scan_chunk_immortal (e : Env) (h d i fuel j : Nat) (ctx : htable_ctx) (a : Nat)
    (hocc : ctx.table a &&& HTABLE_MASK_OCCUPIED ≠ 0) :
    (scan_chunk e h d i fuel j ctx).2.table a = ctx.table a := by
  induction fuel generalizing j ctx with
  | zero => rfl
  | succ fuel ih =>
    unfold scan_chunk
    simp only []
    by_cases h1 : ctx.chunks (u64 (u64 (i * e.HTABLE_CHUNK_SIZE) + j)) &&& HTABLE_MASK_OCCUPIED = 0
    · have hc := CAS_immortal
        { ctx with trace := Event.inspect (u64 (u64 (i * e.HTABLE_CHUNK_SIZE) + j)) :: ctx.trace }
        (HTABLE_ADDR e (u64 (h + u64 (u64 (i * e.HTABLE_CHUNK_SIZE) + j))))
        (ctx.chunks (u64 (u64 (i * e.HTABLE_CHUNK_SIZE) + j))) (d ||| HTABLE_MASK_OCCUPIED) a h1 hocc
      rw [if_pos h1]
      split_ifs
      · exact hc
      · exact hc
      · rw [ih _ _ (by rw [hc]; exact hocc), hc]
    · rw [if_neg h1]
      split_ifs
      · rfl
      · exact ih _ _ hocc

theorem chunk_loop_immortal (e : Env) (h d fuel i : Nat) (ctx : htable_ctx) (a : Nat)
    (hocc : ctx.table a &&& HTABLE_MASK_OCCUPIED ≠ 0) :
    (chunk_loop e h d fuel i ctx).2.table a = ctx.table a := by
  induction fuel generalizing i ctx with
  | zero => rfl
  | succ fuel ih =>
    rw [chunk_loop_succ]
    generalize hc : sync_on_chunk (if u64 (i + 1) < e.HTABLE_MAX_NR_OF_CHUNKS
          then query_chunk e ctx h (u64 (i + 1)) else ctx) i = c
    have hct : c.table = ctx.table := by
      rw [← hc]; split_ifs <;> simp
    have hs := scan_chunk_immortal e h d i e.HTABLE_CHUNK_SIZE 0 c a (by rw [hct]; exact hocc)
    cases hsc : scan_chunk e h d i e.HTABLE_CHUNK_SIZE 0 c with
    | mk r c2 =>
      rw [hsc] at hs
      simp only at hs
      cases r with
      | some r => simp only; rw [hs, hct]
      | none =>
        simp only
        rw [ih (i + 1) c2 (by rw [hs, hct]; exact hocc), hs, hct]

/-- A call never changes a bucket whose occupancy bit is set, whatever the
transport delivers. -/
theorem find_or_put_immortal (e : Env) (ctx : htable_ctx) (v a : Nat)
    (hocc : ctx.table a &&& HTABLE_MASK_OCCUPIED ≠ 0) :
    (htable_find_or_put e ctx v).2.table a = ctx.table a := by
  unfold htable_find_or_put
  simp only []
  rw [chunk_loop_immortal _ _ _ _ _ _ _ (by rw [query_chunk_table]; exact hocc), query_chunk_table]

/-! ## Single calls in single-process execution -/

theorem find_or_put_cases (e : Env) (hwf : e.wf) (hsp : e.fetch_current) (ctx : htable_ctx)
    (v : Nat) :
    ((htable_find_or_put e ctx v).1 = HTABLE_FULL ∧
      (linear_probe e (u64 (e.hash (v &&& HTABLE_MASK_DATA))) (v &&& HTABLE_MASK_DATA) ctx.table
        (budget e) 0).1 = none) ∨
    ((htable_find_or_put e ctx v).1 = HTABLE_FOUND ∧
      (linear_probe e (u64 (e.hash (v &&& HTABLE_MASK_DATA))) (v &&& HTABLE_MASK_DATA) ctx.table
        (budget e) 0).1 = some HTABLE_FOUND) ∨
    ((htable_find_or_put e ctx v).1 = HTABLE_INSERTED ∧
      (linear_probe e (u64 (e.hash (v &&& HTABLE_MASK_DATA))) (v &&& HTABLE_MASK_DATA) ctx.table
        (budget e) 0).1 = some HTABLE_INSERTED) := by
  have h1 := (find_or_put_linear e hwf hsp ctx v).1
  unfold budget
  rcases linear_probe_result e (u64 (e.hash (v &&& HTABLE_MASK_DATA))) (v &&& HTABLE_MASK_DATA)
    ctx.table (e.HTABLE_MAX_NR_OF_CHUNKS * e.HTABLE_CHUNK_SIZE) 0 with h2 | h2 | h2
  · left; rw [h1, h2]; exact ⟨rfl, rfl⟩
  · right; left; rw [h1, h2]; exact ⟨rfl, rfl⟩
  · right; right; rw [h1, h2]; exact ⟨rfl, rfl⟩

theorem find_or_put_table (e : Env) (hwf : e.wf) (hsp : e.fetch_current) (ctx : htable_ctx)
    (v : Nat) :
    (htable_find_or_put e ctx v).2.table =
      (linear_probe e (u64 (e.hash (v &&& HTABLE_MASK_DATA))) (v &&& HTABLE_MASK_DATA) ctx.table
        (budget e) 0).2 :=
  (find_or_put_linear e hwf hsp ctx v).2

/-- An `INSERTED` call claims the first unoccupied bucket of the probe
sequence and changes nothing else. -/
theorem find_or_put_inserted (e : Env) (hwf : e.wf) (hsp : e.fetch_current) (ctx : htable_ctx)
    (v : Nat) (hins : (htable_find_or_put e ctx v).1 = HTABLE_INSERTED) :
    ∃ k, k < budget e ∧
      ¬ occupied (ctx.table (probe_seq e v k)) ∧
      (∀ k2, k2 < k → occupied (ctx.table (probe_seq e v k2)) ∧
        payload (ctx.table (probe_seq e v k2)) ≠ v &&& HTABLE_MASK_DATA) ∧
      (htable_find_or_put e ctx v).2.table =
        Function.update ctx.table (probe_seq e v k) ((v &&& HTABLE_MASK_DATA) ||| HTABLE_MASK_OCCUPIED) := by
  rcases find_or_put_cases e hwf hsp ctx v with ⟨h1, _⟩ | ⟨h1, _⟩ | ⟨_, h2⟩
  · rw [h1] at hins; exact absurd hins (by decide)
  · rw [h1] at hins; exact absurd hins (by decide)
  · obtain ⟨k1, _, hk1, hclr, hbef, htab⟩ := linear_probe_inserted _ _ _ _ _ _ h2
    refine ⟨k1, by omega, ?_, fun k2 hk2 => hbef k2 (Nat.zero_le _) hk2, ?_⟩
    · unfold occupied; exact not_not.mpr hclr
    · rw [find_or_put_table e hwf hsp, htab]; rfl

/-- A `FOUND` call saw an occupied bucket with the payload of `v` before any
unoccupied bucket, and changed nothing. -/
theorem find_or_put_found (e : Env) (hwf : e.wf) (hsp : e.fetch_current) (ctx : htable_ctx)
    (v : Nat) (hf : (htable_find_or_put e ctx v).1 = HTABLE_FOUND) :
    (htable_find_or_put e ctx v).2.table = ctx.table ∧
    ∃ k, k < budget e ∧ occupied (ctx.table (probe_seq e v k)) ∧
      payload (ctx.table (probe_seq e v k)) = v &&& HTABLE_MASK_DATA ∧
      ∀ k2, k2 < k → occupied (ctx.table (probe_seq e v k2)) ∧
        payload (ctx.table (probe_seq e v k2)) ≠ v &&& HTABLE_MASK_DATA := by
  rcases find_or_put_cases e hwf hsp ctx v with ⟨h1, _⟩ | ⟨_, h2⟩ | ⟨h1, _⟩
  · rw [h1] at hf; exact absurd hf (by decide)
  · obtain ⟨htab, k1, _, hk1, hocc, hpay, hbef⟩ := linear_probe_found _ _ _ _ _ _ h2
    refine ⟨?_, k1, by omega, hocc, hpay, fun k2 hk2 => hbef k2 (Nat.zero_le _) hk2⟩
    rw [find_or_put_table e hwf hsp, htab]
  · rw [h1] at hf; exact absurd hf (by decide)

/-- A call returns `FULL` exactly when the whole probe budget is occupied by
other payloads, and then it changes nothing. -/
theorem find_or_put_full (e : Env) (hwf : e.wf) (hsp : e.fetch_current) (ctx : htable_ctx)
    (v : Nat) :
    ((htable_find_or_put e ctx v).1 = HTABLE_FULL ↔
      ∀ k, k < budget e → occupied (ctx.table (probe_seq e v k)) ∧
        payload (ctx.table (probe_seq e v k)) ≠ v &&& HTABLE_MASK_DATA) ∧
    ((htable_find_or_put e ctx v).1 = HTABLE_FULL →
      (htable_find_or_put e ctx v).2.table = ctx.table) := by
  have hiff := linear_probe_none_iff e (u64 (e.hash (v &&& HTABLE_MASK_DATA)))
    (v &&& HTABLE_MASK_DATA) ctx.table (budget e) 0
  rcases find_or_put_cases e hwf hsp ctx v with ⟨h1, h2⟩ | ⟨h1, h2⟩ | ⟨h1, h2⟩
  · refine ⟨⟨fun _ k hk => hiff.mp h2 k (Nat.zero_le _) (by omega), fun _ => h1⟩, fun _ => ?_⟩
    rw [find_or_put_table e hwf hsp]
    exact linear_probe_none _ _ _ _ _ _ h2
  · have hne : (htable_find_or_put e ctx v).1 ≠ HTABLE_FULL := by rw [h1]; decide
    refine ⟨⟨fun hc => absurd hc hne, fun hall => ?_⟩, fun hc => absurd hc hne⟩
    have := hiff.mpr (fun k _ hk => hall k (by omega))
    rw [this] at h2; exact absurd h2 (by simp)
  · have hne : (htable_find_or_put e ctx v).1 ≠ HTABLE_FULL := by rw [h1]; decide
    refine ⟨⟨fun hc => absurd hc hne, fun hall => ?_⟩, fun hc => absurd hc hne⟩
    have := hiff.mpr (fun k _ hk => hall k (by omega))
    rw [this] at h2; exact absurd h2 (by simp)

/-- A value that is in the table is found, and the call changes nothing. -/
theorem find_or_put_present (e : Env) (hwf : e.wf) (hsp : e.fetch_current) (ctx : htable_ctx)
    (v : Nat) (hp : present e ctx.table v) :
    (htable_find_or_put e ctx v).1 = HTABLE_FOUND ∧
    (htable_find_or_put e ctx v).2.table = ctx.table := by
  obtain ⟨k, hk, hocc, hpay, hbef⟩ := hp
  have h2 := linear_probe_present e (u64 (e.hash (v &&& HTABLE_MASK_DATA)))
    (v &&& HTABLE_MASK_DATA) ctx.table (budget e) 0 k (Nat.zero_le _) (by omega) hocc hpay
    (fun k2 _ hk2 => hbef k2 hk2)
  have h1 : (htable_find_or_put e ctx v).1 = HTABLE_FOUND := by
    rw [(find_or_put_linear e hwf hsp ctx v).1]
    unfold budget at h2
    rw [h2]; rfl
  exact ⟨h1, (find_or_put_found e hwf hsp ctx v h1).1⟩

/-- After a call that returned `INSERTED` or `FOUND` the value is in the table. -/
theorem present_after (e : Env) (hwf : e.wf) (hsp : e.fetch_current) (ctx : htable_ctx)
    (v : Nat)
    (hr : (htable_find_or_put e ctx v).1 = HTABLE_INSERTED ∨
      (htable_find_or_put e ctx v).1 = HTABLE_FOUND) :
    present e (htable_find_or_put e ctx v).2.table v := by
  rcases hr with hr | hr
  · obtain ⟨k, hk, hclr, hbef, htab⟩ := find_or_put_inserted e hwf hsp ctx v hr
    refine ⟨k, hk, ?_, ?_, ?_⟩
    · rw [htab, Function.update_same]; exact occupied_or _
    · rw [htab, Function.update_same]; exact payload_or v
    · intro k2 hk2
      have hne : probe_seq e v k2 ≠ probe_seq e v k := by
        intro heq
        have := (hbef k2 hk2).1
        rw [heq] at this
        exact hclr this
      rw [htab, Function.update_noteq hne]
      exact (hbef k2 hk2).1
  · obtain ⟨htab, k, hk, hocc, hpay, hbef⟩ := find_or_put_found e hwf hsp ctx v hr
    rw [htab]
    exact ⟨k, hk, hocc, hpay, fun k2 hk2 => (hbef k2 hk2).1⟩

/-- No call removes a value from the table. -/
theorem present_step (e : Env) (ctx : htable_ctx) (u v : Nat) (hp : present e ctx.table v) :
    present e (htable_find_or_put e ctx u).2.table v := by
  obtain ⟨k, hk, hocc, hpay, hbef⟩ := hp
  refine ⟨k, hk, ?_, ?_, ?_⟩
  · rw [find_or_put_immortal e ctx u _ hocc]; exact hocc
  · rw [find_or_put_immortal e ctx u _ hocc]; exact hpay
  · intro k2 hk2
    rw [find_or_put_immortal e ctx u _ (hbef k2 hk2)]; exact hbef k2 hk2

theorem present_run (e : Env) (ctx : htable_ctx) (vs : List Nat) (v : Nat)
    (hp : present e ctx.table v) : present e (run e ctx vs).table v := by
  induction vs generalizing ctx with
  | nil => exact hp
  | cons u vs ih => exact ih _ (present_step e ctx u v hp)

theorem present_congr (e : Env) (t : Nat → Nat) (u v : Nat)
    (huv : u &&& HTABLE_MASK_DATA = v &&& HTABLE_MASK_DATA) (hp : present e t v) :
    present e t u := by
  unfold present probe_seq at *
  rw [huv]; exact hp

/-! ## Sequences of calls -/

theorem not_occupied_zero : ¬ occupied 0 := by
  unfold occupied; simp

/-- While the value is in the table, no call of the sequence returns
`INSERTED` for its payload. -/
theorem calls_present (e : Env) (hwf : e.wf) (hsp : e.fetch_current) (ctx : htable_ctx)
    (vs : List Nat) (v : Nat) (hp : present e ctx.table v) :
    (calls e ctx vs).countP
      (fun c => decide (c.1 &&& HTABLE_MASK_DATA = v &&& HTABLE_MASK_DATA ∧ c.2 = HTABLE_INSERTED)) = 0 := by
  induction vs generalizing ctx with
  | nil => rfl
  | cons u vs ih =>
    unfold calls
    rw [List.countP_cons, ih _ (present_step e ctx u v hp)]
    by_cases huv : u &&& HTABLE_MASK_DATA = v &&& HTABLE_MASK_DATA
    · have := (find_or_put_present e hwf hsp ctx u (present_congr e _ u v huv hp)).1
      simp [this, HTABLE_FOUND, HTABLE_INSERTED]
    · simp [huv]

theorem calls_inserted_le_one (e : Env) (hwf : e.wf) (hsp : e.fetch_current)
    (ctx : htable_ctx) (vs : List Nat) (d : Nat) :
    (calls e ctx vs).countP
      (fun c => decide (c.1 &&& HTABLE_MASK_DATA = d ∧ c.2 = HTABLE_INSERTED)) ≤ 1 := by
  induction vs generalizing ctx with
  | nil => simp [calls]
  | cons u vs ih =>
    unfold calls
    rw [List.countP_cons]
    by_cases hu : u &&& HTABLE_MASK_DATA = d ∧ (htable_find_or_put e ctx u).1 = HTABLE_INSERTED
    · have hp := present_after e hwf hsp ctx u (Or.inl hu.2)
      have h0 := calls_present e hwf hsp _ vs u hp
      rw [hu.1] at h0
      rw [h0]
      split <;> omega
    · have := ih (htable_find_or_put e ctx u).2
      simp only [hu, decide_False]
      simpa using this

/-- Every occupied bucket was either occupied before the call, with the same
word, or was claimed by this call, which then returned `INSERTED` and stored
the payload of its argument. -/
theorem occupied_origin_step (e : Env) (hwf : e.wf) (hsp : e.fetch_current)
    (ctx : htable_ctx) (v a : Nat) (hocc : occupied ((htable_find_or_put e ctx v).2.table a)) :
    ((htable_find_or_put e ctx v).2.table a = ctx.table a ∧ occupied (ctx.table a)) ∨
    ((htable_find_or_put e ctx v).1 = HTABLE_INSERTED ∧
      payload ((htable_find_or_put e ctx v).2.table a) = v &&& HTABLE_MASK_DATA) := by
  rcases find_or_put_cases e hwf hsp ctx v with ⟨h1, _⟩ | ⟨h1, _⟩ | ⟨h1, _⟩
  · have ht := (find_or_put_full e hwf hsp ctx v).2 h1
    left; rw [ht] at hocc ⊢; exact ⟨rfl, hocc⟩
  · have ht := (find_or_put_found e hwf hsp ctx v h1).1
    left; rw [ht] at hocc ⊢; exact ⟨rfl, hocc⟩
  · obtain ⟨k, _, _, _, htab⟩ := find_or_put_inserted e hwf hsp ctx v h1
    by_cases ha : a = probe_seq e v k
    · right
      refine ⟨h1, ?_⟩
      rw [htab, ha, Function.update_same]
      exact payload_or v
    · left
      rw [htab, Function.update_noteq ha] at hocc ⊢
      exact ⟨rfl, hocc⟩

theorem occupied_origin (e : Env) (hwf : e.wf) (hsp : e.fetch_current) (P : Nat → Prop)
    (ctx : htable_ctx) (hP : ∀ a, occupied (ctx.table a) → P (payload (ctx.table a)))
    (pre : List Nat) (a : Nat) (hocc : occupied ((run e ctx pre).table a)) :
    P (payload ((run e ctx pre).table a)) ∨
    ∃ c, c ∈ calls e ctx pre ∧ c.1 &&& HTABLE_MASK_DATA = payload ((run e ctx pre).table a) ∧
      c.2 = HTABLE_INSERTED := by
  induction pre generalizing ctx P with
  | nil => left; exact hP a hocc
  | cons u pre ih =>
    have hstep : ∀ b, occupied ((htable_find_or_put e ctx u).2.table b) →
        (P (payload ((htable_find_or_put e ctx u).2.table b)) ∨
          ((htable_find_or_put e ctx u).1 = HTABLE_INSERTED ∧
            u &&& HTABLE_MASK_DATA = payload ((htable_find_or_put e ctx u).2.table b))) := by
      intro b hb
      rcases occupied_origin_step e hwf hsp ctx u b hb with ⟨h1, h2⟩ | ⟨h1, h2⟩
      · left; rw [h1]; exact hP b h2
      · right; exact ⟨h1, h2.symm⟩
    rcases ih (fun p => P p ∨ ((htable_find_or_put e ctx u).1 = HTABLE_INSERTED ∧
        u &&& HTABLE_MASK_DATA = p)) (htable_find_or_put e ctx u).2 hstep hocc with h1 | h1
    · rcases h1 with h1 | ⟨h1, h2⟩
      · left; exact h1
      · right
        exact ⟨(u, (htable_find_or_put e ctx u).1), List.mem_cons_self _ _, h2, h1⟩
    · obtain ⟨c, hc, hc1, hc2⟩ := h1
      right
      exact ⟨c, List.mem_cons_of_mem _ hc, hc1, hc2⟩

/-! ## The events of a call -/

theorem Emitted.refl (P : Event → Prop) (t : List Event) : Emitted P 0 0 t t :=
  ⟨[], rfl, by simp, by simp, by simp⟩

theorem Emitted.trans {P : Event → Prop} {q1 i1 q2 i2 : Nat} {t0 t1 t2 : List Event}
    (h1 : Emitted P q1 i1 t0 t1) (h2 : Emitted P q2 i2 t1 t2) :
    Emitted P (q1 + q2) (i1 + i2) t0 t2 := by
  obtain ⟨evs1, he1, hq1, hi1, hp1⟩ := h1
  obtain ⟨evs2, he2, hq2, hi2, hp2⟩ := h2
  refine ⟨evs2 ++ evs1, by rw [he2, he1, List.append_assoc], ?_, ?_, ?_⟩
  · rw [List.countP_append]; omega
  · rw [List.countP_append]; omega
  · intro ev hev
    rcases List.mem_append.mp hev with h | h
    · exact hp2 ev h
    · exact hp1 ev h

theorem Emitted.mono {P : Event → Prop} {q i q2 i2 : Nat} {t0 t1 : List Event}
    (h : Emitted P q i t0 t1) (hq : q ≤ q2) (hi : i ≤ i2) : Emitted P q2 i2 t0 t1 := by
  obtain ⟨evs, he, hq1, hi1, hp⟩ := h
  exact ⟨evs, he, by omega, by omega, hp⟩

theorem Emitted.one {P : Event → Prop} (ev : Event) (t : List Event) (hp : P ev) :
    Emitted P (if ev.isQuery then 1 else 0) (if ev.isInspect then 1 else 0) t (ev :: t) := by
  refine ⟨[ev], rfl, ?_, ?_, ?_⟩
  · rw [List.countP_cons, List.countP_nil]; simp
  · rw [List.countP_cons, List.countP_nil]; simp
  · intro ev2 h2
    rw [List.mem_singleton] at h2
    rw [h2]; exact hp

theorem sync_slot_emitted (C : Nat) (ctx : htable_ctx) (s : Nat) :
    Emitted (call_event C) 0 0 ctx.trace (sync_slot ctx s).trace := by
  unfold sync_slot
  split
  · rename_i id _
    have h1 := Emitted.one (P := call_event C) (Event.sync id) ctx.trace trivial
    have h2 := Emitted.one (P := call_event C) (Event.store s ((upc_sync ctx id).handle s) none)
      (Event.sync id :: ctx.trace) trivial
    exact h1.trans h2
  · exact Emitted.refl _ _

theorem sync_on_chunk_emitted (C : Nat) (ctx : htable_ctx) (n : Nat) :
    Emitted (call_event C) 0 0 ctx.trace (sync_on_chunk ctx n).trace :=
  (sync_slot_emitted C ctx (2 * n + 0)).trans (sync_slot_emitted C _ (2 * n + 1))

theorem query_chunk_emitted (C : Nat) (e : Env) (ctx : htable_ctx) (h n : Nat) (hn : n < C) :
    Emitted (call_event C) 1 0 ctx.trace (query_chunk e ctx h n).trace := by
  have h1 := Emitted.one (P := call_event C) (Event.query n) ctx.trace hn
  have h2 := sync_on_chunk_emitted C { ctx with trace := Event.query n :: ctx.trace } n
  have h3 := h1.trans h2
  unfold query_chunk
  simp only []
  split
  · refine (h3.trans ((((Emitted.one _ _ (by trivial)).trans (Emitted.one _ _ (by trivial))).trans
      (Emitted.one _ _ (by trivial))).trans (Emitted.one _ _ (by trivial)))).mono ?_ ?_ <;>
      simp [Event.isQuery, Event.isInspect]
  · refine (h3.trans (((Emitted.one _ _ (by trivial)).trans (Emitted.one _ _ (by trivial))).trans
      (Emitted.one _ _ (by trivial)))).mono ?_ ?_ <;> simp [Event.isQuery, Event.isInspect]

theorem scan_chunk_emitted (C : Nat) (e : Env) (h d i fuel j : Nat) (ctx : htable_ctx) :
    Emitted (call_event C) 0 fuel ctx.trace (scan_chunk e h d i fuel j ctx).2.trace := by
  induction fuel generalizing j ctx with
  | zero => exact Emitted.refl _ _
  | succ fuel ih =>
    have h1 := Emitted.one (P := call_event C)
      (Event.inspect (u64 (u64 (i * e.HTABLE_CHUNK_SIZE) + j))) ctx.trace trivial
    unfold scan_chunk
    simp only []
    by_cases hclr : ctx.chunks (u64 (u64 (i * e.HTABLE_CHUNK_SIZE) + j)) &&& HTABLE_MASK_OCCUPIED = 0
    · rw [if_pos hclr]
      have h2 := Emitted.one (P := call_event C)
        (Event.cas (HTABLE_ADDR e (u64 (h + u64 (u64 (i * e.HTABLE_CHUNK_SIZE) + j))))
          (ctx.chunks (u64 (u64 (i * e.HTABLE_CHUNK_SIZE) + j))) (d ||| HTABLE_MASK_OCCUPIED)
          (ctx.table (HTABLE_ADDR e (u64 (h + u64 (u64 (i * e.HTABLE_CHUNK_SIZE) + j))))))
        (Event.inspect (u64 (u64 (i * e.HTABLE_CHUNK_SIZE) + j)) :: ctx.trace) hclr
      have h3 := h1.trans h2
      split_ifs
      · exact h3.mono (by simp [Event.isQuery]) (by simp [Event.isInspect])
      · exact h3.mono (by simp [Event.isQuery]) (by simp [Event.isInspect])
      · exact (h3.trans (ih _ _)).mono (by simp [Event.isQuery]) (by simp [Event.isInspect]; omega)
    · rw [if_neg hclr]
      split_ifs
      · exact h1.mono (by simp [Event.isQuery]) (by simp [Event.isInspect])
      · exact (h1.trans (ih _ _)).mono (by simp [Event.isQuery]) (by simp [Event.isInspect]; omega)

theorem chunk_loop_emitted (C : Nat) (e : Env) (hC : e.HTABLE_MAX_NR_OF_CHUNKS ≤ C)
    (h d fuel i : Nat) (ctx : htable_ctx) :
    Emitted (call_event C) fuel (fuel * e.HTABLE_CHUNK_SIZE) ctx.trace
      (chunk_loop e h d fuel i ctx).2.trace := by
  induction fuel generalizing i ctx with
  | zero => simpa [chunk_loop] using Emitted.refl _ _
  | succ fuel ih =>
    rw [chunk_loop_succ]
    have h1 : Emitted (call_event C) 1 0 ctx.trace
        (if u64 (i + 1) < e.HTABLE_MAX_NR_OF_CHUNKS
          then query_chunk e ctx h (u64 (i + 1)) else ctx).trace := by
      split_ifs with hlt
      · exact query_chunk_emitted C e ctx h _ (by omega)
      · exact (Emitted.refl _ _).mono (by omega) (by omega)
    have h2 := h1.trans (sync_on_chunk_emitted C _ i)
    have h3 := h2.trans (scan_chunk_emitted C e h d i e.HTABLE_CHUNK_SIZE 0 _)
    cases hsc : scan_chunk e h d i e.HTABLE_CHUNK_SIZE 0
        (sync_on_chunk (if u64 (i + 1) < e.HTABLE_MAX_NR_OF_CHUNKS
          then query_chunk e ctx h (u64 (i + 1)) else ctx) i) with
    | mk r c2 =>
      rw [hsc] at h3
      cases r with
      | some r =>
        exact h3.mono (by omega) (by rw [Nat.add_mul]; omega)
      | none =>
        exact (h3.trans (ih (i + 1) c2)).mono (by omega) (by rw [Nat.add_mul]; omega)

/-- The events of one call: at most `HTABLE_MAX_NR_OF_CHUNKS + 1` prefetches,
at most `HTABLE_MAX_NR_OF_CHUNKS * HTABLE_CHUNK_SIZE` staged buckets read. -/
theorem find_or_put_emitted (C : Nat) (e : Env) (hC0 : 0 < C)
    (hC : e.HTABLE_MAX_NR_OF_CHUNKS ≤ C) (ctx : htable_ctx) (v : Nat) :
    Emitted (call_event C) (e.HTABLE_MAX_NR_OF_CHUNKS + 1)
      (e.HTABLE_MAX_NR_OF_CHUNKS * e.HTABLE_CHUNK_SIZE) ctx.trace
      (htable_find_or_put e ctx v).2.trace := by
  unfold htable_find_or_put
  simp only []
  exact ((query_chunk_emitted C e ctx _ 0 hC0).trans
    (chunk_loop_emitted C e hC _ _ _ 0 _)).mono (by omega) (by omega)

/-! ## Handles -/

theorem handles_ok_quiet (N : Nat) (c1 c2 : htable_ctx) (ev : Event) (hok : handles_ok N c1)
    (hh : c2.handle = c1.handle) (hf : c2.fresh = c1.fresh) (ht : c2.trace = ev :: c1.trace)
    (hq : ev.quiet) : handles_ok N c2 := by
  have hne : ∀ id, Event.sync id ≠ ev := by
    intro id h; rw [← h] at hq; exact hq
  refine ⟨?_, ?_, ?_, ?_, ?_, ?_⟩
  · intro s id hs
    rw [hh] at hs
    obtain ⟨h1, h2, h3⟩ := hok.held s id hs
    refine ⟨h1, by rw [hf]; exact h2, ?_⟩
    rw [ht, List.mem_cons]
    rintro (h | h)
    · exact hne id h
    · exact h3 h
  · intro s1 s2 id h1 h2
    rw [hh] at h1 h2
    exact hok.inj s1 s2 id h1 h2
  · intro id hid
    rw [hf] at hid
    rcases hok.issued id hid with h | h
    · left; rw [hh]; exact h
    · right
      rw [ht, List.count_cons, h]
      have : (ev == Event.sync id) = false := by
        rw [beq_eq_false_iff_ne]; exact fun h => hne id h.symm
      simp [this]
  · intro id hid
    rw [hf] at hid
    rw [ht, List.mem_cons]
    rintro (h | h)
    · exact hne id h
    · exact hok.unissued id hid h
  · intro id dst src size hm
    rw [ht, List.mem_cons] at hm
    rw [hf]
    rcases hm with h | h
    · rw [← h] at hq; exact False.elim hq
    · exact hok.memget_lt id dst src size h
  · rw [ht]
    cases ev with
    | query n => exact hok.stores
    | inspect n => exact hok.stores
    | cas a x y o => exact hok.stores
    | memget a b c d => exact False.elim hq
    | sync a => exact False.elim hq
    | store a b c => exact False.elim hq

theorem sync_slot_handle (ctx : htable_ctx) (s s2 : Nat) :
    (sync_slot ctx s).handle s2 = if s2 = s then none else ctx.handle s2 := by
  unfold sync_slot
  cases hs : ctx.handle s with
  | none =>
    simp only
    split_ifs with h
    · rw [h, hs]
    · rfl
  | some id =>
    simp only [store_handle, upc_sync, Function.update_apply]

theorem sync_slot_handles_ok (N : Nat) (ctx : htable_ctx) (s : Nat) (hok : handles_ok N ctx) :
    handles_ok N (sync_slot ctx s) := by
  unfold sync_slot
  cases hs : ctx.handle s with
  | none => exact hok
  | some id =>
    simp only [store_handle, upc_sync]
    obtain ⟨hsN, hidf, hnot⟩ := hok.held s id hs
    have hother : ∀ s2 id2, s2 ≠ s → ctx.handle s2 = some id2 → id2 ≠ id := by
      intro s2 id2 hne h2 heq
      rw [heq] at h2
      exact hne (hok.inj s2 s id h2 hs)
    refine ⟨?_, ?_, ?_, ?_, ?_, ?_⟩
    · intro s2 id2 h2
      dsimp only at h2 ⊢
      simp only [Function.update_apply] at h2
      split_ifs at h2 with h3
      obtain ⟨h4, h5, h6⟩ := hok.held s2 id2 h2
      refine ⟨h4, h5, ?_⟩
      have := hother s2 id2 h3 h2
      simp [this, h6]
    · intro s1 s2 id2 h1 h2
      dsimp only at h1 h2 ⊢
      simp only [Function.update_apply] at h1 h2
      split_ifs at h1 h2
      exact hok.inj s1 s2 id2 h1 h2
    · intro id2 hid2
      dsimp only at hid2 ⊢
      by_cases heq : id2 = id
      · right
        subst heq
        have h0 : ctx.trace.count (Event.sync id2) = 0 := List.count_eq_zero.mpr hnot
        simp [List.count_cons, h0]
      · rcases hok.issued id2 hid2 with ⟨s2, h2⟩ | h
        · left
          refine ⟨s2, ?_⟩
          have hne : s2 ≠ s := by
            intro h3; rw [h3, hs] at h2
            exact heq (Option.some.inj h2).symm
          simp [Function.update_apply, hne, h2]
        · right
          have : id ≠ id2 := fun h => heq h.symm
          simp [List.count_cons, h, this]
    · intro id2 hid2
      dsimp only at hid2 ⊢
      have h1 := hok.unissued id2 hid2
      have : id2 ≠ id := by omega
      simp [h1, this]
    · intro id2 dst src size hm
      dsimp only at hm ⊢
      simp only [List.mem_cons] at hm
      rcases hm with h | h | h
      · exact absurd h (by simp)
      · exact absurd h (by simp)
      · exact hok.memget_lt id2 dst src size h
    · simp only [hs, stores_ok]
      exact ⟨List.mem_cons_self _ _, hok.stores⟩

theorem sync_on_chunk_handles_ok (N : Nat) (ctx : htable_ctx) (n : Nat)
    (hok : handles_ok N ctx) : handles_ok N (sync_on_chunk ctx n) :=
  sync_slot_handles_ok N _ _ (sync_slot_handles_ok N _ _ hok)

theorem sync_on_chunk_handle (ctx : htable_ctx) (n : Nat) :
    (sync_on_chunk ctx n).handle (2 * n) = none ∧ (sync_on_chunk ctx n).handle (2 * n + 1) = none := by
  unfold sync_on_chunk
  constructor
  · rw [sync_slot_handle, sync_slot_handle]; simp
  · rw [sync_slot_handle]; simp

/-- Issuing a fetch and putting its handle into an idle slot. -/
theorem memget_store_handles_ok (N : Nat) (e : Env) (ctx : htable_ctx) (dst src nbytes s : Nat)
    (hok : handles_ok N ctx) (hs : ctx.handle s = none) (hsN : s < N) :
    handles_ok N (store_handle (upc_memget_nb e ctx dst src nbytes).2 s
      (some (upc_memget_nb e ctx dst src nbytes).1)) := by
  simp only [store_handle, upc_memget_nb]
  refine ⟨?_, ?_, ?_, ?_, ?_, ?_⟩
  · intro s2 id2 h2
    dsimp only at h2 ⊢
    simp only [Function.update_apply] at h2
    split_ifs at h2 with h3
    · have h4 : ctx.fresh = id2 := Option.some.inj h2
      subst h4 h3
      refine ⟨hsN, by omega, ?_⟩
      have := hok.unissued ctx.fresh (le_refl _)
      simp [this]
    · obtain ⟨h4, h5, h6⟩ := hok.held s2 id2 h2
      exact ⟨h4, by omega, by simp [h6]⟩
  · intro s1 s2 id2 h1 h2
    dsimp only at h1 h2 ⊢
    simp only [Function.update_apply] at h1 h2
    split_ifs at h1 h2 with h3 h4 h4
    · rw [h3, h4]
    · have h5 : ctx.fresh = id2 := Option.some.inj h1
      have := (hok.held s2 id2 h2).2.1
      omega
    · have h5 : ctx.fresh = id2 := Option.some.inj h2
      have := (hok.held s1 id2 h1).2.1
      omega
    · exact hok.inj s1 s2 id2 h1 h2
  · intro id2 hid2
    dsimp only at hid2 ⊢
    by_cases heq : id2 = ctx.fresh
    · left; exact ⟨s, by simp [heq]⟩
    · rcases hok.issued id2 (by omega) with ⟨s2, h2⟩ | h
      · left
        refine ⟨s2, ?_⟩
        have hne : s2 ≠ s := by
          intro h3; rw [h3, hs] at h2; exact absurd h2 (by simp)
        simp [Function.update_apply, hne, h2]
      · right
        simp [List.count_cons, h]
  · intro id2 hid2
    dsimp only at hid2 ⊢
    have h1 := hok.unissued id2 (by omega)
    simp [h1]
  · intro id2 dst2 src2 size2 hm
    dsimp only at hm ⊢
    simp only [List.mem_cons] at hm
    rcases hm with h | h | h
    · exact absurd h (by simp)
    · have h4 : id2 = ctx.fresh := by
        injection h
      omega
    · have := hok.memget_lt id2 dst2 src2 size2 h
      omega
  · simp only [hs, stores_ok]
    exact hok.stores

/-- Assigning `NULL` to an idle slot. -/
theorem store_none_handles_ok (N : Nat) (ctx : htable_ctx) (s : Nat)
    (hok : handles_ok N ctx) (hs : ctx.handle s = none) :
    handles_ok N (store_handle ctx s none) := by
  have hh : (store_handle ctx s none).handle = ctx.handle := by
    simp only [store_handle]
    funext s2
    rw [Function.update_apply]
    split_ifs with h
    · rw [h, hs]
    · rfl
  refine ⟨?_, ?_, ?_, ?_, ?_, ?_⟩
  · intro s2 id2 h2
    rw [hh] at h2
    obtain ⟨h4, h5, h6⟩ := hok.held s2 id2 h2
    exact ⟨h4, h5, by simp [store_handle, h6]⟩
  · intro s1 s2 id2 h1 h2
    rw [hh] at h1 h2
    exact hok.inj s1 s2 id2 h1 h2
  · intro id2 hid2
    rcases hok.issued id2 hid2 with h | h
    · left; rw [hh]; exact h
    · right; simp [store_handle, List.count_cons, h]
  · intro id2 hid2
    have h1 := hok.unissued id2 hid2
    simp [store_handle, h1]
  · intro id2 dst2 src2 size2 hm
    simp only [store_handle, List.mem_cons] at hm
    rcases hm with h | h
    · exact absurd h (by simp)
    · exact hok.memget_lt id2 dst2 src2 size2 h
  · simp only [store_handle, hs, stores_ok]
    exact hok.stores

theorem query_chunk_handles_ok (N : Nat) (e : Env) (ctx : htable_ctx) (h n : Nat)
    (hn : 2 * n + 1 < N) (hok : handles_ok N ctx) : handles_ok N (query_chunk e ctx h n) := by
  have h0 : handles_ok N { ctx with trace := Event.query n :: ctx.trace } :=
    handles_ok_quiet N ctx _ (Event.query n) hok rfl rfl rfl trivial
  have h1 := sync_on_chunk_handles_ok N _ n h0
  have h2 := sync_on_chunk_handle { ctx with trace := Event.query n :: ctx.trace } n
  unfold query_chunk
  simp only []
  generalize sync_on_chunk { ctx with trace := Event.query n :: ctx.trace } n = c at h1 h2
  split
  · apply memget_store_handles_ok N e _ _ _ _ _ _ _ (by omega)
    · exact memget_store_handles_ok N e c _ _ _ _ h1 h2.1 (by omega)
    · simp only [store_handle, upc_memget_nb]
      rw [Function.update_noteq (by omega)]
      exact h2.2
  · apply store_none_handles_ok
    · exact memget_store_handles_ok N e c _ _ _ _ h1 h2.1 (by omega)
    · simp only [store_handle, upc_memget_nb]
      rw [Function.update_noteq (by omega)]
      exact h2.2

theorem scan_chunk_handles_ok (N : Nat) (e : Env) (h d i fuel j : Nat) (ctx : htable_ctx)
    (hok : handles_ok N ctx) : handles_ok N (scan_chunk e h d i fuel j ctx).2 := by
  induction fuel generalizing j ctx with
  | zero => exact hok
  | succ fuel ih =>
    have h1 : handles_ok N
        { ctx with trace := Event.inspect (u64 (u64 (i * e.HTABLE_CHUNK_SIZE) + j)) :: ctx.trace } :=
      handles_ok_quiet N ctx _ _ hok rfl rfl rfl trivial
    have h2 : handles_ok N (CAS
        { ctx with trace := Event.inspect (u64 (u64 (i * e.HTABLE_CHUNK_SIZE) + j)) :: ctx.trace }
        (HTABLE_ADDR e (u64 (h + u64 (u64 (i * e.HTABLE_CHUNK_SIZE) + j))))
        (ctx.chunks (u64 (u64 (i * e.HTABLE_CHUNK_SIZE) + j))) (d ||| HTABLE_MASK_OCCUPIED)).2 :=
      handles_ok_quiet N _ _ _ h1 rfl rfl rfl trivial
    unfold scan_chunk
    simp only []
    split_ifs
    · exact h2
    · exact h2
    · exact ih _ _ h2
    · exact h1
    · exact ih _ _ h1

theorem chunk_loop_handles_ok (e : Env) (h d fuel i : Nat) (ctx : htable_ctx)
    (hok : handles_ok (2 * e.HTABLE_MAX_NR_OF_CHUNKS) ctx) :
    handles_ok (2 * e.HTABLE_MAX_NR_OF_CHUNKS) (chunk_loop e h d fuel i ctx).2 := by
  induction fuel generalizing i ctx with
  | zero => exact hok
  | succ fuel ih =>
    rw [chunk_loop_succ]
    have h1 : handles_ok (2 * e.HTABLE_MAX_NR_OF_CHUNKS)
        (if u64 (i + 1) < e.HTABLE_MAX_NR_OF_CHUNKS
          then query_chunk e ctx h (u64 (i + 1)) else ctx) := by
      split_ifs with hlt
      · exact query_chunk_handles_ok _ e ctx h _ (by omega) hok
      · exact hok
    have h2 := scan_chunk_handles_ok _ e h d i e.HTABLE_CHUNK_SIZE 0 _
      (sync_on_chunk_handles_ok _ _ i h1)
    cases hsc : scan_chunk e h d i e.HTABLE_CHUNK_SIZE 0
        (sync_on_chunk (if u64 (i + 1) < e.HTABLE_MAX_NR_OF_CHUNKS
          then query_chunk e ctx h (u64 (i + 1)) else ctx) i) with
    | mk r c2 =>
      rw [hsc] at h2
      cases r with
      | some r => exact h2
      | none => exact ih (i + 1) c2 h2

theorem find_or_put_handles_ok (e : Env) (hC : 1 ≤ e.HTABLE_MAX_NR_OF_CHUNKS) (ctx : htable_ctx)
    (v : Nat) (hok : handles_ok (2 * e.HTABLE_MAX_NR_OF_CHUNKS) ctx) :
    handles_ok (2 * e.HTABLE_MAX_NR_OF_CHUNKS) (htable_find_or_put e ctx v).2 := by
  unfold htable_find_or_put
  simp only []
  exact chunk_loop_handles_ok e _ _ _ 0 _ (query_chunk_handles_ok _ e ctx _ 0 (by omega) hok)

theorem run_handles_ok (e : Env) (hC : 1 ≤ e.HTABLE_MAX_NR_OF_CHUNKS) (ctx : htable_ctx)
    (vs : List Nat) (hok : handles_ok (2 * e.HTABLE_MAX_NR_OF_CHUNKS) ctx) :
    handles_ok (2 * e.HTABLE_MAX_NR_OF_CHUNKS) (run e ctx vs) := by
  induction vs generalizing ctx with
  | nil => exact hok
  | cons v vs ih => exact ih _ (find_or_put_handles_ok e hC ctx v hok)

theorem init_handles_ok (N : Nat) (chunks0 table0 : Nat → Nat) :
    handles_ok N (htable_init chunks0 table0) := by
  refine ⟨?_, ?_, ?_, ?_, ?_, ?_⟩ <;> simp [htable_init, stores_ok]

theorem free_loop_inv (N fuel i : Nat) (ctx : htable_ctx) (hinv : free_inv N i ctx) :
    free_inv N (i + fuel) (free_loop fuel i ctx) := by
  induction fuel generalizing i ctx with
  | zero => exact hinv
  | succ fuel ih =>
    unfold free_loop
    rw [show i + (fuel + 1) = (i + 1) + fuel by omega]
    cases hs : ctx.handle i with
    | none =>
      simp only
      apply ih
      refine ⟨fun s id hle h => hinv.held s id (by omega) h, hinv.range, hinv.inj, ?_,
        hinv.memget_lt, hinv.stores⟩
      intro id hid
      rcases hinv.issued id hid with ⟨s, hle, h⟩ | h
      · left
        refine ⟨s, ?_, h⟩
        rcases Nat.eq_or_lt_of_le hle with heq | hlt
        · rw [← heq, hs] at h; exact absurd h (by simp)
        · exact hlt
      · right; exact h
    | some id =>
      simp only
      apply ih
      have hnot := hinv.held i id (le_refl _) hs
      refine ⟨?_, hinv.range, hinv.inj, ?_, ?_, ?_⟩
      · intro s id2 hle h
        have h1 := hinv.held s id2 (by omega) h
        have hne : id2 ≠ id := by
          intro heq; rw [heq] at h
          have := hinv.inj s i id h hs
          omega
        simp [upc_sync, h1, hne]
      · intro id2 hid2
        by_cases heq : id2 = id
        · right
          subst heq
          have h0 : ctx.trace.count (Event.sync id2) = 0 := List.count_eq_zero.mpr hnot
          simp [upc_sync, List.count_cons, h0]
        · rcases hinv.issued id2 hid2 with ⟨s, hle, h⟩ | h
          · left
            refine ⟨s, ?_, h⟩
            rcases Nat.eq_or_lt_of_le hle with heq2 | hlt
            · rw [← heq2, hs] at h
              exact absurd (Option.some.inj h).symm heq
            · exact hlt
          · right
            have : id ≠ id2 := fun h => heq h.symm
            simp [upc_sync, List.count_cons, h, this]
      · intro id2 dst src size hm
        simp only [upc_sync, List.mem_cons] at hm
        rcases hm with h | h
        · exact absurd h (by simp)
        · exact hinv.memget_lt id2 dst src size h
      · simp only [upc_sync, stores_ok]
        exact hinv.stores

/-- After `htable_free`, every handle that was issued has been waited on
exactly once, and no handle that had not been waited on was overwritten. -/
theorem htable_free_drains (e : Env) (ctx : htable_ctx)
    (hok : handles_ok (2 * e.HTABLE_MAX_NR_OF_CHUNKS) ctx) :
    (∀ id dst src size, Event.memget id dst src size ∈ (htable_free e ctx).trace →
      (htable_free e ctx).trace.count (Event.sync id) = 1) ∧
    stores_ok (htable_free e ctx).trace := by
  have h0 : free_inv (2 * e.HTABLE_MAX_NR_OF_CHUNKS) 0 ctx :=
    ⟨fun s id _ h => (hok.held s id h).2.2, fun s id h => (hok.held s id h).1, hok.inj,
      fun k hk => (hok.issued k hk).imp (fun ⟨s, h⟩ => ⟨s, Nat.zero_le _, h⟩) (fun h => h),
      hok.memget_lt, hok.stores⟩
  have h1 := free_loop_inv _ (2 * e.HTABLE_MAX_NR_OF_CHUNKS) 0 ctx h0
  rw [Nat.zero_add] at h1
  unfold htable_free
  refine ⟨?_, h1.stores⟩
  intro id dst src size hm
  rcases h1.issued id (h1.memget_lt id dst src size hm) with ⟨s, hle, h⟩ | h
  · have := h1.range s id h
    omega
  · exact h

/-! ## Several processes, one value -/

/-- One iteration of the inner loop, case by case: with `x` the staged word and
`a` the bucket index given to the compare-and-swap. -/
theorem scan_slot_cases (e : Env) (h d i j : Nat) (c : htable_ctx) :
    (c.chunks (u64 (u64 (i * e.HTABLE_CHUNK_SIZE) + j)) &&& HTABLE_MASK_OCCUPIED = 0 ∧
      c.table (HTABLE_ADDR e (u64 (h + u64 (u64 (i * e.HTABLE_CHUNK_SIZE) + j)))) =
        c.chunks (u64 (u64 (i * e.HTABLE_CHUNK_SIZE) + j)) ∧
      (scan_chunk e h d i 1 j c).1 = some HTABLE_INSERTED ∧
      (scan_chunk e h d i 1 j c).2.table = Function.update c.table
        (HTABLE_ADDR e (u64 (h + u64 (u64 (i * e.HTABLE_CHUNK_SIZE) + j))))
        (d ||| HTABLE_MASK_OCCUPIED)) ∨
    (c.chunks (u64 (u64 (i * e.HTABLE_CHUNK_SIZE) + j)) &&& HTABLE_MASK_OCCUPIED = 0 ∧
      c.table (HTABLE_ADDR e (u64 (h + u64 (u64 (i * e.HTABLE_CHUNK_SIZE) + j)))) ≠
        c.chunks (u64 (u64 (i * e.HTABLE_CHUNK_SIZE) + j)) ∧
      c.table (HTABLE_ADDR e (u64 (h + u64 (u64 (i * e.HTABLE_CHUNK_SIZE) + j)))) &&&
        HTABLE_MASK_DATA = d ∧
      (scan_chunk e h d i 1 j c).1 = some HTABLE_FOUND ∧
      (scan_chunk e h d i 1 j c).2.table = c.table) ∨
    (c.chunks (u64 (u64 (i * e.HTABLE_CHUNK_SIZE) + j)) &&& HTABLE_MASK_OCCUPIED = 0 ∧
      c.table (HTABLE_ADDR e (u64 (h + u64 (u64 (i * e.HTABLE_CHUNK_SIZE) + j)))) ≠
        c.chunks (u64 (u64 (i * e.HTABLE_CHUNK_SIZE) + j)) ∧
      c.table (HTABLE_ADDR e (u64 (h + u64 (u64 (i * e.HTABLE_CHUNK_SIZE) + j)))) &&&
        HTABLE_MASK_DATA ≠ d ∧
      (scan_chunk e h d i 1 j c).1 = none ∧
      (scan_chunk e h d i 1 j c).2.table = c.table) ∨
    (c.chunks (u64 (u64 (i * e.HTABLE_CHUNK_SIZE) + j)) &&& HTABLE_MASK_OCCUPIED ≠ 0 ∧
      c.chunks (u64 (u64 (i * e.HTABLE_CHUNK_SIZE) + j)) &&& HTABLE_MASK_DATA = d ∧
      (scan_chunk e h d i 1 j c).1 = some HTABLE_FOUND ∧
      (scan_chunk e h d i 1 j c).2.table = c.table) ∨
    (c.chunks (u64 (u64 (i * e.HTABLE_CHUNK_SIZE) + j)) &&& HTABLE_MASK_OCCUPIED ≠ 0 ∧
      c.chunks (u64 (u64 (i * e.HTABLE_CHUNK_SIZE) + j)) &&& HTABLE_MASK_DATA ≠ d ∧
      (scan_chunk e h d i 1 j c).1 = none ∧
      (scan_chunk e h d i 1 j c).2.table = c.table) := by
  unfold scan_chunk
  simp only [CAS]
  by_cases h1 : c.chunks (u64 (u64 (i * e.HTABLE_CHUNK_SIZE) + j)) &&& HTABLE_MASK_OCCUPIED = 0
  · by_cases h2 : c.table (HTABLE_ADDR e (u64 (h + u64 (u64 (i * e.HTABLE_CHUNK_SIZE) + j)))) =
        c.chunks (u64 (u64 (i * e.HTABLE_CHUNK_SIZE) + j))
    · left
      have h3 := h2.symm
      simp [h1, h2]
    · right
      have h3 : ¬ c.chunks (u64 (u64 (i * e.HTABLE_CHUNK_SIZE) + j)) =
          c.table (HTABLE_ADDR e (u64 (h + u64 (u64 (i * e.HTABLE_CHUNK_SIZE) + j)))) :=
        fun h => h2 h.symm
      by_cases h4 : c.table (HTABLE_ADDR e (u64 (h + u64 (u64 (i * e.HTABLE_CHUNK_SIZE) + j)))) &&&
          HTABLE_MASK_DATA = d
      · left
        simp [h1, h2, h3, h4]
      · right; left
        simp [h1, h2, h3, h4, scan_chunk]
  · right; right; right
    by_cases h4 : c.chunks (u64 (u64 (i * e.HTABLE_CHUNK_SIZE) + j)) &&& HTABLE_MASK_DATA = d
    · left
      simp [h1, h4]
    · right
      simp [h1, h4, scan_chunk]

theorem stored_occupied (v : Nat) : occupied (stored v) := occupied_or _

theorem stored_payload (v : Nat) : stored v &&& HTABLE_MASK_DATA = v &&& HTABLE_MASK_DATA :=
  payload_or v

theorem budget_lt (e : Env) (hwf : e.wf) : budget e < 288230376151711744 := by
  obtain ⟨hB, hS1, hSB, hC1, hC, hT1, hT⟩ := hwf
  have h1 : e.HTABLE_MAX_NR_OF_CHUNKS * e.HTABLE_CHUNK_SIZE ≤ 2147483647 * 134217728 :=
    Nat.mul_le_mul (by omega) (by omega)
  unfold budget
  omega

/-- The first unoccupied bucket of a probe sequence that has one and does not
hold the value. -/
theorem first_free_exists (e : Env) (v : Nat) (t0 : Nat → Nat)
    (habsent : ∀ k, k < budget e → ¬ (occupied (t0 (probe_seq e v k)) ∧
      payload (t0 (probe_seq e v k)) = v &&& HTABLE_MASK_DATA))
    (hempty : ∃ k, k < budget e ∧ ¬ occupied (t0 (probe_seq e v k))) :
    ∃ ks, first_free e v t0 ks := by
  classical
  refine ⟨Nat.find hempty, (Nat.find_spec hempty).1, (Nat.find_spec hempty).2, ?_⟩
  intro k hk
  have hkb : k < budget e := lt_trans hk (Nat.find_spec hempty).1
  have hocc : occupied (t0 (probe_seq e v k)) := by
    by_contra hno
    exact Nat.find_min hempty hk ⟨hkb, hno⟩
  exact ⟨hocc, fun hp => habsent k hkb ⟨hocc, hp⟩⟩

theorem first_free_ne (e : Env) (v : Nat) (t0 : Nat → Nat) (ks k : Nat)
    (hff : first_free e v t0 ks) (hk : k < ks) : probe_seq e v k ≠ probe_seq e v ks := by
  intro heq
  have := (hff.before k hk).1
  rw [heq] at this
  exact hff.clear this

/-- The current content of a bucket is a good staged word for its position. -/
theorem good_table (e : Env) (v : Nat) (t0 : Nat → Nat) (ks : Nat) (tab : Nat → Nat)
    (hff : first_free e v t0 ks) (htab : table_inv e v t0 ks tab) (k : Nat) :
    good e v t0 ks tab k (tab (probe_seq e v k)) := by
  constructor
  · intro hk
    exact htab.other _ (first_free_ne e v t0 ks k hff hk)
  · intro hk
    subst hk
    rcases htab.target with h | h
    · left; exact h
    · right; exact ⟨h, h⟩

theorem good_mono (e : Env) (v : Nat) (t0 : Nat → Nat) (ks : Nat) (tab tab2 : Nat → Nat)
    (hmono : tab (probe_seq e v ks) = stored v → tab2 (probe_seq e v ks) = stored v)
    (k x : Nat) (hg : good e v t0 ks tab k x) : good e v t0 ks tab2 k x := by
  refine ⟨hg.1, fun hk => ?_⟩
  rcases hg.2 hk with h | ⟨h1, h2⟩
  · left; exact h
  · right; exact ⟨h1, hmono h2⟩

theorem valid_mono (e : Env) (v : Nat) (t0 : Nat → Nat) (ks : Nat) (tab tab2 : Nat → Nat)
    (hmono : tab (probe_seq e v ks) = stored v → tab2 (probe_seq e v ks) = stored v)
    (c : htable_ctx) (i : Nat) (hv : valid e v t0 ks tab c i) : valid e v t0 ks tab2 c i :=
  fun j hj => good_mono e v t0 ks tab tab2 hmono _ _ (hv j hj)

theorem valid_congr (e : Env) (v : Nat) (t0 : Nat → Nat) (ks : Nat) (tab : Nat → Nat)
    (c c2 : htable_ctx) (i : Nat) (hc : c2.chunks = c.chunks) (hv : valid e v t0 ks tab c i) :
    valid e v t0 ks tab c2 i := by
  intro j hj
  rw [hc]; exact hv j hj

theorem proc_inv_mono (e : Env) (v : Nat) (t0 : Nat → Nat) (ks : Nat) (tab tab2 : Nat → Nat)
    (hmono : tab (probe_seq e v ks) = stored v → tab2 (probe_seq e v ks) = stored v)
    (q : Proc) (hq : proc_inv e v t0 ks tab q) : proc_inv e v t0 ks tab2 q := by
  unfold proc_inv at *
  cases hpc : q.pc with
  | start => trivial
  | head i =>
    rw [hpc] at hq
    exact ⟨hq.1, valid_mono e v t0 ks tab tab2 hmono _ _ hq.2⟩
  | wait i =>
    rw [hpc] at hq
    exact ⟨hq.1, valid_mono e v t0 ks tab tab2 hmono _ _ hq.2.1,
      fun h => valid_mono e v t0 ks tab tab2 hmono _ _ (hq.2.2 h)⟩
  | slot i j =>
    rw [hpc] at hq
    exact ⟨hq.1, hq.2.1, valid_mono e v t0 ks tab tab2 hmono _ _ hq.2.2.1,
      fun h => valid_mono e v t0 ks tab tab2 hmono _ _ (hq.2.2.2 h)⟩
  | done r =>
    rw [hpc] at hq
    exact ⟨hq.1, hmono hq.2⟩

/-- Staging chunk `n` from the current table makes chunk `n` valid and leaves
the validity of the other chunks alone. -/
theorem query_chunk_valid (e : Env) (hwf : e.wf) (hsp : e.fetch_current) (v : Nat)
    (t0 : Nat → Nat) (ks : Nat) (tab : Nat → Nat) (hff : first_free e v t0 ks)
    (htab : table_inv e v t0 ks tab) (c : htable_ctx) (n : Nat)
    (hn : n < e.HTABLE_MAX_NR_OF_CHUNKS) :
    valid e v t0 ks tab
      (query_chunk e { c with table := tab } (u64 (e.hash (v &&& HTABLE_MASK_DATA))) n) n ∧
    ∀ i, valid e v t0 ks tab c i → valid e v t0 ks tab
      (query_chunk e { c with table := tab } (u64 (e.hash (v &&& HTABLE_MASK_DATA))) n) i := by
  constructor
  · intro j hj
    rw [query_chunk_chunks e hwf hsp _ _ n _ hn, if_pos ⟨by omega, by omega⟩]
    exact good_table e v t0 ks tab hff htab _
  · intro i hv j hj
    rw [query_chunk_chunks e hwf hsp _ _ n _ hn]
    split_ifs
    · exact good_table e v t0 ks tab hff htab _
    · exact hv j hj

/-- A late arrival keeps every chunk valid. -/
theorem land_inv (e : Env) (hwf : e.wf) (hsp : e.fetch_current) (v : Nat)
    (t0 : Nat → Nat) (ks : Nat) (tab : Nat → Nat) (hff : first_free e v t0 ks)
    (htab : table_inv e v t0 ks tab) (q : Proc) (n k : Nat)
    (hq : proc_inv e v t0 ks tab q) :
    proc_inv e v t0 ks tab (land e v tab q n k) ∧ (land e v tab q n k).pc = q.pc := by
  unfold land
  simp only []
  split_ifs with hc
  · have hval : ∀ (c2 : htable_ctx), c2.chunks = Function.update q.ctx.chunks k
        ((query_chunk e { q.ctx with table := tab }
          (u64 (e.hash (v &&& HTABLE_MASK_DATA))) n).chunks k) →
        ∀ i, valid e v t0 ks tab q.ctx i → valid e v t0 ks tab c2 i := by
      intro c2 hc2 i hv j hj
      rw [hc2]
      simp only [Function.update_apply]
      split_ifs with hk
      · rw [← hk]
        exact (query_chunk_valid e hwf hsp v t0 ks tab hff htab q.ctx n hc.1).2 i hv j hj
      · exact hv j hj
    refine ⟨?_, rfl⟩
    unfold proc_inv at *
    cases hpc : q.pc with
    | start => trivial
    | head i =>
      rw [hpc] at hq
      exact ⟨hq.1, hval _ rfl _ hq.2⟩
    | wait i =>
      rw [hpc] at hq
      exact ⟨hq.1, hval _ rfl _ hq.2.1, fun h => hval _ rfl _ (hq.2.2 h)⟩
    | slot i j =>
      rw [hpc] at hq
      exact ⟨hq.1, hq.2.1, hval _ rfl _ hq.2.2.1, fun h => hval _ rfl _ (hq.2.2.2 h)⟩
    | done r =>
      rw [hpc] at hq
      exact hq
  · exact ⟨hq, rfl⟩

theorem togo_split (e : Env) (i : Nat) (hi : i < e.HTABLE_MAX_NR_OF_CHUNKS) :
    (e.HTABLE_MAX_NR_OF_CHUNKS - i) * (e.HTABLE_CHUNK_SIZE + 3) =
      (e.HTABLE_MAX_NR_OF_CHUNKS - (i + 1)) * (e.HTABLE_CHUNK_SIZE + 3) +
        (e.HTABLE_CHUNK_SIZE + 3) := by
  rw [show e.HTABLE_MAX_NR_OF_CHUNKS - i = (e.HTABLE_MAX_NR_OF_CHUNKS - (i + 1)) + 1 by omega,
    Nat.add_mul, Nat.one_mul]

theorem chunk_lt_of_pos (e : Env) (ks i : Nat) (hks : ks < budget e)
    (hi : i * e.HTABLE_CHUNK_SIZE ≤ ks) : i < e.HTABLE_MAX_NR_OF_CHUNKS := by
  unfold budget at hks
  exact Nat.lt_of_mul_lt_mul_right (lt_of_le_of_lt hi hks)

/-- One program step of one process keeps the invariant of the process, either
leaves the table alone or claims the first unoccupied bucket and returns
`INSERTED`, and brings the process closer to its return. -/
theorem prog_step_inv (e : Env) (hwf : e.wf) (hsp : e.fetch_current) (v : Nat)
    (t0 : Nat → Nat) (ks : Nat) (tab : Nat → Nat) (hff : first_free e v t0 ks)
    (htab : table_inv e v t0 ks tab) (q : Proc) (hq : proc_inv e v t0 ks tab q) :
    proc_inv e v t0 ks (prog_step e v tab q).ctx.table (prog_step e v tab q) ∧
    (((prog_step e v tab q).ctx.table = tab ∧
        ((prog_step e v tab q).pc = .done HTABLE_INSERTED ↔ q.pc = .done HTABLE_INSERTED)) ∨
      (tab (probe_seq e v ks) ≠ stored v ∧
        (prog_step e v tab q).ctx.table = Function.update tab (probe_seq e v ks) (stored v) ∧
        (prog_step e v tab q).pc = .done HTABLE_INSERTED)) ∧
    ((∀ r, q.pc ≠ .done r) → (prog_step e v tab q).pc.togo e < q.pc.togo e) := by
  have hwf2 := hwf
  obtain ⟨hB, hS1, hSB, hC1, hC, hT1, hT⟩ := hwf2
  have hbud := budget_lt e hwf
  have hks := hff.lt
  cases hpc : q.pc with
  | start =>
    have hstep : prog_step e v tab q =
        ⟨query_chunk e { q.ctx with table := tab } (u64 (e.hash (v &&& HTABLE_MASK_DATA))) 0,
          .head 0⟩ := by
      unfold prog_step; rw [hpc]
    rw [hstep]
    refine ⟨?_, Or.inl ⟨query_chunk_table _ _ _ _, by simp⟩, fun _ => ?_⟩
    · show 0 * e.HTABLE_CHUNK_SIZE ≤ ks ∧ valid e v t0 ks _ _ 0
      rw [query_chunk_table]
      exact ⟨by omega, (query_chunk_valid e hwf hsp v t0 ks tab hff htab q.ctx 0 (by omega)).1⟩
    · simp only [Pc.togo, Nat.sub_zero]; omega
  | head i =>
    unfold proc_inv at hq
    rw [hpc] at hq
    have hi : i < e.HTABLE_MAX_NR_OF_CHUNKS := chunk_lt_of_pos e ks i hks hq.1
    have hu : u64 (i + 1) = i + 1 := by unfold u64; omega
    have hstep : prog_step e v tab q =
        ⟨if i + 1 < e.HTABLE_MAX_NR_OF_CHUNKS
          then query_chunk e { q.ctx with table := tab } (u64 (e.hash (v &&& HTABLE_MASK_DATA))) (i + 1)
          else { q.ctx with table := tab }, .wait i⟩ := by
      unfold prog_step; rw [hpc]; simp only [hu, if_pos hi]
    rw [hstep]
    have htable : (if i + 1 < e.HTABLE_MAX_NR_OF_CHUNKS
          then query_chunk e { q.ctx with table := tab } (u64 (e.hash (v &&& HTABLE_MASK_DATA))) (i + 1)
          else { q.ctx with table := tab }).table = tab := by
      split_ifs
      · exact query_chunk_table _ _ _ _
      · rfl
    refine ⟨?_, Or.inl ⟨htable, by simp⟩, fun _ => ?_⟩
    · show i * e.HTABLE_CHUNK_SIZE ≤ ks ∧ valid e v t0 ks _ _ i ∧
        (i + 1 < e.HTABLE_MAX_NR_OF_CHUNKS → valid e v t0 ks _ _ (i + 1))
      simp only [htable]
      refine ⟨hq.1, ?_, ?_⟩
      · split_ifs with hlt
        · exact (query_chunk_valid e hwf hsp v t0 ks tab hff htab q.ctx (i + 1) hlt).2 i hq.2
        · exact valid_congr e v t0 ks tab q.ctx _ i rfl hq.2
      · intro hlt
        rw [if_pos hlt]
        exact (query_chunk_valid e hwf hsp v t0 ks tab hff htab q.ctx (i + 1) hlt).1
    · simp only [Pc.togo]; omega
  | wait i =>
    unfold proc_inv at hq
    rw [hpc] at hq
    have hi : i < e.HTABLE_MAX_NR_OF_CHUNKS := chunk_lt_of_pos e ks i hks hq.1
    have hstep : prog_step e v tab q = ⟨sync_on_chunk { q.ctx with table := tab } i, .slot i 0⟩ := by
      unfold prog_step; rw [hpc]
    rw [hstep]
    refine ⟨?_, Or.inl ⟨sync_on_chunk_table _ _, by simp⟩, fun _ => ?_⟩
    · show i * e.HTABLE_CHUNK_SIZE + 0 ≤ ks ∧ 0 ≤ e.HTABLE_CHUNK_SIZE ∧ valid e v t0 ks _ _ i ∧
        (i + 1 < e.HTABLE_MAX_NR_OF_CHUNKS → valid e v t0 ks _ _ (i + 1))
      rw [sync_on_chunk_table]
      exact ⟨by omega, by omega,
        valid_congr e v t0 ks tab q.ctx _ i (sync_on_chunk_chunks _ _) hq.2.1,
        fun hlt => valid_congr e v t0 ks tab q.ctx _ (i + 1) (sync_on_chunk_chunks _ _) (hq.2.2 hlt)⟩
    · have := togo_split e i hi
      simp only [Pc.togo]; omega
  | slot i j =>
    unfold proc_inv at hq
    rw [hpc] at hq
    obtain ⟨hpos, hjS, hvi, hvi1⟩ := hq
    have hi : i < e.HTABLE_MAX_NR_OF_CHUNKS := chunk_lt_of_pos e ks i hks (by omega)
    have hsplit := togo_split e i hi
    by_cases hj : j < e.HTABLE_CHUNK_SIZE
    · -- one iteration of the inner loop
      have hidx : u64 (u64 (i * e.HTABLE_CHUNK_SIZE) + j) = i * e.HTABLE_CHUNK_SIZE + j := by
        unfold u64; omega
      have hcases := scan_slot_cases e (u64 (e.hash (v &&& HTABLE_MASK_DATA)))
        (v &&& HTABLE_MASK_DATA) i j { q.ctx with table := tab }
      have hframe := scan_chunk_frame e (u64 (e.hash (v &&& HTABLE_MASK_DATA)))
        (v &&& HTABLE_MASK_DATA) i 1 j { q.ctx with table := tab }
      have haddr : HTABLE_ADDR e (u64 (u64 (e.hash (v &&& HTABLE_MASK_DATA)) +
          (i * e.HTABLE_CHUNK_SIZE + j))) = probe_seq e v (i * e.HTABLE_CHUNK_SIZE + j) := rfl
      rw [hidx, haddr] at hcases
      have hgood := hvi j hj
      have hstep : prog_step e v tab q =
          match scan_chunk e (u64 (e.hash (v &&& HTABLE_MASK_DATA))) (v &&& HTABLE_MASK_DATA) i 1 j
            { q.ctx with table := tab } with
          | (some r, c2) => ⟨c2, .done r⟩
          | (none, c2) => ⟨c2, .slot i (j + 1)⟩ := by
        unfold prog_step; rw [hpc]; simp only [if_pos hj]
      rw [hstep]
      cases hsc : scan_chunk e (u64 (e.hash (v &&& HTABLE_MASK_DATA))) (v &&& HTABLE_MASK_DATA) i 1 j
          { q.ctx with table := tab } with
      | mk r c2 =>
        rw [hsc] at hcases hframe
        simp only at hcases hframe ⊢
        have hstored : v &&& HTABLE_MASK_DATA ||| HTABLE_MASK_OCCUPIED = stored v := rfl
        rw [hstored] at hcases
        -- the staged word
        rcases Nat.lt_or_ge (i * e.HTABLE_CHUNK_SIZE + j) ks with hlt | hge
        · -- before the first unoccupied bucket: occupied with another payload
          have hx := hgood.1 hlt
          have hb := hff.before _ hlt
          rw [← hx] at hb
          unfold occupied payload at hb
          rcases hcases with ⟨h1, _⟩ | ⟨h1, _⟩ | ⟨h1, _⟩ | ⟨_, h2, _⟩ | ⟨_, _, hr, ht⟩
          · exact absurd h1 hb.1
          · exact absurd h1 hb.1
          · exact absurd h1 hb.1
          · exact absurd h2 hb.2
          · subst hr
            refine ⟨?_, Or.inl ⟨ht, by simp⟩, fun _ => ?_⟩
            · show i * e.HTABLE_CHUNK_SIZE + (j + 1) ≤ ks ∧ j + 1 ≤ e.HTABLE_CHUNK_SIZE ∧
                valid e v t0 ks _ _ i ∧
                (i + 1 < e.HTABLE_MAX_NR_OF_CHUNKS → valid e v t0 ks _ _ (i + 1))
              rw [ht]
              exact ⟨by omega, by omega, valid_congr e v t0 ks tab q.ctx _ i hframe.1 hvi,
                fun h => valid_congr e v t0 ks tab q.ctx _ (i + 1) hframe.1 (hvi1 h)⟩
            · simp only [Pc.togo]; omega
        · -- at the first unoccupied bucket
          have hkeq : i * e.HTABLE_CHUNK_SIZE + j = ks := by omega
          rw [hkeq] at hcases hgood
          have hx := hgood.2 rfl
          have hclear : t0 (probe_seq e v ks) &&& HTABLE_MASK_OCCUPIED = 0 := by
            have := hff.clear; unfold occupied at this; exact not_not.mp this
          have hso := stored_occupied v
          unfold occupied at hso
          have hne : t0 (probe_seq e v ks) ≠ stored v := by
            intro h; rw [h] at hclear; exact hso hclear
          have hdone : ∀ res, (res = HTABLE_INSERTED ∨ res = HTABLE_FOUND) →
              (Pc.done res).togo e < (Pc.slot i j).togo e := by
            intro res _; simp only [Pc.togo]; omega
          rcases hx with hx | ⟨hx, htabs⟩
          · -- the staged word is the unoccupied word
            rcases hcases with ⟨_, h2, hr, ht⟩ | ⟨_, h2, h3, hr, ht⟩ | ⟨_, h2, h3, _, _⟩ |
              ⟨h1, _⟩ | ⟨h1, _⟩
            · subst hr
              have hold : tab (probe_seq e v ks) ≠ stored v := by
                rw [h2, hx]; exact hne
              refine ⟨?_, Or.inr ⟨hold, ht, rfl⟩, fun _ => hdone _ (Or.inl rfl)⟩
              show (HTABLE_INSERTED = HTABLE_INSERTED ∨ HTABLE_INSERTED = HTABLE_FOUND) ∧
                c2.table (probe_seq e v ks) = stored v
              rw [ht, Function.update_same]
              exact ⟨Or.inl rfl, rfl⟩
            · subst hr
              have hnew : tab (probe_seq e v ks) = stored v := by
                rcases htab.target with h | h
                · exact absurd (h.trans hx.symm) h2
                · exact h
              refine ⟨?_, Or.inl ⟨ht, by simp [HTABLE_FOUND, HTABLE_INSERTED]⟩,
                fun _ => hdone _ (Or.inr rfl)⟩
              show (HTABLE_FOUND = HTABLE_INSERTED ∨ HTABLE_FOUND = HTABLE_FOUND) ∧
                c2.table (probe_seq e v ks) = stored v
              rw [ht]
              exact ⟨Or.inr rfl, hnew⟩
            · exfalso
              rcases htab.target with h | h
              · exact absurd (h.trans hx.symm) h2
              · exact h3 (by rw [h]; exact stored_payload v)
            · rw [hx] at h1; exact absurd hclear h1
            · rw [hx] at h1; exact absurd hclear h1
          · -- the staged word already holds the value
            rcases hcases with ⟨h1, _⟩ | ⟨h1, _⟩ | ⟨h1, _⟩ | ⟨_, _, hr, ht⟩ | ⟨_, h2, _⟩
            · rw [hx] at h1; exact absurd h1 hso
            · rw [hx] at h1; exact absurd h1 hso
            · rw [hx] at h1; exact absurd h1 hso
            · subst hr
              refine ⟨?_, Or.inl ⟨ht, by simp [HTABLE_FOUND, HTABLE_INSERTED]⟩,
                fun _ => hdone _ (Or.inr rfl)⟩
              show (HTABLE_FOUND = HTABLE_INSERTED ∨ HTABLE_FOUND = HTABLE_FOUND) ∧
                c2.table (probe_seq e v ks) = stored v
              rw [ht]
              exact ⟨Or.inr rfl, htabs⟩
            · rw [hx] at h2; exact absurd (stored_payload v) h2
    · -- the inner loop is over
      have hjeq : j = e.HTABLE_CHUNK_SIZE := by omega
      have hstep : prog_step e v tab q = ⟨{ q.ctx with table := tab }, .head (i + 1)⟩ := by
        unfold prog_step; rw [hpc]; simp only [if_neg hj]
      rw [hstep]
      have hi1 : i + 1 < e.HTABLE_MAX_NR_OF_CHUNKS :=
        chunk_lt_of_pos e ks (i + 1) hks (by rw [Nat.add_mul, Nat.one_mul]; omega)
      refine ⟨?_, Or.inl ⟨rfl, by simp⟩, fun _ => ?_⟩
      · show (i + 1) * e.HTABLE_CHUNK_SIZE ≤ ks ∧ valid e v t0 ks _ _ (i + 1)
        exact ⟨by rw [Nat.add_mul, Nat.one_mul]; omega,
          valid_congr e v t0 ks tab q.ctx _ (i + 1) rfl (hvi1 hi1)⟩
      · simp only [Pc.togo]; omega
  | done r =>
    have hstep : prog_step e v tab q = ⟨{ q.ctx with table := tab }, .done r⟩ := by
      unfold prog_step; rw [hpc]
    rw [hstep]
    refine ⟨?_, Or.inl ⟨rfl, by simp⟩, fun hnd => absurd rfl (hnd r)⟩
    unfold proc_inv at hq ⊢
    rw [hpc] at hq
    exact hq

theorem togo_pos (e : Env) (v : Nat) (t0 : Nat → Nat) (ks : Nat) (tab : Nat → Nat)
    (hks : ks < budget e) (q : Proc) (hq : proc_inv e v t0 ks tab q)
    (hnd : ∀ r, q.pc ≠ .done r) : 0 < q.pc.togo e := by
  unfold proc_inv at hq
  cases hpc : q.pc with
  | start => simp only [Pc.togo]; omega
  | head i => simp only [Pc.togo]; omega
  | wait i =>
    rw [hpc] at hq
    have := togo_split e i (chunk_lt_of_pos e ks i hks hq.1)
    simp only [Pc.togo]; omega
  | slot i j =>
    rw [hpc] at hq
    have := togo_split e i (chunk_lt_of_pos e ks i hks (by omega))
    simp only [Pc.togo]; omega
  | done r => exact absurd hpc (hnd r)

/-- Every action keeps the invariant of the world. -/
theorem act_inv (e : Env) (hwf : e.wf) (hsp : e.fetch_current) (v : Nat) (t0 : Nat → Nat)
    (ks N : Nat) (hff : first_free e v t0 ks) (w : World) (hw : world_inv e v t0 ks N w)
    (a : Action) : world_inv e v t0 ks N (act e v N w a) := by
  cases a with
  | run p =>
    unfold act
    simp only []
    split_ifs with hp
    · obtain ⟨hq2, hscen, _⟩ := prog_step_inv e hwf hsp v t0 ks w.table hff hw.tab (w.procs p)
        (hw.procs p hp)
      rcases hscen with ⟨htq, hiff⟩ | ⟨hold, hupd, hins⟩
      · -- the table is as before
        refine ⟨?_, ?_, ?_, ?_⟩
        · simp only [htq]; exact hw.tab
        · intro p2 hp2
          simp only [Function.update_apply]
          split_ifs with h
          · exact hq2
          · simp only [htq]; exact hw.procs p2 hp2
        · intro hst
          simp only [htq] at hst
          obtain ⟨win, hwin, hwpc, hothers⟩ := hw.winner hst
          refine ⟨win, hwin, ?_, ?_⟩
          · simp only [Function.update_apply]
            split_ifs with h
            · rw [h] at hwpc; exact hiff.mpr hwpc
            · exact hwpc
          · intro p2 hp2 hne
            simp only [Function.update_apply]
            split_ifs with h
            · intro hc
              rw [h] at hne
              exact hothers p hp hne (hiff.mp hc)
            · exact hothers p2 hp2 hne
        · intro hst p2 hp2
          simp only [htq] at hst
          simp only [Function.update_apply]
          split_ifs with h
          · intro hc
            exact hw.nobody hst p hp (hiff.mp hc)
          · exact hw.nobody hst p2 hp2
      · -- the process claimed the first unoccupied bucket
        have hnew : (prog_step e v w.table (w.procs p)).ctx.table (probe_seq e v ks) = stored v := by
          rw [hupd, Function.update_same]
        refine ⟨⟨?_, Or.inr hnew⟩, ?_, ?_, ?_⟩
        · intro a ha
          simp only [hupd, Function.update_noteq ha]
          exact hw.tab.other a ha
        · intro p2 hp2
          simp only [Function.update_apply]
          split_ifs with h
          · exact hq2
          · exact proc_inv_mono e v t0 ks w.table _ (fun _ => hnew) _ (hw.procs p2 hp2)
        · intro _
          refine ⟨p, hp, by simp [hins], ?_⟩
          intro p2 hp2 hne
          simp only [Function.update_apply, if_neg hne]
          exact hw.nobody hold p2 hp2
        · intro hst
          exact absurd hnew hst
    · exact hw
  | land p n k =>
    unfold act
    simp only []
    split_ifs with hp
    · obtain ⟨hq2, hpc⟩ := land_inv e hwf hsp v t0 ks w.table hff hw.tab (w.procs p) n k
        (hw.procs p hp)
      refine ⟨hw.tab, ?_, ?_, ?_⟩
      · intro p2 hp2
        simp only [Function.update_apply]
        split_ifs with h
        · exact hq2
        · exact hw.procs p2 hp2
      · intro hst
        obtain ⟨win, hwin, hwpc, hothers⟩ := hw.winner hst
        refine ⟨win, hwin, ?_, ?_⟩
        · simp only [Function.update_apply]
          split_ifs with h
          · rw [hpc, ← h]; exact hwpc
          · exact hwpc
        · intro p2 hp2 hne
          simp only [Function.update_apply]
          split_ifs with h
          · rw [hpc, ← h]; exact hothers p2 hp2 hne
          · exact hothers p2 hp2 hne
      · intro hst p2 hp2
        simp only [Function.update_apply]
        split_ifs with h
        · rw [hpc, ← h]; exact hw.nobody hst p2 hp2
        · exact hw.nobody hst p2 hp2
    · exact hw

/-- A program step of process `p` uses up one of the steps `p` has to go; no
other action gives `p` steps back. -/
theorem act_togo (e : Env) (hwf : e.wf) (hsp : e.fetch_current) (v : Nat) (t0 : Nat → Nat)
    (ks N : Nat) (hff : first_free e v t0 ks) (w : World) (hw : world_inv e v t0 ks N w)
    (a : Action) (p : Nat) (hp : p < N) :
    ((act e v N w a).procs p).pc.togo e ≤
      (w.procs p).pc.togo e - (if a.runs p then 1 else 0) := by
  cases a with
  | run p2 =>
    by_cases hpp : p2 = p
    · subst hpp
      have hr : (Action.run p2).runs p2 = true := by simp [Action.runs]
      rw [hr]
      simp only [if_true]
      unfold act
      simp only [if_pos hp, Function.update_same]
      by_cases hd : ∀ r, (w.procs p2).pc ≠ .done r
      · have := (prog_step_inv e hwf hsp v t0 ks w.table hff hw.tab (w.procs p2)
          (hw.procs p2 hp)).2.2 hd
        omega
      · push_neg at hd
        obtain ⟨r, hr2⟩ := hd
        have : (prog_step e v w.table (w.procs p2)).pc = .done r := by
          unfold prog_step; rw [hr2]
        rw [this]; simp [Pc.togo]
    · have hr : (Action.run p2).runs p = false := by simp [Action.runs, hpp]
      rw [hr]
      simp only [Bool.false_eq_true, if_false, Nat.sub_zero]
      unfold act
      simp only []
      split_ifs
      · simp only [Function.update_noteq (Ne.symm hpp)]
        exact le_refl _
      · exact le_refl _
  | land p2 n k =>
    have hr : (Action.land p2 n k).runs p = false := rfl
    rw [hr]
    simp only [Bool.false_eq_true, if_false, Nat.sub_zero]
    unfold act
    simp only []
    split_ifs with h1
    · simp only [Function.update_apply]
      split_ifs with h2
      · subst h2
        rw [(land_inv e hwf hsp v t0 ks w.table hff hw.tab (w.procs p) n k (hw.procs p hp)).2]
      · exact le_refl _
    · exact le_refl _

theorem exec_inv (e : Env) (hwf : e.wf) (hsp : e.fetch_current) (v : Nat) (t0 : Nat → Nat)
    (ks N : Nat) (hff : first_free e v t0 ks) (sched : List Action) (w : World)
    (hw : world_inv e v t0 ks N w) : world_inv e v t0 ks N (exec e v N w sched) := by
  induction sched generalizing w with
  | nil => exact hw
  | cons a sched ih =>
    exact ih (act e v N w a) (act_inv e hwf hsp v t0 ks N hff w hw a)

theorem exec_togo (e : Env) (hwf : e.wf) (hsp : e.fetch_current) (v : Nat) (t0 : Nat → Nat)
    (ks N : Nat) (hff : first_free e v t0 ks) (sched : List Action) (w : World)
    (hw : world_inv e v t0 ks N w) (p : Nat) (hp : p < N) :
    ((exec e v N w sched).procs p).pc.togo e ≤
      (w.procs p).pc.togo e - sched.countP (Action.runs p) := by
  induction sched generalizing w with
  | nil => simp [exec]
  | cons a sched ih =>
    have h1 := ih (act e v N w a) (act_inv e hwf hsp v t0 ks N hff w hw a)
    have h2 := act_togo e hwf hsp v t0 ks N hff w hw a p hp
    rw [List.countP_cons]
    show ((exec e v N (act e v N w a) sched).procs p).pc.togo e ≤ _
    omega

theorem init_world_inv (e : Env) (v : Nat) (t0 : Nat → Nat) (ks N : Nat)
    (hff : first_free e v t0 ks) (chunks0 : Nat → Nat → Nat) :
    world_inv e v t0 ks N (init_world t0 chunks0) := by
  have hne : t0 (probe_seq e v ks) ≠ stored v := by
    intro h
    have := hff.clear
    rw [h] at this
    exact this (stored_occupied v)
  refine ⟨⟨fun _ _ => rfl, Or.inl rfl⟩, fun _ _ => trivial, fun h => absurd h hne, ?_⟩
  intro _ p _ hc
  simp [init_world] at hc

/-! ## The program steps of one process make up `htable_find_or_put` -/

theorem scan_chunk_succ_one (e : Env) (h d i fuel j : Nat) (c : htable_ctx) :
    scan_chunk e h d i (fuel + 1) j c =
      match scan_chunk e h d i 1 j c with
      | (some r, c2) => (some r, c2)
      | (none, c2) => scan_chunk e h d i fuel (j + 1) c2 := by
  by_cases h1 : c.chunks (u64 (u64 (i * e.HTABLE_CHUNK_SIZE) + j)) &&& HTABLE_MASK_OCCUPIED = 0
  · by_cases h2 : c.chunks (u64 (u64 (i * e.HTABLE_CHUNK_SIZE) + j)) =
        c.table (HTABLE_ADDR e (u64 (h + u64 (u64 (i * e.HTABLE_CHUNK_SIZE) + j))))
    · have h1b := h1
      rw [h2] at h1b
      simp [scan_chunk, CAS, h1, h2, h1b]
    · by_cases h3 : c.table (HTABLE_ADDR e (u64 (h + u64 (u64 (i * e.HTABLE_CHUNK_SIZE) + j)))) &&&
          HTABLE_MASK_DATA = d
      · simp [scan_chunk, CAS, h1, h2, h3]
      · simp [scan_chunk, CAS, h1, h2, h3]
  · by_cases h3 : c.chunks (u64 (u64 (i * e.HTABLE_CHUNK_SIZE) + j)) &&& HTABLE_MASK_DATA = d
    · simp [scan_chunk, h1, h3]
    · simp [scan_chunk, h1, h3]

theorem solo_add (e : Env) (v a b : Nat) (q : Proc) :
    solo e v (a + b) q = solo e v b (solo e v a q) := by
  induction a generalizing q with
  | zero => simp [solo]
  | succ a ih =>
    rw [show a + 1 + b = (a + b) + 1 by omega]
    simp only [solo]
    exact ih _

theorem solo_done (e : Env) (v n : Nat) (c : htable_ctx) (r : Nat) :
    solo e v n ⟨c, .done r⟩ = ⟨c, .done r⟩ := by
  induction n with
  | zero => rfl
  | succ n ih =>
    simp only [solo]
    exact ih

/-- The inner loop, step by step. -/
theorem solo_scan (e : Env) (v i fuel j : Nat) (c : htable_ctx)
    (hj : j + fuel = e.HTABLE_CHUNK_SIZE) :
    (∀ r, (scan_chunk e (u64 (e.hash (v &&& HTABLE_MASK_DATA))) (v &&& HTABLE_MASK_DATA)
        i fuel j c).1 = some r →
      ∃ n, n ≤ fuel ∧ solo e v n ⟨c, .slot i j⟩ =
        ⟨(scan_chunk e (u64 (e.hash (v &&& HTABLE_MASK_DATA))) (v &&& HTABLE_MASK_DATA)
          i fuel j c).2, .done r⟩) ∧
    ((scan_chunk e (u64 (e.hash (v &&& HTABLE_MASK_DATA))) (v &&& HTABLE_MASK_DATA)
        i fuel j c).1 = none →
      solo e v fuel ⟨c, .slot i j⟩ =
        ⟨(scan_chunk e (u64 (e.hash (v &&& HTABLE_MASK_DATA))) (v &&& HTABLE_MASK_DATA)
          i fuel j c).2, .slot i e.HTABLE_CHUNK_SIZE⟩) := by
  induction fuel generalizing j c with
  | zero =>
    constructor
    · intro r hr; simp [scan_chunk] at hr
    · intro _
      have : j = e.HTABLE_CHUNK_SIZE := by omega
      rw [this]; rfl
  | succ fuel ih =>
    have hlt : j < e.HTABLE_CHUNK_SIZE := by omega
    have hstep : prog_step e v c.table ⟨c, .slot i j⟩ =
        match scan_chunk e (u64 (e.hash (v &&& HTABLE_MASK_DATA))) (v &&& HTABLE_MASK_DATA) i 1 j c with
        | (some r, c2) => ⟨c2, .done r⟩
        | (none, c2) => ⟨c2, .slot i (j + 1)⟩ := by
      unfold prog_step; simp only [if_pos hlt]
    rw [scan_chunk_succ_one]
    cases hsc : scan_chunk e (u64 (e.hash (v &&& HTABLE_MASK_DATA))) (v &&& HTABLE_MASK_DATA) i 1 j c with
    | mk r1 c2 =>
      rw [hsc] at hstep
      cases r1 with
      | some r1 =>
        simp only at hstep ⊢
        constructor
        · intro r hr
          have : r1 = r := Option.some.inj hr
          subst this
          exact ⟨1, by omega, by simp only [solo]; exact hstep⟩
        · intro hc; simp at hc
      | none =>
        simp only at hstep ⊢
        have ih2 := ih (j + 1) c2 (by omega)
        constructor
        · intro r hr
          obtain ⟨n, hn, hs⟩ := ih2.1 r hr
          refine ⟨n + 1, by omega, ?_⟩
          simp only [solo]
          rw [hstep]; exact hs
        · intro hnone
          simp only [solo]
          rw [hstep]; exact ih2.2 hnone

/-- The outer loop, step by step. -/
theorem solo_chunk_loop (e : Env) (v fuel i : Nat) (c : htable_ctx)
    (hi : i + fuel = e.HTABLE_MAX_NR_OF_CHUNKS) :
    ∃ n, n ≤ 1 + fuel * (e.HTABLE_CHUNK_SIZE + 3) ∧
      solo e v n ⟨c, .head i⟩ =
        ⟨(chunk_loop e (u64 (e.hash (v &&& HTABLE_MASK_DATA))) (v &&& HTABLE_MASK_DATA) fuel i c).2,
          .done (chunk_loop e (u64 (e.hash (v &&& HTABLE_MASK_DATA))) (v &&& HTABLE_MASK_DATA)
            fuel i c).1⟩ := by
  induction fuel generalizing i c with
  | zero =>
    refine ⟨1, by omega, ?_⟩
    have hnlt : ¬ i < e.HTABLE_MAX_NR_OF_CHUNKS := by omega
    simp only [solo, chunk_loop]
    unfold prog_step
    simp only [if_neg hnlt]
  | succ fuel ih =>
    have hlt : i < e.HTABLE_MAX_NR_OF_CHUNKS := by omega
    rw [chunk_loop_succ]
    -- the head of the loop and the wait
    have h1 : prog_step e v c.table ⟨c, .head i⟩ =
        ⟨if u64 (i + 1) < e.HTABLE_MAX_NR_OF_CHUNKS
          then query_chunk e c (u64 (e.hash (v &&& HTABLE_MASK_DATA))) (u64 (i + 1)) else c,
          .wait i⟩ := by
      unfold prog_step; simp only [if_pos hlt]
    generalize hc1 : (if u64 (i + 1) < e.HTABLE_MAX_NR_OF_CHUNKS
          then query_chunk e c (u64 (e.hash (v &&& HTABLE_MASK_DATA))) (u64 (i + 1)) else c) = c1
      at h1
    have h2 : prog_step e v c1.table ⟨c1, .wait i⟩ = ⟨sync_on_chunk c1 i, .slot i 0⟩ := by
      unfold prog_step; rfl
    have hscan := solo_scan e v i e.HTABLE_CHUNK_SIZE 0 (sync_on_chunk c1 i) (by omega)
    cases hsc : scan_chunk e (u64 (e.hash (v &&& HTABLE_MASK_DATA))) (v &&& HTABLE_MASK_DATA) i
        e.HTABLE_CHUNK_SIZE 0 (sync_on_chunk c1 i) with
    | mk r c2 =>
      rw [hsc] at hscan
      cases r with
      | some r =>
        obtain ⟨n, hn, hs⟩ := hscan.1 r rfl
        refine ⟨2 + n, by rw [Nat.add_mul]; omega, ?_⟩
        rw [solo_add]
        simp only [solo]
        rw [h1, h2]
        exact hs
      | none =>
        have hs := hscan.2 rfl
        simp only at hs ⊢
        have h3 : prog_step e v c2.table ⟨c2, .slot i e.HTABLE_CHUNK_SIZE⟩ = ⟨c2, .head (i + 1)⟩ := by
          unfold prog_step; simp only [lt_irrefl, if_false]
        obtain ⟨n, hn, hs2⟩ := ih (i + 1) c2 (by omega)
        refine ⟨2 + (e.HTABLE_CHUNK_SIZE + (1 + n)), by rw [Nat.add_mul]; omega, ?_⟩
        rw [solo_add]
        simp only [solo]
        rw [h1, h2, solo_add, hs, solo_add]
        simp only [solo]
        rw [h3]
        exact hs2

/-- Adequacy of the program steps: a process that runs alone for `call_steps`
steps has returned what `htable_find_or_put` returns, in the context that
`htable_find_or_put` leaves. -/
theorem solo_find_or_put (e : Env) (ctx : htable_ctx) (v : Nat) :
    solo e v (call_steps e) ⟨ctx, .start⟩ =
      ⟨(htable_find_or_put e ctx v).2, .done (htable_find_or_put e ctx v).1⟩ := by
  have h1 : prog_step e v ctx.table ⟨ctx, .start⟩ =
      ⟨query_chunk e ctx (u64 (e.hash (v &&& HTABLE_MASK_DATA))) 0, .head 0⟩ := by
    unfold prog_step; rfl
  obtain ⟨n, hn, hs⟩ := solo_chunk_loop e v e.HTABLE_MAX_NR_OF_CHUNKS 0
    (query_chunk e ctx (u64 (e.hash (v &&& HTABLE_MASK_DATA))) 0) (by omega)
  have hsplit : call_steps e = 1 + (n + (call_steps e - 1 - n)) := by
    unfold call_steps; omega
  rw [hsplit, solo_add]
  simp only [solo]
  rw [h1, solo_add, hs, solo_done]
  rfl

/-- The same in the world of processes: when only process `p` is scheduled,
the interleaving is its solo run. -/
theorem exec_solo (e : Env) (v N p n : Nat) (hp : p < N) (w : World)
    (ht : (w.procs p).ctx.table = w.table) :
    (exec e v N w (List.replicate n (Action.run p))).procs p = solo e v n (w.procs p) ∧
    (exec e v N w (List.replicate n (Action.run p))).table = (solo e v n (w.procs p)).ctx.table := by
  induction n generalizing w with
  | zero => exact ⟨rfl, ht.symm⟩
  | succ n ih =>
    have hact : act e v N w (Action.run p) =
        { table := (prog_step e v w.table (w.procs p)).ctx.table
          procs := Function.update w.procs p (prog_step e v w.table (w.procs p)) } := by
      unfold act; simp only [if_pos hp]
    have := ih (act e v N w (Action.run p)) (by rw [hact]; simp)
    simp only [List.replicate_succ, exec, List.foldl_cons] at this ⊢
    rw [hact] at this ⊢
    simp only [Function.update_same] at this
    simp only [solo, ht]
    exact this

/-! ## A chunk that straddles a block boundary -/

theorem u64_BT (e : Env) (hwf : e.wf) :
    u64 (e.HTABLE_BLOCK_SIZE * e.THREADS) = 134217728 * e.THREADS := by
  obtain ⟨hB, hS1, hSB, hC1, hC, hT1, hT⟩ := hwf
  unfold u64; rw [hB]; omega

/-- The straddle arithmetic of `query_chunk` in the reference build, read off
the trace: with `x` the chunk start index and `a = HTABLE_ADDR(x)`, the fetch is
split exactly when `a % B > B - S`; the first part has `B - a % B` buckets
starting at `a`, the second part starts at offset 0 of a block, which is the
block after that of `a` (cyclically) unless `x + size1` passes `2^64`. -/
theorem query_chunk_straddle (e : Env) (hwf : e.wf) (ctx : htable_ctx) (h n : Nat)
    (hn : n < e.HTABLE_MAX_NR_OF_CHUNKS) :
    (e.HTABLE_BLOCK_SIZE - e.HTABLE_CHUNK_SIZE <
        HTABLE_ADDR e (u64 (h + u64 (n * e.HTABLE_CHUNK_SIZE))) % e.HTABLE_BLOCK_SIZE →
      1 ≤ e.HTABLE_BLOCK_SIZE -
        HTABLE_ADDR e (u64 (h + u64 (n * e.HTABLE_CHUNK_SIZE))) % e.HTABLE_BLOCK_SIZE ∧
      e.HTABLE_BLOCK_SIZE -
        HTABLE_ADDR e (u64 (h + u64 (n * e.HTABLE_CHUNK_SIZE))) % e.HTABLE_BLOCK_SIZE ≤
          e.HTABLE_CHUNK_SIZE - 1 ∧
      (query_chunk e ctx h n).trace =
        Event.store (2 * n + 1) none (some (ctx.fresh + 1)) ::
        Event.memget (ctx.fresh + 1)
          (n * e.HTABLE_CHUNK_SIZE + (e.HTABLE_BLOCK_SIZE -
            HTABLE_ADDR e (u64 (h + u64 (n * e.HTABLE_CHUNK_SIZE))) % e.HTABLE_BLOCK_SIZE))
          (HTABLE_ADDR e (u64 (u64 (h + u64 (n * e.HTABLE_CHUNK_SIZE)) + (e.HTABLE_BLOCK_SIZE -
            HTABLE_ADDR e (u64 (h + u64 (n * e.HTABLE_CHUNK_SIZE))) % e.HTABLE_BLOCK_SIZE))))
          (e.HTABLE_CHUNK_SIZE - (e.HTABLE_BLOCK_SIZE -
            HTABLE_ADDR e (u64 (h + u64 (n * e.HTABLE_CHUNK_SIZE))) % e.HTABLE_BLOCK_SIZE)) ::
        Event.store (2 * n) none (some ctx.fresh) ::
        Event.memget ctx.fresh (n * e.HTABLE_CHUNK_SIZE)
          (HTABLE_ADDR e (u64 (h + u64 (n * e.HTABLE_CHUNK_SIZE))))
          (e.HTABLE_BLOCK_SIZE -
            HTABLE_ADDR e (u64 (h + u64 (n * e.HTABLE_CHUNK_SIZE))) % e.HTABLE_BLOCK_SIZE) ::
        (sync_on_chunk { ctx with trace := Event.query n :: ctx.trace } n).trace) ∧
    (HTABLE_ADDR e (u64 (h + u64 (n * e.HTABLE_CHUNK_SIZE))) % e.HTABLE_BLOCK_SIZE ≤
        e.HTABLE_BLOCK_SIZE - e.HTABLE_CHUNK_SIZE →
      (query_chunk e ctx h n).trace =
        Event.store (2 * n + 1) none none ::
        Event.store (2 * n) none (some ctx.fresh) ::
        Event.memget ctx.fresh (n * e.HTABLE_CHUNK_SIZE)
          (HTABLE_ADDR e (u64 (h + u64 (n * e.HTABLE_CHUNK_SIZE)))) e.HTABLE_CHUNK_SIZE ::
        (sync_on_chunk { ctx with trace := Event.query n :: ctx.trace } n).trace) := by
  have hM := u64_BT e hwf
  obtain ⟨hB, hS1, hSB, hC1, hC, hT1, hT⟩ := hwf
  have hm : n * e.HTABLE_CHUNK_SIZE < 288230376151711744 := by
    have h1 : n * e.HTABLE_CHUNK_SIZE ≤ 2147483647 * 134217728 :=
      Nat.mul_le_mul (by omega) (by omega)
    omega
  have hslots := sync_on_chunk_handle { ctx with trace := Event.query n :: ctx.trace } n
  have hfresh := sync_on_chunk_fresh { ctx with trace := Event.query n :: ctx.trace } n
  have hoff : HTABLE_ADDR e (u64 (h + u64 (n * e.HTABLE_CHUNK_SIZE))) % 134217728 =
      u64 (h + u64 (n * e.HTABLE_CHUNK_SIZE)) % 134217728 := by
    unfold HTABLE_ADDR; rw [hM]; exact Nat.mod_mul_right_mod _ _ _
  unfold query_chunk
  simp only []
  generalize hc : sync_on_chunk { ctx with trace := Event.query n :: ctx.trace } n = c at hslots hfresh ⊢
  simp only at hfresh
  rw [hB, hoff]
  generalize n * e.HTABLE_CHUNK_SIZE = m at hm ⊢
  generalize hS : e.HTABLE_CHUNK_SIZE = S at *
  have hx : u64 (h + u64 m) < 18446744073709551616 := Nat.mod_lt _ (by norm_num)
  have hx2 : sub64 (u64 (u64 (h + u64 m) + S)) 1 < 18446744073709551616 := Nat.mod_lt _ (by norm_num)
  rw [HTABLE_THREAD_eq _ hx, HTABLE_THREAD_eq _ hx2, HTABLE_BLOCK_eq]
  generalize hxe : u64 (h + u64 m) = x at hx hx2 ⊢
  have hum : u64 m = m := by unfold u64; omega
  constructor
  · intro hgt
    have hcond : x / 134217728 ≠ sub64 (u64 (x + S)) 1 / 134217728 := by
      unfold sub64 u64; omega
    rw [if_pos hcond]
    refine ⟨by omega, by omega, ?_⟩
    simp only [store_handle, upc_memget_nb, hslots.1, hum, hfresh]
    have h1 : sub64 134217728 (x % 134217728) = 134217728 - x % 134217728 := by
      unfold sub64; omega
    have h2 : sub64 S (134217728 - x % 134217728) = S - (134217728 - x % 134217728) := by
      unfold sub64; omega
    have h3 : u64 (sizeof_bucket_t * (134217728 - x % 134217728)) / sizeof_bucket_t =
        134217728 - x % 134217728 := by
      unfold u64 sizeof_bucket_t; omega
    have h4 : u64 (sizeof_bucket_t * (S - (134217728 - x % 134217728))) / sizeof_bucket_t =
        S - (134217728 - x % 134217728) := by
      unfold u64 sizeof_bucket_t; omega
    have h5 : u64 (m + (134217728 - x % 134217728)) = m + (134217728 - x % 134217728) := by
      unfold u64; omega
    rw [h1, h2, h3, h4, h5]
    rw [Function.update_noteq (by omega), hslots.2]
  · intro hle
    have hcond : ¬ x / 134217728 ≠ sub64 (u64 (x + S)) 1 / 134217728 := by
      unfold sub64 u64; omega
    rw [if_neg hcond]
    simp only [store_handle, upc_memget_nb, hslots.1, hum, hfresh]
    have h3 : u64 (sizeof_bucket_t * S) / sizeof_bucket_t = S := by
      unfold u64 sizeof_bucket_t; omega
    rw [h3]
    rw [Function.update_noteq (by omega), hslots.2]

/-- The second part of a split fetch starts at offset 0 of a block; it is the
block after that of the first part, cyclically, when the index `x + size1`
does not pass `2^64`. -/
theorem second_fetch_block (e : Env) (hwf : e.wf) (x : Nat) :
    HTABLE_ADDR e (u64 (x + (e.HTABLE_BLOCK_SIZE - HTABLE_ADDR e x % e.HTABLE_BLOCK_SIZE))) %
      e.HTABLE_BLOCK_SIZE = 0 ∧
    (x + (e.HTABLE_BLOCK_SIZE - HTABLE_ADDR e x % e.HTABLE_BLOCK_SIZE) < 18446744073709551616 →
      HTABLE_ADDR e (u64 (x + (e.HTABLE_BLOCK_SIZE - HTABLE_ADDR e x % e.HTABLE_BLOCK_SIZE))) /
        e.HTABLE_BLOCK_SIZE = (HTABLE_ADDR e x / e.HTABLE_BLOCK_SIZE + 1) % e.THREADS) := by
  have hM := u64_BT e hwf
  obtain ⟨hB, hS1, hSB, hC1, hC, hT1, hT⟩ := hwf
  have hoff : ∀ y, HTABLE_ADDR e y % 134217728 = y % 134217728 := by
    intro y; unfold HTABLE_ADDR; rw [hM]; exact Nat.mod_mul_right_mod _ _ _
  rw [hB]
  constructor
  · simp only [hoff]; unfold u64; omega
  · intro hlt
    simp only [hoff] at hlt ⊢
    have hu : u64 (x + (134217728 - x % 134217728)) = x + (134217728 - x % 134217728) := by
      unfold u64; omega
    rw [hu]
    unfold HTABLE_ADDR
    rw [hM]
    -- x = M q + a, a = B s + r
    have hMpos : 0 < 134217728 * e.THREADS := by omega
    have ha : x % (134217728 * e.THREADS) % 134217728 = x % 134217728 := Nat.mod_mul_right_mod _ _ _
    have hdecomp : x + (134217728 - x % 134217728) =
        134217728 * (x % (134217728 * e.THREADS) / 134217728 + 1) +
          (134217728 * e.THREADS) * (x / (134217728 * e.THREADS)) := by
      have h1 := Nat.div_add_mod x (134217728 * e.THREADS)
      have h2 := Nat.div_add_mod (x % (134217728 * e.THREADS)) 134217728
      generalize (134217728 * e.THREADS) * (x / (134217728 * e.THREADS)) = q at h1 ⊢
      generalize x % (134217728 * e.THREADS) = a at h1 h2 ha ⊢
      omega
    rw [hdecomp, Nat.add_mul_mod_self_left, Nat.mul_mod_mul_left,
      Nat.mul_div_cancel_left _ (by norm_num : 0 < 134217728)]

/-! ## The shape of the trace -/

theorem sync_slot_trace (ctx : htable_ctx) (s : Nat) :
    ∃ tevs, (sync_slot ctx s).trace = tevs ++ ctx.trace ∧ ∀ ev, ev ∈ tevs → ev.transport := by
  unfold sync_slot
  split
  · rename_i id _
    refine ⟨[Event.store s ((upc_sync ctx id).handle s) none, Event.sync id], rfl, ?_⟩
    intro ev hev
    simp only [List.mem_cons, List.mem_singleton, List.not_mem_nil, or_false] at hev
    rcases hev with h | h <;> rw [h] <;> trivial
  · exact ⟨[], rfl, by simp⟩

theorem sync_on_chunk_trace (ctx : htable_ctx) (n : Nat) :
    ∃ tevs, (sync_on_chunk ctx n).trace = tevs ++ ctx.trace ∧ ∀ ev, ev ∈ tevs → ev.transport := by
  unfold sync_on_chunk
  obtain ⟨t1, h1, hp1⟩ := sync_slot_trace ctx (2 * n + 0)
  obtain ⟨t2, h2, hp2⟩ := sync_slot_trace (sync_slot ctx (2 * n + 0)) (2 * n + 1)
  refine ⟨t2 ++ t1, by rw [h2, h1, List.append_assoc], ?_⟩
  intro ev hev
  rcases List.mem_append.mp hev with h | h
  · exact hp2 ev h
  · exact hp1 ev h

theorem query_chunk_trace (e : Env) (ctx : htable_ctx) (h n : Nat) :
    ∃ tevs, (query_chunk e ctx h n).trace = tevs ++ Event.query n :: ctx.trace ∧
      ∀ ev, ev ∈ tevs → ev.transport := by
  obtain ⟨t1, h1, hp1⟩ := sync_on_chunk_trace { ctx with trace := Event.query n :: ctx.trace } n
  unfold query_chunk
  simp only []
  split
  · simp only [store_handle, upc_memget_nb, h1]
    refine ⟨_ :: _ :: _ :: _ :: t1, rfl, ?_⟩
    · intro ev hev
      simp only [List.mem_cons] at hev
      rcases hev with h | h | h | h | h
      · rw [h]; trivial
      · rw [h]; trivial
      · rw [h]; trivial
      · rw [h]; trivial
      · exact hp1 ev h
  · simp only [store_handle, upc_memget_nb, h1]
    refine ⟨_ :: _ :: _ :: t1, rfl, ?_⟩
    · intro ev hev
      simp only [List.mem_cons] at hev
      rcases hev with h | h | h | h
      · rw [h]; trivial
      · rw [h]; trivial
      · rw [h]; trivial
      · exact hp1 ev h

/-! ## Single-process execution: every compare-and-swap succeeds -/

theorem probe_spec (e : Env) (hwf : e.wf) (x k : Nat) :
    probe e (u64 x) k = ((x + k) % 18446744073709551616) % (e.THREADS * e.HTABLE_BLOCK_SIZE) := by
  unfold probe HTABLE_ADDR
  rw [u64_BT e hwf, hwf.1, Nat.mul_comm]
  unfold u64
  rw [Nat.mod_add_mod]

theorem spec_scan_linear (e : Env) (hwf : e.wf) (d : Nat) (t : Nat → Nat) (fuel k : Nat) :
    spec_scan e d t fuel k =
      (((linear_probe e (u64 (e.hash d)) d t fuel k).1).getD HTABLE_FULL,
        (linear_probe e (u64 (e.hash d)) d t fuel k).2) := by
  induction fuel generalizing k with
  | zero => rfl
  | succ fuel ih =>
    rw [linear_probe_succ, probe_spec e hwf]
    unfold spec_scan
    simp only []
    have h1 : HTABLE_MASK_OCCUPIED = 0x8000000000000000 := rfl
    have h2 : HTABLE_MASK_DATA = 0x7fffffffffffffff := rfl
    rw [h1, h2]
    split_ifs
    · rfl
    · rfl
    · rw [ih]

theorem scan_chunk_cas_exact (e : Env) (h d i fuel j : Nat) (ctx : htable_ctx)
    (hi : i * e.HTABLE_CHUNK_SIZE + j + fuel < 18446744073709551616)
    (hst : ∀ j2, j ≤ j2 → j2 < j + fuel →
      ctx.chunks (i * e.HTABLE_CHUNK_SIZE + j2) = ctx.table (probe e h (i * e.HTABLE_CHUNK_SIZE + j2))) :
    ∃ evs, (scan_chunk e h d i fuel j ctx).2.trace = evs ++ ctx.trace ∧
      ∀ a x y o, Event.cas a x y o ∈ evs → o = x := by
  induction fuel generalizing j ctx with
  | zero => exact ⟨[], rfl, by simp⟩
  | succ fuel ih =>
    have hidx : u64 (u64 (i * e.HTABLE_CHUNK_SIZE) + j) = i * e.HTABLE_CHUNK_SIZE + j := by
      unfold u64; omega
    have hs := hst j (le_refl _) (by omega)
    unfold scan_chunk
    simp only [hidx, CAS]
    have hp : HTABLE_ADDR e (u64 (h + (i * e.HTABLE_CHUNK_SIZE + j))) = probe e h (i * e.HTABLE_CHUNK_SIZE + j) := rfl
    rw [hp, hs]
    by_cases h1 : ctx.table (probe e h (i * e.HTABLE_CHUNK_SIZE + j)) &&& HTABLE_MASK_OCCUPIED = 0
    · simp only [h1, if_true]
      refine ⟨[Event.cas _ _ _ _, Event.inspect _], rfl, ?_⟩
      intro a x y o hmem
      simp only [List.mem_cons, List.mem_singleton, List.not_mem_nil, or_false] at hmem
      rcases hmem with hm | hm
      · injection hm with _ hx _ ho
        rw [hx, ho]
      · cases hm
    · simp only [h1, if_false]
      by_cases h2 : ctx.table (probe e h (i * e.HTABLE_CHUNK_SIZE + j)) &&& HTABLE_MASK_DATA = d
      · simp only [h2, if_true]
        refine ⟨[Event.inspect _], rfl, ?_⟩
        intro a x y o hmem
        simp only [List.mem_singleton] at hmem
        cases hmem
      · simp only [h2, if_false]
        obtain ⟨evs, he, hc⟩ := ih (j + 1)
          { ctx with trace := Event.inspect (i * e.HTABLE_CHUNK_SIZE + j) :: ctx.trace }
          (by omega) (fun j2 hj2 hj3 => hst j2 (by omega) (by omega))
        refine ⟨evs ++ [Event.inspect (i * e.HTABLE_CHUNK_SIZE + j)], ?_, ?_⟩
        · rw [he]; simp
        · intro a x y o hmem
          rcases List.mem_append.mp hmem with hm | hm
          · exact hc a x y o hm
          · simp only [List.mem_singleton] at hm
            cases hm

theorem chunk_loop_cas_exact (e : Env) (hwf : e.wf) (hsp : e.fetch_current) (h d fuel i : Nat)
    (ctx : htable_ctx) (hfi : i + fuel = e.HTABLE_MAX_NR_OF_CHUNKS) (hst : staged e ctx h i) :
    ∃ evs, (chunk_loop e h d fuel i ctx).2.trace = evs ++ ctx.trace ∧
      ∀ a x y o, Event.cas a x y o ∈ evs → o = x := by
  induction fuel generalizing i ctx with
  | zero => exact ⟨[], rfl, by simp⟩
  | succ fuel ih =>
    have hwf2 := hwf
    obtain ⟨hB, hS1, hSB, hC1, hC, hT1, hT⟩ := hwf2
    have hu : u64 (i + 1) = i + 1 := by unfold u64; omega
    have hiS : i * e.HTABLE_CHUNK_SIZE + e.HTABLE_CHUNK_SIZE ≤ 2147483647 * 134217728 := by
      have h1 : (i + 1) * e.HTABLE_CHUNK_SIZE ≤ 2147483647 * 134217728 :=
        Nat.mul_le_mul (by omega) (by omega)
      rw [Nat.add_mul, Nat.one_mul] at h1
      exact h1
    rw [chunk_loop_succ, hu]
    -- the events up to the scan of chunk `i`
    have htr : ∃ tevs, (sync_on_chunk (if i + 1 < e.HTABLE_MAX_NR_OF_CHUNKS
          then query_chunk e ctx h (i + 1) else ctx) i).trace = tevs ++ ctx.trace ∧
        ∀ a x y o, Event.cas a x y o ∉ tevs := by
      obtain ⟨t2, h2, hp2⟩ := sync_on_chunk_trace (if i + 1 < e.HTABLE_MAX_NR_OF_CHUNKS
          then query_chunk e ctx h (i + 1) else ctx) i
      split_ifs at h2 hp2 ⊢ with hlt
      · obtain ⟨t1, h1, hp1⟩ := query_chunk_trace e ctx h (i + 1)
        refine ⟨t2 ++ t1 ++ [Event.query (i + 1)], by rw [h2, h1]; simp, ?_⟩
        intro a x y o hmem
        simp only [List.mem_append, List.mem_singleton] at hmem
        rcases hmem with (hm | hm) | hm
        · exact hp2 _ hm
        · exact hp1 _ hm
        · cases hm
      · exact ⟨t2, h2, fun a x y o hmem => hp2 _ hmem⟩
    generalize hc : sync_on_chunk (if i + 1 < e.HTABLE_MAX_NR_OF_CHUNKS
          then query_chunk e ctx h (i + 1) else ctx) i = c at htr
    obtain ⟨tevs, htr, htq⟩ := htr
    have hct : c.table = ctx.table := by
      rw [← hc]; split_ifs <;> simp
    have hcs : staged e c h i := by
      intro j hj
      rw [hct, ← hst j hj, ← hc, sync_on_chunk_chunks]
      split_ifs with hlt
      · rw [query_chunk_chunks e hwf hsp ctx h (i + 1) _ hlt, if_neg]
        rw [Nat.add_mul]; omega
      · rfl
    have hcs2 : i + 1 < e.HTABLE_MAX_NR_OF_CHUNKS → staged e c h (i + 1) := by
      intro hlt j hj
      rw [hct, ← hc, sync_on_chunk_chunks, if_pos hlt,
        query_chunk_chunks e hwf hsp ctx h (i + 1) _ hlt, if_pos]
      omega
    have hsl := scan_chunk_linear e h d i e.HTABLE_CHUNK_SIZE 0 c (by omega)
      (fun j2 _ hj2 => hcs j2 (by omega))
    obtain ⟨sevs, hse, hsq⟩ := scan_chunk_cas_exact e h d i e.HTABLE_CHUNK_SIZE 0 c (by omega)
      (fun j2 _ hj2 => hcs j2 (by omega))
    have hfr := scan_chunk_frame e h d i e.HTABLE_CHUNK_SIZE 0 c
    have hall : ∀ a x y o, Event.cas a x y o ∈ sevs ++ tevs → o = x := by
      intro a x y o hmem
      rcases List.mem_append.mp hmem with hm | hm
      · exact hsq a x y o hm
      · exact absurd hm (htq a x y o)
    cases hsc : scan_chunk e h d i e.HTABLE_CHUNK_SIZE 0 c with
    | mk r c2 =>
      rw [hsc] at hsl hfr hse
      cases r with
      | some r =>
        exact ⟨sevs ++ tevs, by simp only []; rw [hse, htr, List.append_assoc], hall⟩
      | none =>
        have hnone : (linear_probe e h d c.table e.HTABLE_CHUNK_SIZE
            (i * e.HTABLE_CHUNK_SIZE + 0)).1 = none := by
          rw [← hsl.1]
        have hc2t : c2.table = c.table := by
          rw [hsl.2]; exact linear_probe_none _ _ _ _ _ _ hnone
        simp only []
        rcases Nat.eq_zero_or_pos fuel with hf | hf
        · subst hf
          exact ⟨sevs ++ tevs, by simp only [chunk_loop]; rw [hse, htr, List.append_assoc], hall⟩
        · have hst2 : staged e c2 h (i + 1) := by
            intro j hj
            rw [hfr.1, hc2t]
            exact hcs2 (by omega) j hj
          obtain ⟨evs, he, hq⟩ := ih (i + 1) c2 (by omega) hst2
          refine ⟨evs ++ (sevs ++ tevs), by rw [he, hse, htr]; simp, ?_⟩
          intro a x y o hmem
          rcases List.mem_append.mp hmem with hm | hm
          · exact hq a x y o hm
          · exact hall a x y o hm

theorem find_or_put_cas_exact (e : Env) (hwf : e.wf) (hsp : e.fetch_current) (ctx : htable_ctx)
    (v : Nat) :
    ∃ evs, (htable_find_or_put e ctx v).2.trace = evs ++ ctx.trace ∧
      ∀ a x y o, Event.cas a x y o ∈ evs → o = x := by
  unfold htable_find_or_put
  simp only []
  have hst : staged e (query_chunk e ctx (u64 (e.hash (v &&& HTABLE_MASK_DATA))) 0)
      (u64 (e.hash (v &&& HTABLE_MASK_DATA))) 0 := by
    intro j hj
    rw [query_chunk_table, query_chunk_chunks e hwf hsp ctx _ 0 _ (by have := hwf.2.2.2.1; omega), if_pos]
    omega
  obtain ⟨evs, he, hq⟩ := chunk_loop_cas_exact e hwf hsp (u64 (e.hash (v &&& HTABLE_MASK_DATA)))
    (v &&& HTABLE_MASK_DATA) e.HTABLE_MAX_NR_OF_CHUNKS 0 _ (by omega) hst
  obtain ⟨t1, h1, hp1⟩ := query_chunk_trace e ctx (u64 (e.hash (v &&& HTABLE_MASK_DATA))) 0
  refine ⟨evs ++ (t1 ++ [Event.query 0]), by rw [he, h1]; simp, ?_⟩
  intro a x y o hmem
  simp only [List.mem_append, List.mem_singleton] at hmem
  rcases hmem with hm | hm | hm
  · exact hq a x y o hm
  · exact absurd (hp1 _ hm) (fun h => h)
  · cases hm

/-! ## Filling a probe sequence -/

theorem probe_injective (e : Env) (hwf : e.wf) (hbud : budget e ≤ e.HTABLE_BLOCK_SIZE)
    (h k1 k2 : Nat) (hk1 : k1 < budget e) (hk2 : k2 < budget e)
    (heq : probe e h k1 = probe e h k2) : k1 = k2 := by
  unfold probe HTABLE_ADDR at heq
  rw [u64_BT e hwf] at heq
  have hB := hwf.1
  have h1 : u64 (h + k1) % (134217728 * e.THREADS) % 134217728 =
      u64 (h + k2) % (134217728 * e.THREADS) % 134217728 := by rw [heq]
  rw [Nat.mod_mul_right_mod, Nat.mod_mul_right_mod] at h1
  unfold u64 at h1
  omega

theorem filled_step (e : Env) (hwf : e.wf) (hsp : e.fetch_current)
    (hbud : budget e ≤ e.HTABLE_BLOCK_SIZE) (h : Nat) (ctx : htable_ctx) (done : List Nat) (p : Nat)
    (hfill : filled e h ctx.table done) (hlen : done.length < budget e)
    (hne : ∀ q, q ∈ done → q &&& HTABLE_MASK_DATA ≠ p &&& HTABLE_MASK_DATA)
    (hh : u64 (e.hash (p &&& HTABLE_MASK_DATA)) = h) :
    (htable_find_or_put e ctx p).1 = HTABLE_INSERTED ∧
    filled e h (htable_find_or_put e ctx p).2.table (done ++ [p]) := by
  obtain ⟨hf1, hf2⟩ := hfill
  have hps : ∀ k, probe_seq e p k = probe e h k := by
    intro k; unfold probe_seq; rw [hh]
  have hlow : ∀ k, k < done.length → occupied (ctx.table (probe e h k)) ∧
      payload (ctx.table (probe e h k)) ≠ p &&& HTABLE_MASK_DATA := by
    intro k hk
    have hget : done[k]? = some (done[k]) := List.getElem?_eq_getElem hk
    rw [hf1 k _ hget]
    refine ⟨stored_occupied _, ?_⟩
    unfold payload
    rw [stored_payload]
    exact hne _ (List.getElem_mem hk)
  have hzero : ¬ occupied (ctx.table (probe e h done.length)) := by
    rw [hf2 _ (le_refl _) hlen]; exact not_occupied_zero
  have hins : (htable_find_or_put e ctx p).1 = HTABLE_INSERTED := by
    rcases find_or_put_cases e hwf hsp ctx p with ⟨h1, _⟩ | ⟨h1, _⟩ | ⟨h1, _⟩
    · have := ((find_or_put_full e hwf hsp ctx p).1.mp h1) done.length hlen
      rw [hps] at this
      exact absurd this.1 hzero
    · obtain ⟨_, k, hk, hocc, hpay, _⟩ := find_or_put_found e hwf hsp ctx p h1
      rw [hps] at hocc hpay
      rcases Nat.lt_or_ge k done.length with hlt | hge
      · exact absurd hpay (hlow k hlt).2
      · rw [hf2 k hge hk] at hocc
        exact absurd hocc not_occupied_zero
    · exact h1
  refine ⟨hins, ?_⟩
  obtain ⟨k, hk, hclr, hbef, htab⟩ := find_or_put_inserted e hwf hsp ctx p hins
  rw [hps] at hclr htab
  have hkeq : k = done.length := by
    rcases Nat.lt_trichotomy k done.length with hlt | heq | hgt
    · exact absurd (hlow k hlt).1 hclr
    · exact heq
    · have := (hbef done.length hgt).1
      rw [hps] at this
      exact absurd this hzero
  subst hkeq
  rw [htab]
  constructor
  · intro i q hq
    rcases Nat.lt_trichotomy i done.length with hlt | heq | hgt
    · rw [List.getElem?_append_left hlt] at hq
      have hnp : probe e h i ≠ probe e h done.length := fun hc =>
        absurd (probe_injective e hwf hbud h _ _ (by omega) hlen hc) (by omega)
      rw [Function.update_noteq hnp]
      exact hf1 i q hq
    · subst heq
      rw [List.getElem?_append_right (le_refl _)] at hq
      simp only [Nat.sub_self, List.getElem?_cons_zero, Option.some.injEq] at hq
      rw [← hq, Function.update_same]
      rfl
    · rw [List.getElem?_append_right (by omega)] at hq
      have : i - done.length = (i - done.length - 1) + 1 := by omega
      rw [this] at hq
      simp at hq
  · intro k2 hk2 hk3
    simp only [List.length_append, List.length_singleton] at hk2
    have hnp : probe e h k2 ≠ probe e h done.length := fun hc =>
      absurd (probe_injective e hwf hbud h _ _ hk3 hlen hc) (by omega)
    rw [Function.update_noteq hnp]
    exact hf2 k2 (by omega) hk3

theorem filled_run (e : Env) (hwf : e.wf) (hsp : e.fetch_current)
    (hbud : budget e ≤ e.HTABLE_BLOCK_SIZE) (h : Nat) (todo done : List Nat) (ctx : htable_ctx)
    (hfill : filled e h ctx.table done) (hlen : done.length + todo.length ≤ budget e)
    (hne : (done ++ todo).Pairwise (fun a b => a &&& HTABLE_MASK_DATA ≠ b &&& HTABLE_MASK_DATA))
    (hh : ∀ p, p ∈ todo → u64 (e.hash (p &&& HTABLE_MASK_DATA)) = h) :
    (∀ q, q ∈ calls e ctx todo → q.2 = HTABLE_INSERTED) ∧
    filled e h (run e ctx todo).table (done ++ todo) := by
  induction todo generalizing done ctx with
  | nil =>
    simp only [calls, run, List.append_nil]
    exact ⟨fun q hq => absurd hq (List.not_mem_nil q), hfill⟩
  | cons p todo ih =>
    simp only [List.length_cons] at hlen
    have hpw := List.pairwise_append.mp hne
    have hstep := filled_step e hwf hsp hbud h ctx done p hfill (by omega)
      (fun q hq => hpw.2.2 q hq p (List.mem_cons_self _ _)) (hh p (List.mem_cons_self _ _))
    have hne2 : (done ++ [p] ++ todo).Pairwise
        (fun a b => a &&& HTABLE_MASK_DATA ≠ b &&& HTABLE_MASK_DATA) := by
      rw [List.append_assoc]; exact hne
    have := ih (done ++ [p]) (htable_find_or_put e ctx p).2 hstep.2
      (by simp only [List.length_append, List.length_singleton]; omega) hne2
      (fun q hq => hh q (List.mem_cons_of_mem _ hq))
    rw [List.append_assoc] at this
    refine ⟨?_, this.2⟩
    intro q hq
    simp only [calls, List.mem_cons] at hq
    rcases hq with hq | hq
    · rw [hq]; exact hstep.1
    · exact this.1 q hq

theorem filled_full (e : Env) (hwf : e.wf) (hsp : e.fetch_current) (h : Nat) (ctx : htable_ctx)
    (done : List Nat) (p : Nat) (hfill : filled e h ctx.table done) (hlen : done.length = budget e)
    (hne : ∀ q, q ∈ done → q &&& HTABLE_MASK_DATA ≠ p &&& HTABLE_MASK_DATA)
    (hh : u64 (e.hash (p &&& HTABLE_MASK_DATA)) = h) :
    (htable_find_or_put e ctx p).1 = HTABLE_FULL := by
  apply (find_or_put_full e hwf hsp ctx p).1.mpr
  intro k hk
  have hk2 : k < done.length := by omega
  have hget : done[k]? = some (done[k]) := List.getElem?_eq_getElem hk2
  unfold probe_seq
  rw [hh, hfill.1 k _ hget]
  refine ⟨stored_occupied _, ?_⟩
  unfold payload
  rw [stored_payload]
  exact hne _ (List.getElem_mem hk2)

/-! ## The scan events of a call -/

theorem range_reverse_succ (k : Nat) : (List.range (k + 1)).reverse = k :: (List.range k).reverse := by
  rw [List.range_succ, List.reverse_append]; rfl

theorem hist_idle (e : Env) (h d : Nat) (t0 : Nat → Nat) (tevs evs : List Event)
    (hid : ∀ ev, ev ∈ tevs → ev.transport ∨ ev.isQuery = true)
    (hok : hist_ok (scan_rule e h d t0) evs) (hgo : ∀ ev, ev ∈ evs → ev.goes_on d) :
    hist_ok (scan_rule e h d t0) (tevs ++ evs) ∧ (∀ ev, ev ∈ tevs ++ evs → ev.goes_on d) ∧
    inspected (tevs ++ evs) = inspected evs := by
  induction tevs with
  | nil => exact ⟨hok, hgo, rfl⟩
  | cons ev tevs ih =>
    obtain ⟨ih1, ih2, ih3⟩ := ih (fun ev2 h2 => hid ev2 (List.mem_cons_of_mem _ h2))
    have hev := hid ev (List.mem_cons_self _ _)
    have hg : ev.goes_on d := by
      cases ev <;> first | trivial | (rcases hev with h | h <;> cases h)
    have hr : scan_rule e h d t0 ev (tevs ++ evs) := by
      refine ⟨ih2, ?_⟩
      cases ev <;> first | trivial | (rcases hev with h | h <;> cases h)
    have hs : ev.slot = none := by
      cases ev <;> first | rfl | (rcases hev with h | h <;> cases h)
    refine ⟨⟨hr, ih1⟩, ?_, ?_⟩
    · intro ev2 h2
      rcases List.mem_cons.mp h2 with h3 | h3
      · rw [h3]; exact hg
      · exact ih2 ev2 h3
    · unfold inspected at ih3 ⊢
      rw [List.cons_append, List.filterMap_cons, hs]
      exact ih3

theorem hist_inspect (e : Env) (h d : Nat) (t0 : Nat → Nat) (evs : List Event) (k : Nat)
    (hok : hist_ok (scan_rule e h d t0) evs) (hgo : ∀ ev, ev ∈ evs → ev.goes_on d)
    (hins : inspected evs = (List.range k).reverse) :
    hist_ok (scan_rule e h d t0) (Event.inspect k :: evs) ∧
    (∀ ev, ev ∈ Event.inspect k :: evs → ev.goes_on d) ∧
    inspected (Event.inspect k :: evs) = (List.range (k + 1)).reverse := by
  refine ⟨⟨⟨hgo, trivial⟩, hok⟩, ?_, ?_⟩
  · intro ev hev
    rcases List.mem_cons.mp hev with h3 | h3
    · rw [h3]; trivial
    · exact hgo ev h3
  · rw [range_reverse_succ, ← hins]
    rfl

theorem hist_cas (e : Env) (h d : Nat) (t0 : Nat → Nat) (evs : List Event) (k x : Nat)
    (hok : hist_ok (scan_rule e h d t0) (Event.inspect k :: evs))
    (hgo : ∀ ev, ev ∈ Event.inspect k :: evs → ev.goes_on d)
    (hx : x &&& HTABLE_MASK_OCCUPIED = 0) :
    hist_ok (scan_rule e h d t0)
      (Event.cas (HTABLE_ADDR e (u64 (h + k))) x (d ||| HTABLE_MASK_OCCUPIED)
        (t0 (HTABLE_ADDR e (u64 (h + k)))) :: Event.inspect k :: evs) ∧
    inspected (Event.cas (HTABLE_ADDR e (u64 (h + k))) x (d ||| HTABLE_MASK_OCCUPIED)
        (t0 (HTABLE_ADDR e (u64 (h + k)))) :: Event.inspect k :: evs) =
      inspected (Event.inspect k :: evs) :=
  ⟨⟨⟨hgo, k, evs, rfl, rfl, hx, rfl, rfl⟩, hok⟩, rfl⟩

theorem scan_chunk_hist (e : Env) (h d i fuel j : Nat) (c : htable_ctx) (t0 : Nat → Nat)
    (tr0 evs : List Event)
    (hb : i * e.HTABLE_CHUNK_SIZE + j + fuel ≤ 18446744073709551616)
    (htr : c.trace = evs ++ tr0) (ht : c.table = t0)
    (hins : inspected evs = (List.range (i * e.HTABLE_CHUNK_SIZE + j)).reverse)
    (hok : hist_ok (scan_rule e h d t0) evs) (hgo : ∀ ev, ev ∈ evs → ev.goes_on d) :
    ∃ evs2 m, (scan_chunk e h d i fuel j c).2.trace = evs2 ++ tr0 ∧
      hist_ok (scan_rule e h d t0) evs2 ∧ inspected evs2 = (List.range m).reverse ∧
      m ≤ i * e.HTABLE_CHUNK_SIZE + j + fuel ∧
      (((scan_chunk e h d i fuel j c).1 = none ∧ m = i * e.HTABLE_CHUNK_SIZE + j + fuel ∧
          (∀ ev, ev ∈ evs2 → ev.goes_on d) ∧ (scan_chunk e h d i fuel j c).2.table = t0) ∨
        ∃ res, (scan_chunk e h d i fuel j c).1 = some res ∧
          finished d t0 evs2 res (scan_chunk e h d i fuel j c).2.table) := by
  induction fuel generalizing j c evs with
  | zero => exact ⟨evs, _, htr, hok, hins, le_refl _, Or.inl ⟨rfl, rfl, hgo, ht⟩⟩
  | succ fuel ih =>
    subst ht
    have hidx : u64 (u64 (i * e.HTABLE_CHUNK_SIZE) + j) = i * e.HTABLE_CHUNK_SIZE + j := by
      unfold u64; omega
    obtain ⟨hok1, hgo1, hins1⟩ := hist_inspect e h d c.table evs _ hok hgo hins
    unfold scan_chunk
    simp only [hidx, CAS]
    by_cases h1 : c.chunks (i * e.HTABLE_CHUNK_SIZE + j) &&& HTABLE_MASK_OCCUPIED = 0
    · obtain ⟨hok2, hins2⟩ := hist_cas e h d c.table evs _ _ hok1 hgo1 h1
      rw [hins1] at hins2
      simp only [h1, if_true]
      by_cases h2 : c.chunks (i * e.HTABLE_CHUNK_SIZE + j) =
          c.table (HTABLE_ADDR e (u64 (h + (i * e.HTABLE_CHUNK_SIZE + j))))
      · simp only [h2, if_true]
        rw [h2] at hok2 hins2
        refine ⟨_, _, by rw [htr]; rfl, hok2, hins2, by omega, Or.inr ⟨_, rfl, Or.inl ⟨rfl, ?_⟩⟩⟩
        exact ⟨_, _, _, _, rfl, rfl⟩
      · have h2b : ¬ c.table (HTABLE_ADDR e (u64 (h + (i * e.HTABLE_CHUNK_SIZE + j)))) =
            c.chunks (i * e.HTABLE_CHUNK_SIZE + j) := fun hc => h2 hc.symm
        simp only [h2, h2b, if_false]
        by_cases h3 : c.table (HTABLE_ADDR e (u64 (h + (i * e.HTABLE_CHUNK_SIZE + j)))) &&&
            HTABLE_MASK_DATA = d
        · simp only [h3, if_true]
          refine ⟨_, _, by rw [htr]; rfl, hok2, hins2, by omega,
            Or.inr ⟨_, rfl, Or.inr ⟨rfl, rfl, Or.inl ?_⟩⟩⟩
          exact ⟨_, _, _, _, _, rfl, h2b, h3⟩
        · simp only [h3, if_false]
          have hgo2 : ∀ ev, ev ∈ Event.cas (HTABLE_ADDR e (u64 (h + (i * e.HTABLE_CHUNK_SIZE + j))))
              (c.chunks (i * e.HTABLE_CHUNK_SIZE + j)) (d ||| HTABLE_MASK_OCCUPIED)
              (c.table (HTABLE_ADDR e (u64 (h + (i * e.HTABLE_CHUNK_SIZE + j))))) ::
              Event.inspect (i * e.HTABLE_CHUNK_SIZE + j) :: evs → ev.goes_on d := by
            intro ev hev
            rcases List.mem_cons.mp hev with h4 | h4
            · rw [h4]; exact ⟨h2b, h3⟩
            · exact hgo1 ev h4
          obtain ⟨evs2, m, he, hk, hi2, hm, hres⟩ := ih (j + 1)
            { c with
              trace := Event.cas (HTABLE_ADDR e (u64 (h + (i * e.HTABLE_CHUNK_SIZE + j))))
                (c.chunks (i * e.HTABLE_CHUNK_SIZE + j)) (d ||| HTABLE_MASK_OCCUPIED)
                (c.table (HTABLE_ADDR e (u64 (h + (i * e.HTABLE_CHUNK_SIZE + j))))) ::
                Event.inspect (i * e.HTABLE_CHUNK_SIZE + j) :: c.trace }
            _ (by omega) (by simp only [htr]; rfl) rfl (by rw [hins2]; rfl) hok2 hgo2
          refine ⟨evs2, m, he, hk, hi2, by omega, ?_⟩
          rcases hres with ⟨r1, r2, r3, r4⟩ | hres
          · exact Or.inl ⟨r1, by omega, r3, r4⟩
          · exact Or.inr hres
    · simp only [h1, if_false]
      by_cases h3 : c.chunks (i * e.HTABLE_CHUNK_SIZE + j) &&& HTABLE_MASK_DATA = d
      · simp only [h3, if_true]
        refine ⟨_, _, by rw [htr]; rfl, hok1, hins1, by omega,
          Or.inr ⟨_, rfl, Or.inr ⟨rfl, rfl, Or.inr ⟨_, _, rfl⟩⟩⟩⟩
      · simp only [h3, if_false]
        obtain ⟨evs2, m, he, hk, hi2, hm, hres⟩ := ih (j + 1)
          { c with trace := Event.inspect (i * e.HTABLE_CHUNK_SIZE + j) :: c.trace }
          _ (by omega) (by simp only [htr]; rfl) rfl (by rw [hins1]; rfl) hok1 hgo1
        refine ⟨evs2, m, he, hk, hi2, by omega, ?_⟩
        rcases hres with ⟨r1, r2, r3, r4⟩ | hres
        · exact Or.inl ⟨r1, by omega, r3, r4⟩
        · exact Or.inr hres

theorem prefetch_trace (e : Env) (c : htable_ctx) (h i n : Nat) (b : Prop) [Decidable b] :
    ∃ tevs, (sync_on_chunk (if b then query_chunk e c h n else c) i).trace = tevs ++ c.trace ∧
      ∀ ev, ev ∈ tevs → ev.transport ∨ ev.isQuery = true := by
  obtain ⟨t2, h2, hp2⟩ := sync_on_chunk_trace (if b then query_chunk e c h n else c) i
  split_ifs at h2 hp2 ⊢ with hlt
  · obtain ⟨t1, h1, hp1⟩ := query_chunk_trace e c h n
    refine ⟨t2 ++ t1 ++ [Event.query n], by rw [h2, h1]; simp, ?_⟩
    intro ev hmem
    simp only [List.mem_append, List.mem_singleton] at hmem
    rcases hmem with (hm | hm) | hm
    · exact Or.inl (hp2 _ hm)
    · exact Or.inl (hp1 _ hm)
    · rw [hm]; exact Or.inr rfl
  · exact ⟨t2, h2, fun ev hmem => Or.inl (hp2 _ hmem)⟩

theorem chunk_loop_hist (e : Env) (h d fuel i : Nat) (c : htable_ctx) (t0 : Nat → Nat)
    (tr0 evs : List Event)
    (hb : (i + fuel) * e.HTABLE_CHUNK_SIZE ≤ 18446744073709551616)
    (htr : c.trace = evs ++ tr0) (ht : c.table = t0)
    (hins : inspected evs = (List.range (i * e.HTABLE_CHUNK_SIZE)).reverse)
    (hok : hist_ok (scan_rule e h d t0) evs) (hgo : ∀ ev, ev ∈ evs → ev.goes_on d) :
    ∃ evs2 m, (chunk_loop e h d fuel i c).2.trace = evs2 ++ tr0 ∧
      hist_ok (scan_rule e h d t0) evs2 ∧ inspected evs2 = (List.range m).reverse ∧
      m ≤ (i + fuel) * e.HTABLE_CHUNK_SIZE ∧
      (((chunk_loop e h d fuel i c).1 = HTABLE_FULL ∧ (∀ ev, ev ∈ evs2 → ev.goes_on d) ∧
          (chunk_loop e h d fuel i c).2.table = t0) ∨
        finished d t0 evs2 (chunk_loop e h d fuel i c).1 (chunk_loop e h d fuel i c).2.table) := by
  induction fuel generalizing i c evs with
  | zero =>
    exact ⟨evs, _, htr, hok, hins, by rw [Nat.add_zero], Or.inl ⟨rfl, hgo, ht⟩⟩
  | succ fuel ih =>
    have hmul : (i + (fuel + 1)) * e.HTABLE_CHUNK_SIZE =
        i * e.HTABLE_CHUNK_SIZE + e.HTABLE_CHUNK_SIZE + fuel * e.HTABLE_CHUNK_SIZE := by ring
    have hmul2 : (i + 1 + fuel) * e.HTABLE_CHUNK_SIZE =
        i * e.HTABLE_CHUNK_SIZE + e.HTABLE_CHUNK_SIZE + fuel * e.HTABLE_CHUNK_SIZE := by ring
    have hmul3 : (i + 1) * e.HTABLE_CHUNK_SIZE = i * e.HTABLE_CHUNK_SIZE + 0 + e.HTABLE_CHUNK_SIZE := by
      ring
    rw [chunk_loop_succ]
    obtain ⟨tevs, hte, hid⟩ := prefetch_trace e c h i (u64 (i + 1))
      (u64 (i + 1) < e.HTABLE_MAX_NR_OF_CHUNKS)
    have hct : (sync_on_chunk (if u64 (i + 1) < e.HTABLE_MAX_NR_OF_CHUNKS
        then query_chunk e c h (u64 (i + 1)) else c) i).table = t0 := by
      rw [← ht]; split_ifs <;> simp
    generalize sync_on_chunk (if u64 (i + 1) < e.HTABLE_MAX_NR_OF_CHUNKS
        then query_chunk e c h (u64 (i + 1)) else c) i = c1 at hte hct
    obtain ⟨hok1, hgo1, hins1⟩ := hist_idle e h d t0 tevs evs hid hok hgo
    obtain ⟨evs2, m, he, hk, hi2, hm, hres⟩ := scan_chunk_hist e h d i e.HTABLE_CHUNK_SIZE 0 c1 t0
      tr0 (tevs ++ evs) (by omega) (by rw [hte, htr, List.append_assoc]) hct
      (by rw [hins1, hins]; rfl) hok1 hgo1
    cases hsc : scan_chunk e h d i e.HTABLE_CHUNK_SIZE 0 c1 with
    | mk r c2 =>
      rw [hsc] at he hres
      cases r with
      | some r =>
        refine ⟨evs2, m, he, hk, hi2, by omega, ?_⟩
        rcases hres with ⟨r1, _⟩ | ⟨res, r1, r2⟩
        · simp at r1
        · simp only [Option.some.injEq] at r1
          subst r1
          exact Or.inr r2
      | none =>
        rcases hres with ⟨_, r2, r3, r4⟩ | ⟨res, r1, _⟩
        · simp only at he r4 ⊢
          obtain ⟨evs3, m3, he3, hk3, hi3, hm3, hres3⟩ := ih (i + 1) c2 evs2 (by omega) he r4
            (by rw [hi2, r2, hmul3]) hk r3
          exact ⟨evs3, m3, he3, hk3, hi3, by omega, hres3⟩
        · simp at r1

theorem find_or_put_hist (e : Env) (hb : budget e ≤ 18446744073709551616) (ctx : htable_ctx)
    (v : Nat) :
    ∃ evs m, (htable_find_or_put e ctx v).2.trace = evs ++ ctx.trace ∧
      hist_ok (scan_rule e (u64 (e.hash (v &&& HTABLE_MASK_DATA))) (v &&& HTABLE_MASK_DATA)
        ctx.table) evs ∧
      inspected evs = (List.range m).reverse ∧ m ≤ budget e ∧
      (((htable_find_or_put e ctx v).1 = HTABLE_FULL ∧
          (∀ ev, ev ∈ evs → ev.goes_on (v &&& HTABLE_MASK_DATA)) ∧
          (htable_find_or_put e ctx v).2.table = ctx.table) ∨
        finished (v &&& HTABLE_MASK_DATA) ctx.table evs (htable_find_or_put e ctx v).1
          (htable_find_or_put e ctx v).2.table) := by
  unfold htable_find_or_put
  simp only []
  obtain ⟨t1, h1, hp1⟩ := query_chunk_trace e ctx (u64 (e.hash (v &&& HTABLE_MASK_DATA))) 0
  have hid : ∀ ev, ev ∈ t1 ++ [Event.query 0] → ev.transport ∨ ev.isQuery = true := by
    intro ev hmem
    simp only [List.mem_append, List.mem_singleton] at hmem
    rcases hmem with hm | hm
    · exact Or.inl (hp1 _ hm)
    · rw [hm]; exact Or.inr rfl
  obtain ⟨hok1, hgo1, hins1⟩ := hist_idle e (u64 (e.hash (v &&& HTABLE_MASK_DATA)))
    (v &&& HTABLE_MASK_DATA) ctx.table (t1 ++ [Event.query 0]) [] hid trivial
    (fun ev hev => absurd hev (List.not_mem_nil ev))
  rw [List.append_nil] at hok1 hgo1 hins1
  unfold budget at hb ⊢
  exact chunk_loop_hist e _ _ e.HTABLE_MAX_NR_OF_CHUNKS 0 _ ctx.table ctx.trace (t1 ++ [Event.query 0])
    (by rw [Nat.zero_add]; exact hb) (by rw [h1]; simp) (query_chunk_table e ctx _ 0)
    (by rw [hins1, Nat.zero_mul]; rfl) hok1 hgo1 |>.imp fun evs2 hx => hx.imp fun m hm => by
      rw [Nat.zero_add] at hm; exact hm

theorem hist_ok_split (rule : Event → List Event → Prop) (l1 : List Event) (ev : Event)
    (l2 : List Event) (hok : hist_ok rule (l1 ++ ev :: l2)) : rule ev l2 := by
  induction l1 with
  | nil => exact hok.1
  | cons ev1 l1 ih => exact ih hok.2

theorem mem_inspected (evs : List Event) (k : Nat) : k ∈ inspected evs ↔ Event.inspect k ∈ evs := by
  unfold inspected
  rw [List.mem_filterMap]
  constructor
  · rintro ⟨ev, hev, hs⟩
    cases ev <;> simp only [Event.slot, Option.some.injEq] at hs <;> try cases hs
    exact hev
  · intro hmem
    exact ⟨_, hmem, rfl⟩

theorem inspected_once (l1 : List Event) (ev : Event) (k m : Nat) (l3 : List Event)
    (hins : inspected (l1 ++ ev :: Event.inspect k :: l3) = (List.range m).reverse) :
    Event.inspect k ∉ l1 ∧ Event.inspect k ∉ l3 := by
  have hnd : (inspected (l1 ++ ev :: Event.inspect k :: l3)).Nodup := by
    rw [hins]; exact List.nodup_reverse.mpr (List.nodup_range m)
  have hsplit : inspected (l1 ++ ev :: Event.inspect k :: l3) =
      inspected (l1 ++ [ev]) ++ k :: inspected l3 := by
    unfold inspected
    rw [show l1 ++ ev :: Event.inspect k :: l3 = (l1 ++ [ev]) ++ Event.inspect k :: l3 by simp,
      List.filterMap_append, List.filterMap_cons]
    rfl
  rw [hsplit] at hnd
  have h1 := List.nodup_append.mp hnd
  have h2 := List.nodup_cons.mp h1.2.1
  constructor
  · intro hmem
    have : k ∈ inspected (l1 ++ [ev]) :=
      (mem_inspected _ k).mpr (List.mem_append_left _ hmem)
    exact h1.2.2 this (List.mem_cons_self _ _)
  · intro hmem
    exact h2.1 ((mem_inspected _ k).mpr hmem)

/-! ## Depth-1 lookahead -/

theorem transport_not_query (ev : Event) (h : ev.transport) : ev.isQuery = false := by
  cases ev <;> first | rfl | cases h

theorem transport_slot (ev : Event) (h : ev.transport) : ev.slot = none := by
  cases ev <;> first | rfl | cases h

theorem mem_query_append (tevs evs : List Event) (hq : ∀ ev, ev ∈ tevs → ev.isQuery = false)
    (n : Nat) : Event.query n ∈ tevs ++ evs ↔ Event.query n ∈ evs := by
  constructor
  · intro hmem
    rcases List.mem_append.mp hmem with h | h
    · have := hq _ h
      cases this
    · exact h
  · exact fun h => List.mem_append_right _ h

theorem inspected_append (tevs evs : List Event) (hs : ∀ ev, ev ∈ tevs → ev.slot = none) :
    inspected (tevs ++ evs) = inspected evs := by
  induction tevs with
  | nil => rfl
  | cons ev tevs ih =>
    unfold inspected at ih ⊢
    rw [List.cons_append, List.filterMap_cons, hs ev (List.mem_cons_self _ _)]
    exact ih (fun ev2 h2 => hs ev2 (List.mem_cons_of_mem _ h2))

theorem lookahead_mono (e : Env) (i : Nat) (tevs evs : List Event)
    (hq : ∀ ev, ev ∈ tevs → ev.isQuery = false) (hl : lookahead e i evs) :
    lookahead e i (tevs ++ evs) := by
  refine ⟨fun hi => ?_, fun n hn => hl.2 n ((mem_query_append tevs evs hq n).mp hn)⟩
  obtain ⟨h1, id, src, size, h2⟩ := hl.1 hi
  exact ⟨List.mem_append_right _ h1, id, src, size, List.mem_append_right _ h2⟩

theorem sync_slot_step (e : Env) (f0 : Nat) (c : htable_ctx) (s : Nat) (evs tr0 : List Event)
    (htr : c.trace = evs ++ tr0) (hist : hist_ok (lookahead_rule e f0) evs)
    (hl : ∀ id, c.handle s = some id → f0 ≤ id → lookahead e (s / 2) evs) :
    ∃ tevs, (sync_slot c s).trace = (tevs ++ evs) ++ tr0 ∧
      hist_ok (lookahead_rule e f0) (tevs ++ evs) ∧ ∀ ev, ev ∈ tevs → ev.transport := by
  unfold sync_slot
  cases hs : c.handle s with
  | none => exact ⟨[], htr, hist, fun ev hev => absurd hev (List.not_mem_nil ev)⟩
  | some id =>
    refine ⟨[Event.store s (some id) none, Event.sync id], ?_, ?_, ?_⟩
    · simp only [store_handle, upc_sync, hs, htr]
      rfl
    · refine ⟨?_, trivial, hist⟩
      intro hid
      refine ⟨rfl, ⟨_, rfl⟩, ?_⟩
      exact lookahead_mono e _ [Event.sync id] evs
        (fun ev hev => by rw [List.mem_singleton.mp hev]; rfl) (hl id hs hid)
    · intro ev hev
      simp only [List.mem_cons, List.mem_singleton, List.not_mem_nil, or_false] at hev
      rcases hev with h | h <;> rw [h] <;> trivial

theorem sync_on_chunk_handle_eq (c : htable_ctx) (n s : Nat) :
    (sync_on_chunk c n).handle s = if s = 2 * n ∨ s = 2 * n + 1 then none else c.handle s := by
  unfold sync_on_chunk
  rw [sync_slot_handle, sync_slot_handle]
  by_cases h1 : s = 2 * n + 1
  · simp [h1]
  · by_cases h2 : s = 2 * n
    · simp [h2]
    · simp [h1, h2]

theorem sync_on_chunk_step (e : Env) (f0 : Nat) (c : htable_ctx) (n : Nat) (evs tr0 : List Event)
    (htr : c.trace = evs ++ tr0) (hist : hist_ok (lookahead_rule e f0) evs)
    (hl : ∀ id, c.handle (2 * n) = some id ∨ c.handle (2 * n + 1) = some id → f0 ≤ id →
      lookahead e n evs) :
    ∃ tevs, (sync_on_chunk c n).trace = (tevs ++ evs) ++ tr0 ∧
      hist_ok (lookahead_rule e f0) (tevs ++ evs) ∧ ∀ ev, ev ∈ tevs → ev.transport := by
  unfold sync_on_chunk
  have hd0 : (2 * n + 0) / 2 = n := by omega
  have hd1 : (2 * n + 1) / 2 = n := by omega
  obtain ⟨t1, h1, hk1, hp1⟩ := sync_slot_step e f0 c (2 * n + 0) evs tr0 htr hist
    (fun id hid hf => by rw [hd0]; exact hl id (Or.inl hid) hf)
  obtain ⟨t2, h2, hk2, hp2⟩ := sync_slot_step e f0 (sync_slot c (2 * n + 0)) (2 * n + 1)
    (t1 ++ evs) tr0 h1 hk1 (fun id hid hf => by
      rw [hd1]
      rw [sync_slot_handle, if_neg (by omega)] at hid
      exact lookahead_mono e n t1 evs (fun ev hev => transport_not_query ev (hp1 ev hev))
        (hl id (Or.inr hid) hf))
  refine ⟨t2 ++ t1, by rw [h2]; simp only [List.append_assoc],
    by rw [List.append_assoc]; exact hk2, ?_⟩
  intro ev hev
  rcases List.mem_append.mp hev with h | h
  · exact hp2 ev h
  · exact hp1 ev h

theorem query_chunk_step (e : Env) (f0 : Nat) (c : htable_ctx) (h n : Nat) (evs tr0 : List Event)
    (htr : c.trace = evs ++ tr0) (hist : hist_ok (lookahead_rule e f0) evs)
    (hold : ∀ id, c.handle (2 * n) = some id ∨ c.handle (2 * n + 1) = some id → id < f0)
    (hf : f0 ≤ c.fresh) :
    ∃ tevs, (query_chunk e c h n).trace = (tevs ++ Event.query n :: evs) ++ tr0 ∧
      hist_ok (lookahead_rule e f0) (tevs ++ Event.query n :: evs) ∧
      (∀ ev, ev ∈ tevs → ev.transport) ∧
      (∃ id src size, Event.memget id (u64 (n * e.HTABLE_CHUNK_SIZE)) src size ∈ tevs) ∧
      (∀ s, s ≠ 2 * n → s ≠ 2 * n + 1 → (query_chunk e c h n).handle s = c.handle s) ∧
      (∃ id, f0 ≤ id ∧ (query_chunk e c h n).handle (2 * n) = some id) ∧
      (∀ id, (query_chunk e c h n).handle (2 * n + 1) = some id → f0 ≤ id) ∧
      f0 ≤ (query_chunk e c h n).fresh := by
  obtain ⟨t1, h1, hk1, hp1⟩ := sync_on_chunk_step e f0
    { c with trace := Event.query n :: c.trace } n (Event.query n :: evs) tr0
    (by simp only [htr]; rfl) ⟨trivial, hist⟩
    (fun id hid hfid => absurd (hold id hid) (by omega))
  have hh := sync_on_chunk_handle_eq { c with trace := Event.query n :: c.trace } n
  have hfr := sync_on_chunk_fresh { c with trace := Event.query n :: c.trace } n
  unfold query_chunk
  simp only []
  generalize sync_on_chunk { c with trace := Event.query n :: c.trace } n = c1 at h1 hh hfr ⊢
  have hh0 : c1.handle (2 * n) = none := by rw [hh]; simp
  have hh1 : c1.handle (2 * n + 1) = none := by rw [hh]; simp
  have hfr1 : f0 ≤ c1.fresh := by rw [hfr]; exact hf
  split
  · simp only [store_handle, upc_memget_nb, h1, hh0, Function.update_same]
    rw [Function.update_noteq (by omega : 2 * n + 1 ≠ 2 * n), hh1]
    refine ⟨_ :: _ :: _ :: _ :: t1, rfl, ⟨trivial, ?_, trivial, ?_, hk1⟩, ?_, ?_, ?_, ?_, ?_, ?_⟩
    · show f0 ≤ c1.fresh + 1
      omega
    · exact hfr1
    · intro ev hev
      simp only [List.mem_cons] at hev
      rcases hev with h | h | h | h | h
      · rw [h]; trivial
      · rw [h]; trivial
      · rw [h]; trivial
      · rw [h]; trivial
      · exact hp1 ev h
    · exact ⟨_, _, _, List.mem_cons_of_mem _ (List.mem_cons_of_mem _ (List.mem_cons_of_mem _
        (List.mem_cons_self _ _)))⟩
    · intro s hs0 hs1
      rw [Function.update_noteq hs1, Function.update_noteq hs0, hh, if_neg (by omega)]
    · exact ⟨c1.fresh, hfr1, by
        rw [Function.update_noteq (by omega : 2 * n ≠ 2 * n + 1), Function.update_same]⟩
    · intro id hid
      injection hid with hid
      omega
    · show f0 ≤ c1.fresh + 1 + 1
      omega
  · simp only [store_handle, upc_memget_nb, h1, hh0, Function.update_same]
    rw [Function.update_noteq (by omega : 2 * n + 1 ≠ 2 * n), hh1]
    refine ⟨_ :: _ :: _ :: t1, rfl, ⟨trivial, trivial, hfr1, hk1⟩, ?_, ?_, ?_, ?_, ?_, ?_⟩
    · intro ev hev
      simp only [List.mem_cons] at hev
      rcases hev with h | h | h | h
      · rw [h]; trivial
      · rw [h]; trivial
      · rw [h]; trivial
      · exact hp1 ev h
    · exact ⟨_, _, _, List.mem_cons_of_mem _ (List.mem_cons_of_mem _ (List.mem_cons_self _ _))⟩
    · intro s hs0 hs1
      rw [Function.update_noteq hs1, Function.update_noteq hs0, hh, if_neg (by omega)]
    · exact ⟨c1.fresh, hfr1, by
        rw [Function.update_noteq (by omega : 2 * n ≠ 2 * n + 1), Function.update_same]⟩
    · intro id hid
      cases hid
    · show f0 ≤ c1.fresh + 1
      omega

theorem scan_events_ok (e : Env) (f0 i idx : Nat) (evs pre : List Event)
    (hpre : pre = [Event.inspect idx] ∨ ∃ a x y o, pre = [Event.cas a x y o, Event.inspect idx])
    (hdiv : idx / e.HTABLE_CHUNK_SIZE = i)
    (hist : hist_ok (lookahead_rule e f0) evs) (hl : lookahead e i evs) :
    hist_ok (lookahead_rule e f0) (pre ++ evs) ∧ lookahead e i (pre ++ evs) ∧
    (∀ ev, ev ∈ pre → ev.isQuery = false) ∧ (inspected (pre ++ evs)).head? = some idx := by
  have hr : lookahead_rule e f0 (Event.inspect idx) evs := by
    show lookahead e (idx / e.HTABLE_CHUNK_SIZE) evs
    rw [hdiv]; exact hl
  rcases hpre with hp | ⟨a, x, y, o, hp⟩
  · subst hp
    have hq : ∀ ev, ev ∈ [Event.inspect idx] → ev.isQuery = false := by
      intro ev hev; rw [List.mem_singleton.mp hev]; rfl
    exact ⟨⟨hr, hist⟩, lookahead_mono e i _ evs hq hl, hq, rfl⟩
  · subst hp
    have hq : ∀ ev, ev ∈ [Event.cas a x y o, Event.inspect idx] → ev.isQuery = false := by
      intro ev hev
      simp only [List.mem_cons, List.mem_singleton, List.not_mem_nil, or_false] at hev
      rcases hev with h | h <;> rw [h] <;> rfl
    exact ⟨⟨trivial, hr, hist⟩, lookahead_mono e i _ evs hq hl, hq, rfl⟩

theorem scan_slot_shape (e : Env) (h d i j : Nat) (c : htable_ctx) :
    ∃ pre, (pre = [Event.inspect (u64 (u64 (i * e.HTABLE_CHUNK_SIZE) + j))] ∨
        ∃ a x y o, pre = [Event.cas a x y o, Event.inspect (u64 (u64 (i * e.HTABLE_CHUNK_SIZE) + j))]) ∧
      (scan_chunk e h d i 1 j c).2.trace = pre ++ c.trace := by
  unfold scan_chunk
  simp only [CAS, scan_chunk]
  split_ifs
  all_goals first
    | exact ⟨[Event.inspect (u64 (u64 (i * e.HTABLE_CHUNK_SIZE) + j))], Or.inl rfl, rfl⟩
    | exact ⟨[Event.cas _ _ _ _, Event.inspect _], Or.inr ⟨_, _, _, _, rfl⟩, rfl⟩

theorem scan_chunk_step (e : Env) (f0 h d i fuel j : Nat) (c : htable_ctx) (evs tr0 : List Event)
    (hj : j + fuel ≤ e.HTABLE_CHUNK_SIZE)
    (hw : i * e.HTABLE_CHUNK_SIZE + e.HTABLE_CHUNK_SIZE ≤ 18446744073709551616)
    (htr : c.trace = evs ++ tr0) (hist : hist_ok (lookahead_rule e f0) evs)
    (hl : lookahead e i evs) :
    ∃ sevs, (scan_chunk e h d i fuel j c).2.trace = (sevs ++ evs) ++ tr0 ∧
      hist_ok (lookahead_rule e f0) (sevs ++ evs) ∧ (∀ ev, ev ∈ sevs → ev.isQuery = false) ∧
      ((fuel = 0 ∧ sevs = []) ∨
        ∃ k, (inspected (sevs ++ evs)).head? = some k ∧ k / e.HTABLE_CHUNK_SIZE = i) := by
  induction fuel generalizing j c evs with
  | zero =>
    exact ⟨[], htr, hist, fun ev hev => absurd hev (List.not_mem_nil ev), Or.inl ⟨rfl, rfl⟩⟩
  | succ fuel ih =>
    have hidx : u64 (u64 (i * e.HTABLE_CHUNK_SIZE) + j) = i * e.HTABLE_CHUNK_SIZE + j := by
      unfold u64; omega
    have hdiv : (i * e.HTABLE_CHUNK_SIZE + j) / e.HTABLE_CHUNK_SIZE = i := by
      rw [Nat.mul_comm, Nat.mul_add_div (by omega), Nat.div_eq_of_lt (by omega), Nat.add_zero]
    -- what remains to be shown once the events `pre` of this slot are known
    have hret : ∀ pre : List Event, (pre = [Event.inspect (i * e.HTABLE_CHUNK_SIZE + j)] ∨
        ∃ a x y o, pre = [Event.cas a x y o, Event.inspect (i * e.HTABLE_CHUNK_SIZE + j)]) →
        hist_ok (lookahead_rule e f0) (pre ++ evs) ∧ (∀ ev, ev ∈ pre → ev.isQuery = false) ∧
        ((fuel + 1 = 0 ∧ pre = []) ∨
          ∃ k, (inspected (pre ++ evs)).head? = some k ∧ k / e.HTABLE_CHUNK_SIZE = i) := by
      intro pre hpre
      obtain ⟨h1, _, h3, h4⟩ := scan_events_ok e f0 i _ evs pre hpre hdiv hist hl
      exact ⟨h1, h3, Or.inr ⟨_, h4, hdiv⟩⟩
    have hrec : ∀ (pre : List Event) (c2 : htable_ctx),
        (pre = [Event.inspect (i * e.HTABLE_CHUNK_SIZE + j)] ∨
          ∃ a x y o, pre = [Event.cas a x y o, Event.inspect (i * e.HTABLE_CHUNK_SIZE + j)]) →
        c2.trace = (pre ++ evs) ++ tr0 →
        ∃ sevs, (scan_chunk e h d i fuel (j + 1) c2).2.trace = (sevs ++ evs) ++ tr0 ∧
          hist_ok (lookahead_rule e f0) (sevs ++ evs) ∧ (∀ ev, ev ∈ sevs → ev.isQuery = false) ∧
          ((fuel + 1 = 0 ∧ sevs = []) ∨
            ∃ k, (inspected (sevs ++ evs)).head? = some k ∧ k / e.HTABLE_CHUNK_SIZE = i) := by
      intro pre c2 hpre htr2
      obtain ⟨h1, h2, h3, h4⟩ := scan_events_ok e f0 i _ evs pre hpre hdiv hist hl
      obtain ⟨sevs, he, hk, hq, hhead⟩ := ih (j + 1) c2 (pre ++ evs) (by omega) htr2 h1 h2
      refine ⟨sevs ++ pre, by rw [he]; simp only [List.append_assoc],
        by rw [List.append_assoc]; exact hk, ?_, Or.inr ?_⟩
      · intro ev hev
        rcases List.mem_append.mp hev with hm | hm
        · exact hq ev hm
        · exact h3 ev hm
      · rcases hhead with ⟨_, hnil⟩ | hk2
        · subst hnil
          exact ⟨_, h4, hdiv⟩
        · rw [List.append_assoc]; exact hk2
    obtain ⟨pre, hpre, hptr⟩ := scan_slot_shape e h d i j c
    rw [hidx] at hpre
    rw [scan_chunk_succ_one]
    cases hsc : scan_chunk e h d i 1 j c with
    | mk r c2 =>
      rw [hsc] at hptr
      cases r with
      | some r =>
        exact ⟨pre, by simp only []; rw [hptr, htr, List.append_assoc], hret pre hpre⟩
      | none =>
        exact hrec pre c2 hpre (by rw [hptr, htr, List.append_assoc])

theorem prefetch_step (e : Env) (hS : 1 ≤ e.HTABLE_CHUNK_SIZE)
    (hb : budget e < 18446744073709551616) (f0 : Nat) (hd0 : Nat → Option Nat)
    (hold : ∀ s id, hd0 s = some id → id < f0) (h d i : Nat) (c : htable_ctx)
    (evs tr0 : List Event) (hi : i < e.HTABLE_MAX_NR_OF_CHUNKS) (htr : c.trace = evs ++ tr0)
    (hinv : prefetch_inv e f0 hd0 i c evs) :
    ∃ evs2, (scan_chunk e h d i e.HTABLE_CHUNK_SIZE 0
        (sync_on_chunk (if u64 (i + 1) < e.HTABLE_MAX_NR_OF_CHUNKS
          then query_chunk e c h (u64 (i + 1)) else c) i)).2.trace = evs2 ++ tr0 ∧
      prefetch_inv e f0 hd0 (i + 1) (scan_chunk e h d i e.HTABLE_CHUNK_SIZE 0
        (sync_on_chunk (if u64 (i + 1) < e.HTABLE_MAX_NR_OF_CHUNKS
          then query_chunk e c h (u64 (i + 1)) else c) i)).2 evs2 ∧
      ∃ k, (inspected evs2).head? = some k ∧ k / e.HTABLE_CHUNK_SIZE = i := by
  have hCb : e.HTABLE_MAX_NR_OF_CHUNKS ≤ budget e := Nat.le_mul_of_pos_right _ (by omega)
  have hu : u64 (i + 1) = i + 1 := by unfold u64; omega
  have hw : i * e.HTABLE_CHUNK_SIZE + e.HTABLE_CHUNK_SIZE ≤ 18446744073709551616 := by
    have h1 : (i + 1) * e.HTABLE_CHUNK_SIZE ≤ budget e := Nat.mul_le_mul_right _ (by omega)
    rw [Nat.add_mul, Nat.one_mul] at h1
    omega
  rw [hu]
  -- the prefetch of chunk `i + 1`
  have ha : ∃ evs1, (if i + 1 < e.HTABLE_MAX_NR_OF_CHUNKS
        then query_chunk e c h (i + 1) else c).trace = evs1 ++ tr0 ∧
      hist_ok (lookahead_rule e f0) evs1 ∧ lookahead e i evs1 ∧ inspected evs1 = inspected evs ∧
      (∀ s, s < 2 * (i + 1) → (if i + 1 < e.HTABLE_MAX_NR_OF_CHUNKS
        then query_chunk e c h (i + 1) else c).handle s = c.handle s) ∧
      (∀ s, 2 * (i + 2) ≤ s → (if i + 1 < e.HTABLE_MAX_NR_OF_CHUNKS
        then query_chunk e c h (i + 1) else c).handle s = hd0 s) ∧
      (∀ s id, (if i + 1 < e.HTABLE_MAX_NR_OF_CHUNKS
        then query_chunk e c h (i + 1) else c).handle s = some id → f0 ≤ id →
          s / 2 = i ∨ s / 2 = i + 1) ∧
      (i + 1 < e.HTABLE_MAX_NR_OF_CHUNKS → ∃ id, f0 ≤ id ∧ (if i + 1 < e.HTABLE_MAX_NR_OF_CHUNKS
        then query_chunk e c h (i + 1) else c).handle (2 * (i + 1)) = some id) ∧
      f0 ≤ (if i + 1 < e.HTABLE_MAX_NR_OF_CHUNKS
        then query_chunk e c h (i + 1) else c).fresh := by
    by_cases hlt : i + 1 < e.HTABLE_MAX_NR_OF_CHUNKS
    · simp only [if_pos hlt]
      obtain ⟨tevs, h1, h2, h3, ⟨id, src, size, h4⟩, h5, h6, h7, h8⟩ :=
        query_chunk_step e f0 c h (i + 1) evs tr0 htr hinv.hist
          (fun id hid => by
            rcases hid with hid | hid
            · rw [hinv.later _ (by omega)] at hid; exact hold _ _ hid
            · rw [hinv.later _ (by omega)] at hid; exact hold _ _ hid)
          hinv.fresh
      have hq : ∀ ev, ev ∈ tevs → ev.isQuery = false := fun ev hev =>
        transport_not_query ev (h3 ev hev)
      refine ⟨tevs ++ Event.query (i + 1) :: evs, h1, h2, ⟨fun _ => ⟨?_, id, src, size, ?_⟩, ?_⟩,
        ?_, ?_, ?_, ?_, fun _ => h6, h8⟩
      · exact List.mem_append_right _ (List.mem_cons_self _ _)
      · exact List.mem_append_left _ h4
      · intro n hn
        rcases List.mem_cons.mp ((mem_query_append tevs _ hq n).mp hn) with hm | hm
        · injection hm with hm; omega
        · have := hinv.queried n hm; omega
      · rw [inspected_append tevs _ (fun ev hev => transport_slot ev (h3 ev hev))]
        rfl
      · intro s hs
        exact h5 s (by omega) (by omega)
      · intro s hs
        rw [h5 s (by omega) (by omega)]
        exact hinv.later s (by omega)
      · intro s id hsid hid
        by_cases hs0 : s = 2 * (i + 1)
        · right; omega
        · by_cases hs1 : s = 2 * (i + 1) + 1
          · right; omega
          · rw [h5 s hs0 hs1] at hsid
            exact Or.inl (hinv.own s id hsid hid)
    · simp only [if_neg hlt]
      refine ⟨evs, htr, hinv.hist, ⟨fun hc => absurd hc hlt, fun n hn => ?_⟩, rfl,
        fun _ _ => trivial, fun s hs => hinv.later s (by omega),
        fun s id hsid hid => Or.inl (hinv.own s id hsid hid), fun hc => absurd hc hlt, hinv.fresh⟩
      have := hinv.queried n hn
      omega
  generalize (if i + 1 < e.HTABLE_MAX_NR_OF_CHUNKS then query_chunk e c h (i + 1) else c) = c1 at ha
  obtain ⟨evs1, htr1, hist1, hl1, hins1, hlow1, hlater1, hown1, hheld1, hfr1⟩ := ha
  -- the wait on chunk `i`
  obtain ⟨t2, htr2, hist2, hp2⟩ := sync_on_chunk_step e f0 c1 i evs1 tr0 htr1 hist1
    (fun _ _ _ => hl1)
  have hq2 : ∀ ev, ev ∈ t2 → ev.isQuery = false := fun ev hev =>
    transport_not_query ev (hp2 ev hev)
  have hl2 : lookahead e i (t2 ++ evs1) := lookahead_mono e i t2 evs1 hq2 hl1
  have hh2 := sync_on_chunk_handle_eq c1 i
  have hfr2 := sync_on_chunk_fresh c1 i
  generalize sync_on_chunk c1 i = c2 at htr2 hh2 hfr2
  -- the scan of chunk `i`
  obtain ⟨t3, htr3, hist3, hq3, hhead⟩ := scan_chunk_step e f0 h d i e.HTABLE_CHUNK_SIZE 0 c2
    (t2 ++ evs1) tr0 (by omega) hw htr2 hist2 hl2
  obtain ⟨_, hh3, hfr3⟩ := scan_chunk_frame e h d i e.HTABLE_CHUNK_SIZE 0 c2
  have hmem : ∀ ev, ev ∈ evs1 → ev ∈ t3 ++ (t2 ++ evs1) := fun ev hev =>
    List.mem_append_right _ (List.mem_append_right _ hev)
  refine ⟨t3 ++ (t2 ++ evs1), htr3, ⟨hist3, ?_, ?_, ?_, ?_, ?_, ?_, ?_⟩, ?_⟩
  · intro n hn
    exact hl1.2 n ((mem_query_append t2 _ hq2 n).mp ((mem_query_append t3 _ hq3 n).mp hn))
  · intro hlt
    obtain ⟨h1, id, src, size, h2⟩ := hl1.1 hlt
    exact ⟨hmem _ h1, id, src, size, hmem _ h2⟩
  · intro s hs
    rw [hh3, hh2]
    split_ifs with h1
    · rfl
    · rw [hlow1 s hs]
      exact hinv.idle s (by omega)
  · intro s hs
    rw [hh3, hh2, if_neg (by omega)]
    exact hlater1 s hs
  · intro s id hsid hid
    rw [hh3, hh2] at hsid
    split_ifs at hsid with h1
    rcases hown1 s id hsid hid with h2 | h2
    · omega
    · exact h2
  · intro hlt
    obtain ⟨id, hid, hsid⟩ := hheld1 hlt
    exact ⟨id, hid, by rw [hh3, hh2, if_neg (by omega)]; exact hsid⟩
  · rw [hfr3, hfr2]; exact hfr1
  · rcases hhead with ⟨h0, _⟩ | hk
    · omega
    · exact hk

theorem chunk_loop_lookahead (e : Env) (hS : 1 ≤ e.HTABLE_CHUNK_SIZE)
    (hC : 1 ≤ e.HTABLE_MAX_NR_OF_CHUNKS) (hb : budget e < 18446744073709551616) (f0 : Nat)
    (hd0 : Nat → Option Nat) (hold : ∀ s id, hd0 s = some id → id < f0) (h d fuel i : Nat)
    (c : htable_ctx) (evs tr0 : List Event) (hfi : i + fuel = e.HTABLE_MAX_NR_OF_CHUNKS)
    (htr : c.trace = evs ++ tr0) (hinv : prefetch_inv e f0 hd0 i c evs)
    (hlast : i = 0 ∨ ∃ k, (inspected evs).head? = some k ∧ k / e.HTABLE_CHUNK_SIZE + 1 = i) :
    ∃ evs2 i2, (chunk_loop e h d fuel i c).2.trace = evs2 ++ tr0 ∧
      i2 < e.HTABLE_MAX_NR_OF_CHUNKS ∧
      prefetch_inv e f0 hd0 (i2 + 1) (chunk_loop e h d fuel i c).2 evs2 ∧
      ∃ k, (inspected evs2).head? = some k ∧ k / e.HTABLE_CHUNK_SIZE = i2 := by
  induction fuel generalizing i c evs with
  | zero =>
    rcases hlast with h0 | ⟨k, hk1, hk2⟩
    · omega
    · refine ⟨evs, i - 1, htr, by omega, ?_, k, hk1, by omega⟩
      have : i - 1 + 1 = i := by omega
      rw [this]
      exact hinv
  | succ fuel ih =>
    rw [chunk_loop_succ]
    obtain ⟨evs2, htr2, hinv2, k, hk1, hk2⟩ :=
      prefetch_step e hS hb f0 hd0 hold h d i c evs tr0 (by omega) htr hinv
    cases hsc : scan_chunk e h d i e.HTABLE_CHUNK_SIZE 0
        (sync_on_chunk (if u64 (i + 1) < e.HTABLE_MAX_NR_OF_CHUNKS
          then query_chunk e c h (u64 (i + 1)) else c) i) with
    | mk r c2 =>
      rw [hsc] at htr2 hinv2
      cases r with
      | some r => exact ⟨evs2, i, htr2, by omega, hinv2, k, hk1, hk2⟩
      | none =>
        exact ih (i + 1) c2 evs2 (by omega) htr2 hinv2 (Or.inr ⟨k, hk1, by omega⟩)

theorem find_or_put_lookahead (e : Env) (hS : 1 ≤ e.HTABLE_CHUNK_SIZE)
    (hC : 1 ≤ e.HTABLE_MAX_NR_OF_CHUNKS) (hb : budget e < 18446744073709551616)
    (ctx : htable_ctx) (v : Nat) (hold : ∀ s id, ctx.handle s = some id → id < ctx.fresh) :
    ∃ evs i, (htable_find_or_put e ctx v).2.trace = evs ++ ctx.trace ∧
      i < e.HTABLE_MAX_NR_OF_CHUNKS ∧
      prefetch_inv e ctx.fresh ctx.handle (i + 1) (htable_find_or_put e ctx v).2 evs ∧
      ∃ k, (inspected evs).head? = some k ∧ k / e.HTABLE_CHUNK_SIZE = i := by
  unfold htable_find_or_put
  simp only []
  obtain ⟨tevs, h1, h2, h3, ⟨id, src, size, h4⟩, h5, h6, h7, h8⟩ :=
    query_chunk_step e ctx.fresh ctx (u64 (e.hash (v &&& HTABLE_MASK_DATA))) 0 [] ctx.trace rfl
      trivial (fun id hid => by
        rcases hid with hid | hid
        · exact hold _ _ hid
        · exact hold _ _ hid) (le_refl _)
  have hq : ∀ ev, ev ∈ tevs → ev.isQuery = false := fun ev hev =>
    transport_not_query ev (h3 ev hev)
  apply chunk_loop_lookahead e hS hC hb ctx.fresh ctx.handle hold _ _ _ 0 _
    (tevs ++ [Event.query 0]) ctx.trace (by omega) h1 _ (Or.inl rfl)
  refine ⟨h2, ?_, fun _ => ⟨?_, id, src, size, ?_⟩, ?_, ?_, ?_, fun _ => h6, h8⟩
  · intro n hn
    rcases List.mem_cons.mp ((mem_query_append tevs _ hq n).mp hn) with hm | hm
    · injection hm with hm; omega
    · exact absurd hm (List.not_mem_nil _)
  · exact List.mem_append_right _ (List.mem_cons_self _ _)
  · exact List.mem_append_left _ h4
  · intro s hs
    omega
  · intro s hs
    exact h5 s (by omega) (by omega)
  · intro s id hsid hid
    by_cases hs0 : s = 2 * 0
    · omega
    · by_cases hs1 : s = 2 * 0 + 1
      · omega
      · rw [h5 s hs0 hs1] at hsid
        have := hold s id hsid
        omega

/-! ## The probe sequence away from the 64-bit wrap -/

/-- As long as `hash + k` does not pass `2^64`, the `k`-th bucket of the probe
sequence is `k` buckets after the first one, modulo the table size. -/
theorem probe_seq_no_wrap (e : Env) (hwf : e.wf) (v k : Nat)
    (hk : u64 (e.hash (v &&& HTABLE_MASK_DATA)) + k < 18446744073709551616) :
    probe_seq e v k =
      (u64 (e.hash (v &&& HTABLE_MASK_DATA)) % (e.THREADS * e.HTABLE_BLOCK_SIZE) + k) %
        (e.THREADS * e.HTABLE_BLOCK_SIZE) := by
  unfold probe_seq probe HTABLE_ADDR
  rw [u64_BT e hwf, hwf.1, Nat.mul_comm 134217728 e.THREADS]
  have h1 : u64 (u64 (e.hash (v &&& HTABLE_MASK_DATA)) + k) =
      u64 (e.hash (v &&& HTABLE_MASK_DATA)) + k := Nat.mod_eq_of_lt hk
  rw [h1, Nat.mod_add_mod]

/-- When the table size divides `2^64`, as it does for a power-of-two number of
threads, the probe sequence is a run of consecutive indices modulo the table
size for every hash value. -/
theorem probe_seq_dvd (e : Env) (hwf : e.wf)
    (hdvd : e.THREADS * e.HTABLE_BLOCK_SIZE ∣ 18446744073709551616) (v k : Nat) :
    probe_seq e v k =
      (u64 (e.hash (v &&& HTABLE_MASK_DATA)) % (e.THREADS * e.HTABLE_BLOCK_SIZE) + k) %
        (e.THREADS * e.HTABLE_BLOCK_SIZE) := by
  unfold probe_seq probe HTABLE_ADDR
  rw [u64_BT e hwf, hwf.1, Nat.mul_comm 134217728 e.THREADS]
  rw [hwf.1] at hdvd
  unfold u64
  rw [Nat.mod_mod_of_dvd _ hdvd, Nat.mod_mod_of_dvd _ hdvd, Nat.mod_add_mod,
    ← Nat.mod_add_mod (e.hash (v &&& HTABLE_MASK_DATA) % 18446744073709551616),
    Nat.mod_mod_of_dvd _ hdvd, Nat.mod_add_mod]

/-! ## The claims -/

/-- C1: in single-process execution (every fetch returns the current table
contents, `fetch_current`) of the reference build (`wf`), for every table and
every value `v`: a call of `htable_find_or_put(v)` that returns `INSERTED`
changes exactly one bucket of the table, the first bucket along the probe
sequence of `v` whose occupancy bit was clear, which afterwards holds
`(v & 0x7fffffffffffffff) | 0x8000000000000000`; every other bucket is
unchanged. -/
theorem C1_inserted_claims_first_unoccupied (e : Env) (hwf : e.wf) (hsp : e.fetch_current)
    (ctx : htable_ctx) (v : Nat) (hins : (htable_find_or_put e ctx v).1 = HTABLE_INSERTED) :
    ∃ k, k < e.HTABLE_MAX_NR_OF_CHUNKS * e.HTABLE_CHUNK_SIZE ∧
      ctx.table (probe_seq e v k) &&& HTABLE_MASK_OCCUPIED = 0 ∧
      (∀ k2, k2 < k → ctx.table (probe_seq e v k2) &&& HTABLE_MASK_OCCUPIED ≠ 0) ∧
      (htable_find_or_put e ctx v).2.table (probe_seq e v k) =
        (v &&& 0x7fffffffffffffff) ||| 0x8000000000000000 ∧
      (htable_find_or_put e ctx v).2.table (probe_seq e v k) ≠ ctx.table (probe_seq e v k) ∧
      ∀ a, a ≠ probe_seq e v k → (htable_find_or_put e ctx v).2.table a = ctx.table a := by
  obtain ⟨k, hk, hclr, hbef, htab⟩ := find_or_put_inserted e hwf hsp ctx v hins
  have hclr2 : ctx.table (probe_seq e v k) &&& HTABLE_MASK_OCCUPIED = 0 := by
    unfold occupied at hclr; exact not_not.mp hclr
  refine ⟨k, hk, hclr2, fun k2 hk2 => (hbef k2 hk2).1, ?_, ?_, ?_⟩
  · rw [htab, Function.update_same]; rfl
  · rw [htab, Function.update_same]
    intro heq
    rw [← heq] at hclr2
    exact occupied_or _ hclr2
  · intro a ha
    rw [htab, Function.update_noteq ha]

/-- The reference build with one thread, zero-filled memory, value 42: the call returns `INSERTED`. -/
theorem C1_witness :
    (reference_env 1).wf ∧ (reference_env 1).fetch_current ∧
    (htable_find_or_put (reference_env 1) zero_ctx 42).1 = HTABLE_INSERTED ∧
    ∃ k, k < (reference_env 1).HTABLE_MAX_NR_OF_CHUNKS * (reference_env 1).HTABLE_CHUNK_SIZE ∧
      zero_ctx.table (probe_seq (reference_env 1) 42 k) &&& HTABLE_MASK_OCCUPIED = 0 ∧
      (∀ k2, k2 < k →
        zero_ctx.table (probe_seq (reference_env 1) 42 k2) &&& HTABLE_MASK_OCCUPIED ≠ 0) ∧
      (htable_find_or_put (reference_env 1) zero_ctx 42).2.table (probe_seq (reference_env 1) 42 k) =
        (42 &&& 0x7fffffffffffffff) ||| 0x8000000000000000 ∧
      (htable_find_or_put (reference_env 1) zero_ctx 42).2.table (probe_seq (reference_env 1) 42 k) ≠
        zero_ctx.table (probe_seq (reference_env 1) 42 k) ∧
      ∀ a, a ≠ probe_seq (reference_env 1) 42 k →
        (htable_find_or_put (reference_env 1) zero_ctx 42).2.table a = zero_ctx.table a :=
  ⟨by decide, fun _ _ _ => rfl, by decide,
    C1_inserted_claims_first_unoccupied (reference_env 1) (by decide) (fun _ _ _ => rfl)
      zero_ctx 42 (by decide)⟩

/-- C2: in single-process execution (`fetch_current`) of the reference build
(`wf`), for every table and every value `v`: once `htable_find_or_put(v)` has
returned `INSERTED` or `FOUND`, every later `htable_find_or_put(v)` returns
`FOUND` and leaves the table unchanged, whatever calls (the list `vs`, with any
values and any results) happen in between. -/
theorem C2_found_ever_after (e : Env) (hwf : e.wf) (hsp : e.fetch_current)
    (ctx : htable_ctx) (v : Nat)
    (hr : (htable_find_or_put e ctx v).1 = HTABLE_INSERTED ∨
      (htable_find_or_put e ctx v).1 = HTABLE_FOUND)
    (vs : List Nat) :
    (htable_find_or_put e (run e (htable_find_or_put e ctx v).2 vs) v).1 = HTABLE_FOUND ∧
    (htable_find_or_put e (run e (htable_find_or_put e ctx v).2 vs) v).2.table =
      (run e (htable_find_or_put e ctx v).2 vs).table :=
  find_or_put_present e hwf hsp _ v (present_run e _ vs v (present_after e hwf hsp ctx v hr))

/-- The reference build with one thread: 42 is inserted, then 43, 42 and 7 are looked up, and 42 is found again. -/
theorem C2_witness :
    (reference_env 1).wf ∧ (reference_env 1).fetch_current ∧
    ((htable_find_or_put (reference_env 1) zero_ctx 42).1 = HTABLE_INSERTED ∨
      (htable_find_or_put (reference_env 1) zero_ctx 42).1 = HTABLE_FOUND) ∧
    (htable_find_or_put (reference_env 1)
      (run (reference_env 1) (htable_find_or_put (reference_env 1) zero_ctx 42).2 [43, 42, 7]) 42).1
        = HTABLE_FOUND ∧
    (htable_find_or_put (reference_env 1)
      (run (reference_env 1) (htable_find_or_put (reference_env 1) zero_ctx 42).2 [43, 42, 7]) 42).2.table
        = (run (reference_env 1) (htable_find_or_put (reference_env 1) zero_ctx 42).2 [43, 42, 7]).table :=
  ⟨by decide, fun _ _ _ => rfl, Or.inl (by decide),
    C2_found_ever_after (reference_env 1) (by decide) (fun _ _ _ => rfl) zero_ctx 42
      (Or.inl (by decide)) [43, 42, 7]⟩

/-- C3: for every finite sequence `vs` of single-process `htable_find_or_put`
calls (`fetch_current`, reference build `wf`) and every payload `d`, at most
one call of the sequence returns `INSERTED` for `d`.  This holds from every
starting table, the all-zero table among them. -/
theorem C3_at_most_one_inserted (e : Env) (hwf : e.wf) (hsp : e.fetch_current)
    (ctx : htable_ctx) (vs : List Nat) (d : Nat) :
    (calls e ctx vs).countP
      (fun c => decide (c.1 &&& HTABLE_MASK_DATA = d ∧ c.2 = HTABLE_INSERTED)) ≤ 1 :=
  calls_inserted_le_one e hwf hsp ctx vs d

/-- The reference build with one thread, from the all-zero table, the calls 1, 2, 1 and the payload 1. -/
theorem C3_witness :
    (reference_env 1).wf ∧ (reference_env 1).fetch_current ∧ (∀ a, zero_ctx.table a = 0) ∧
    (calls (reference_env 1) zero_ctx [1, 2, 1]).countP
      (fun c => decide (c.1 &&& HTABLE_MASK_DATA = 1 ∧ c.2 = HTABLE_INSERTED)) ≤ 1 :=
  ⟨by decide, fun _ _ _ => rfl, fun _ => rfl,
    C3_at_most_one_inserted (reference_env 1) (by decide) (fun _ _ _ => rfl) zero_ctx [1, 2, 1] 1⟩

/-- C4: for every finite sequence of single-process `htable_find_or_put` calls
(`fetch_current`, reference build `wf`) starting from the all-zero table: if
the call that follows the calls `pre`
returns `FOUND` for `v`, then one of the calls of `pre` (a strictly earlier
call) returned `INSERTED` for the same payload, and the `FOUND` call leaves
every bucket of the table unchanged. -/
theorem C4_found_was_inserted (e : Env) (hwf : e.wf) (hsp : e.fetch_current)
    (ctx : htable_ctx) (hzero : ∀ a, ctx.table a = 0) (pre : List Nat) (v : Nat)
    (hfound : (htable_find_or_put e (run e ctx pre) v).1 = HTABLE_FOUND) :
    (∃ c, c ∈ calls e ctx pre ∧ c.1 &&& HTABLE_MASK_DATA = v &&& HTABLE_MASK_DATA ∧
      c.2 = HTABLE_INSERTED) ∧
    ∀ a, (htable_find_or_put e (run e ctx pre) v).2.table a = (run e ctx pre).table a := by
  obtain ⟨htab, k, _, hocc, hpay, _⟩ := find_or_put_found e hwf hsp (run e ctx pre) v hfound
  refine ⟨?_, fun a => by rw [htab]⟩
  have hP : ∀ a, occupied (ctx.table a) → False := by
    intro a ha; rw [hzero a] at ha; exact not_occupied_zero ha
  rcases occupied_origin e hwf hsp (fun _ => False) ctx hP pre _ hocc with h1 | ⟨c, hc, hc1, hc2⟩
  · exact absurd h1 id
  · exact ⟨c, hc, by rw [hc1, hpay], hc2⟩

/-- The reference build with one thread, from the all-zero table: after the calls 7 and 42, the call 42 returns `FOUND`. -/
theorem C4_witness :
    (reference_env 1).wf ∧ (reference_env 1).fetch_current ∧ (∀ a, zero_ctx.table a = 0) ∧
    (htable_find_or_put (reference_env 1) (run (reference_env 1) zero_ctx [7, 42]) 42).1
      = HTABLE_FOUND ∧
    ((∃ c, c ∈ calls (reference_env 1) zero_ctx [7, 42] ∧
        c.1 &&& HTABLE_MASK_DATA = 42 &&& HTABLE_MASK_DATA ∧ c.2 = HTABLE_INSERTED) ∧
      ∀ a, (htable_find_or_put (reference_env 1) (run (reference_env 1) zero_ctx [7, 42]) 42).2.table a
        = (run (reference_env 1) zero_ctx [7, 42]).table a) :=
  ⟨by decide, fun _ _ _ => rfl, fun _ => rfl, by decide,
    C4_found_was_inserted (reference_env 1) (by decide) (fun _ _ _ => rfl) zero_ctx
      (fun _ => rfl) [7, 42] 42 (by decide)⟩

/-- C5: in single-process execution (`fetch_current`) of the reference build
(`wf`), for every table and every value `v`: `htable_find_or_put(v)` returns
`FULL` if and only if every one of the `HTABLE_MAX_NR_OF_CHUNKS * HTABLE_CHUNK_SIZE`
buckets of the probe sequence of `v` is occupied with a payload different from
`v`; and whenever it returns `FULL`, no bucket of the table has been changed. -/
theorem C5_full_iff_budget_occupied (e : Env) (hwf : e.wf) (hsp : e.fetch_current)
    (ctx : htable_ctx) (v : Nat) :
    ((htable_find_or_put e ctx v).1 = HTABLE_FULL ↔
      ∀ k, k < e.HTABLE_MAX_NR_OF_CHUNKS * e.HTABLE_CHUNK_SIZE →
        ctx.table (probe_seq e v k) &&& HTABLE_MASK_OCCUPIED ≠ 0 ∧
        ctx.table (probe_seq e v k) &&& HTABLE_MASK_DATA ≠ v &&& HTABLE_MASK_DATA) ∧
    ((htable_find_or_put e ctx v).1 = HTABLE_FULL →
      ∀ a, (htable_find_or_put e ctx v).2.table a = ctx.table a) := by
  have h := find_or_put_full e hwf hsp ctx v
  exact ⟨h.1, fun hf a => by rw [h.2 hf]⟩

/-- The small build on a table that holds the payload 7 everywhere: the call for 5 returns `FULL`. -/
theorem C5_witness :
    small_env.wf ∧ small_env.fetch_current ∧
    (htable_find_or_put small_env sevens_ctx 5).1 = HTABLE_FULL ∧
    (((htable_find_or_put small_env sevens_ctx 5).1 = HTABLE_FULL ↔
      ∀ k, k < small_env.HTABLE_MAX_NR_OF_CHUNKS * small_env.HTABLE_CHUNK_SIZE →
        sevens_ctx.table (probe_seq small_env 5 k) &&& HTABLE_MASK_OCCUPIED ≠ 0 ∧
        sevens_ctx.table (probe_seq small_env 5 k) &&& HTABLE_MASK_DATA ≠ 5 &&& HTABLE_MASK_DATA) ∧
    ((htable_find_or_put small_env sevens_ctx 5).1 = HTABLE_FULL →
      ∀ a, (htable_find_or_put small_env sevens_ctx 5).2.table a = sevens_ctx.table a)) :=
  ⟨by decide, fun _ _ _ => rfl, by decide,
    C5_full_iff_budget_occupied small_env (by decide) (fun _ _ _ => rfl) sevens_ctx 5⟩

/-- C6: for every context and every value `v`, `htable_find_or_put(v)` and
`htable_find_or_put(v & 0x7fffffffffffffff)` return the same result code and
leave the same context (table, staging buffer, handle slots and trace),
whatever the transport delivers; in particular, in single-process execution on
a probe sequence without an occupied bucket, `htable_find_or_put(0x8000000000000005)`
returns `INSERTED` and stores the word `0x8000000000000005` in the first
bucket of the probe sequence, after which `htable_find_or_put(5)` returns
`FOUND`. -/
theorem C6_payload_masking (e : Env) (ctx : htable_ctx) (v : Nat) :
    htable_find_or_put e ctx v = htable_find_or_put e ctx (v &&& 0x7fffffffffffffff) ∧
    (e.wf → e.fetch_current →
      (∀ k, k < e.HTABLE_MAX_NR_OF_CHUNKS * e.HTABLE_CHUNK_SIZE →
        ctx.table (probe_seq e 5 k) &&& HTABLE_MASK_OCCUPIED = 0) →
      (htable_find_or_put e ctx 0x8000000000000005).1 = HTABLE_INSERTED ∧
      (htable_find_or_put e ctx 0x8000000000000005).2.table (probe_seq e 5 0) = 0x8000000000000005 ∧
      (htable_find_or_put e (htable_find_or_put e ctx 0x8000000000000005).2 5).1 = HTABLE_FOUND) := by
  have hmask : ∀ w, htable_find_or_put e ctx w = htable_find_or_put e ctx (w &&& 0x7fffffffffffffff) := by
    intro w
    unfold htable_find_or_put
    simp only []
    rw [show (w &&& 0x7fffffffffffffff) &&& HTABLE_MASK_DATA = w &&& HTABLE_MASK_DATA from
      mask_data_idem w]
  refine ⟨hmask v, fun hwf hsp hempty => ?_⟩
  have h5 : htable_find_or_put e ctx 0x8000000000000005 = htable_find_or_put e ctx 5 := by
    rw [hmask 0x8000000000000005]
    have e5 : (0x8000000000000005 &&& 0x7fffffffffffffff : Nat) = 5 := by decide
    rw [e5]
  rw [h5]
  have hb : 0 < budget e := by
    have h1 := hwf.2.1
    have h2 := hwf.2.2.2.1
    unfold budget
    exact Nat.mul_pos (by omega) (by omega)
  have hins : (htable_find_or_put e ctx 5).1 = HTABLE_INSERTED := by
    rcases find_or_put_cases e hwf hsp ctx 5 with ⟨h1, _⟩ | ⟨h1, _⟩ | ⟨h1, _⟩
    · have := ((find_or_put_full e hwf hsp ctx 5).1.mp h1 0 hb).1
      exact absurd (hempty 0 hb) this
    · obtain ⟨_, k, hk, hocc, _⟩ := find_or_put_found e hwf hsp ctx 5 h1
      exact absurd (hempty k hk) hocc
    · exact h1
  obtain ⟨k, hk, hclr, hbef, htab⟩ := find_or_put_inserted e hwf hsp ctx 5 hins
  have hk0 : k = 0 := by
    by_contra hne
    exact (hbef 0 (by omega)).1 (hempty 0 hb)
  subst hk0
  refine ⟨hins, ?_, ?_⟩
  · rw [htab, Function.update_same]; decide
  · exact (find_or_put_present e hwf hsp _ 5 (present_after e hwf hsp ctx 5 (Or.inl hins))).1

/-- The reference build with one thread on the all-zero table, value `0x8000000000000005`. -/
theorem C6_witness :
    htable_find_or_put (reference_env 1) zero_ctx 0x8000000000000005 =
      htable_find_or_put (reference_env 1) zero_ctx (0x8000000000000005 &&& 0x7fffffffffffffff) ∧
    (htable_find_or_put (reference_env 1) zero_ctx 0x8000000000000005).1 = HTABLE_INSERTED ∧
    (htable_find_or_put (reference_env 1) zero_ctx 0x8000000000000005).2.table
      (probe_seq (reference_env 1) 5 0) = 0x8000000000000005 ∧
    (htable_find_or_put (reference_env 1)
      (htable_find_or_put (reference_env 1) zero_ctx 0x8000000000000005).2 5).1 = HTABLE_FOUND :=
  ⟨(C6_payload_masking (reference_env 1) zero_ctx 0x8000000000000005).1,
    (C6_payload_masking (reference_env 1) zero_ctx 0x8000000000000005).2 (by decide)
      (fun _ _ _ => rfl) (fun _ _ => Nat.zero_and _)⟩

/-- C7 (immortality): for every table, every value `v` and every content of
the staged copies (any transport), `htable_find_or_put(v)` never changes a
bucket whose occupancy bit is set: a bucket occupied with payload `p` before
the call holds the same word, occupied with payload `p`, after it; and every
compare-and-swap the call attempts expects a word whose occupancy bit is
clear. -/
theorem C7_immortality (e : Env) (ctx : htable_ctx) (v a p : Nat)
    (hocc : ctx.table a &&& HTABLE_MASK_OCCUPIED ≠ 0)
    (hpay : ctx.table a &&& HTABLE_MASK_DATA = p) :
    (htable_find_or_put e ctx v).2.table a = ctx.table a ∧
    (htable_find_or_put e ctx v).2.table a &&& HTABLE_MASK_OCCUPIED ≠ 0 ∧
    (htable_find_or_put e ctx v).2.table a &&& HTABLE_MASK_DATA = p ∧
    ∃ evs, (htable_find_or_put e ctx v).2.trace = evs ++ ctx.trace ∧
      ∀ addr expected desired observed, Event.cas addr expected desired observed ∈ evs →
        expected &&& HTABLE_MASK_OCCUPIED = 0 := by
  have h := find_or_put_immortal e ctx v a hocc
  refine ⟨h, by rw [h]; exact hocc, by rw [h]; exact hpay, ?_⟩
  obtain ⟨evs, he, _, _, hp⟩ := find_or_put_emitted (e.HTABLE_MAX_NR_OF_CHUNKS + 1) e
    (by omega) (by omega) ctx v
  exact ⟨evs, he, fun addr x y o hmem => hp _ hmem⟩

/-- The small build on a table that holds the payload 7 everywhere: bucket 0 survives the call for 5. -/
theorem C7_witness :
    sevens_ctx.table 0 &&& HTABLE_MASK_OCCUPIED ≠ 0 ∧
    sevens_ctx.table 0 &&& HTABLE_MASK_DATA = 7 ∧
    (htable_find_or_put small_env sevens_ctx 5).2.table 0 = sevens_ctx.table 0 ∧
    (htable_find_or_put small_env sevens_ctx 5).2.table 0 &&& HTABLE_MASK_OCCUPIED ≠ 0 ∧
    (htable_find_or_put small_env sevens_ctx 5).2.table 0 &&& HTABLE_MASK_DATA = 7 ∧
    ∃ evs, (htable_find_or_put small_env sevens_ctx 5).2.trace = evs ++ sevens_ctx.trace ∧
      ∀ addr expected desired observed, Event.cas addr expected desired observed ∈ evs →
        expected &&& HTABLE_MASK_OCCUPIED = 0 :=
  ⟨by decide, by decide, C7_immortality small_env sevens_ctx 5 0 7 (by decide) (by decide)⟩

/-- C9 (probe bound): for every context, every value `v` and every content of
the staged copies (any transport), `htable_find_or_put(v)` returns (it is a
total function) and the events `evs` of the call contain at most
`HTABLE_MAX_NR_OF_CHUNKS * HTABLE_CHUNK_SIZE` reads of staged buckets and at
most `HTABLE_MAX_NR_OF_CHUNKS + 1` calls of `query_chunk`, none of them for a
chunk number `>= HTABLE_MAX_NR_OF_CHUNKS`.  The build has at least one probe
chunk. -/
theorem C9_probe_bound (e : Env) (hC : 1 ≤ e.HTABLE_MAX_NR_OF_CHUNKS) (ctx : htable_ctx)
    (v : Nat) :
    ∃ evs, (htable_find_or_put e ctx v).2.trace = evs ++ ctx.trace ∧
      evs.countP Event.isInspect ≤ e.HTABLE_MAX_NR_OF_CHUNKS * e.HTABLE_CHUNK_SIZE ∧
      evs.countP Event.isQuery ≤ e.HTABLE_MAX_NR_OF_CHUNKS + 1 ∧
      ∀ n, Event.query n ∈ evs → n < e.HTABLE_MAX_NR_OF_CHUNKS := by
  obtain ⟨evs, he, hq, hi, hp⟩ := find_or_put_emitted e.HTABLE_MAX_NR_OF_CHUNKS e
    (by omega) (le_refl _) ctx v
  exact ⟨evs, he, hi, hq, fun n hmem => hp _ hmem⟩

/-- The reference build with one thread, zero-filled memory, value 42. -/
theorem C9_witness :
    1 ≤ (reference_env 1).HTABLE_MAX_NR_OF_CHUNKS ∧
    ∃ evs, (htable_find_or_put (reference_env 1) zero_ctx 42).2.trace = evs ++ zero_ctx.trace ∧
      evs.countP Event.isInspect ≤
        (reference_env 1).HTABLE_MAX_NR_OF_CHUNKS * (reference_env 1).HTABLE_CHUNK_SIZE ∧
      evs.countP Event.isQuery ≤ (reference_env 1).HTABLE_MAX_NR_OF_CHUNKS + 1 ∧
      ∀ n, Event.query n ∈ evs → n < (reference_env 1).HTABLE_MAX_NR_OF_CHUNKS :=
  ⟨by decide, C9_probe_bound (reference_env 1) (by decide) zero_ctx 42⟩

/-- C10 (handle drain): for every sequence `htable_init`, any number of
`htable_find_or_put` calls (the list `vs`), `htable_free`, with any transport:
every fetch handle returned by `upc_memget_nb` has been passed to `upc_sync`
exactly once when `htable_free` returns, and no handle slot holding a handle
that was not yet waited on is ever overwritten, by a new handle or by `NULL`.
The build has at least one probe chunk. -/
theorem C10_handle_drain (e : Env) (hC : 1 ≤ e.HTABLE_MAX_NR_OF_CHUNKS)
    (chunks0 table0 : Nat → Nat) (vs : List Nat) :
    (∀ id dst src size,
      Event.memget id dst src size ∈ (htable_free e (run e (htable_init chunks0 table0) vs)).trace →
      (htable_free e (run e (htable_init chunks0 table0) vs)).trace.count (Event.sync id) = 1) ∧
    stores_ok (htable_free e (run e (htable_init chunks0 table0) vs)).trace :=
  htable_free_drains e _ (run_handles_ok e hC _ vs (init_handles_ok _ chunks0 table0))

/-- The reference build with one thread: `htable_init`, the calls 42, 43, 42, `htable_free`. -/
theorem C10_witness :
    1 ≤ (reference_env 1).HTABLE_MAX_NR_OF_CHUNKS ∧
    (∀ id dst src size,
      Event.memget id dst src size ∈
        (htable_free (reference_env 1)
          (run (reference_env 1) (htable_init (fun _ => 0) (fun _ => 0)) [42, 43, 42])).trace →
      (htable_free (reference_env 1)
        (run (reference_env 1) (htable_init (fun _ => 0) (fun _ => 0)) [42, 43, 42])).trace.count
          (Event.sync id) = 1) ∧
    stores_ok (htable_free (reference_env 1)
      (run (reference_env 1) (htable_init (fun _ => 0) (fun _ => 0)) [42, 43, 42])).trace :=
  ⟨by decide, C10_handle_drain (reference_env 1) (by decide) (fun _ => 0) (fun _ => 0) [42, 43, 42]⟩

/-- C8: `N` processes call `htable_find_or_put(v)` concurrently, each with a
context fresh from `htable_init`, on a table `t0` in which `v` is absent and
the probe sequence of `v` has an unoccupied bucket.  An interleaving `sched` is
any sequence of program steps of the processes and of late arrivals of fetched
words (a fetch delivers the contents current at issue, and any of its words
may later be replaced by the content current at that later moment, until the
fetch is waited on).  After every interleaving, every call that has returned
has returned `INSERTED` or `FOUND`, and at most one has returned `INSERTED`;
and after every interleaving in which each process has been given the
`call_steps` program steps that a call takes at most, every call has returned:
exactly one `INSERTED`, every other one `FOUND`. -/
theorem C8_concurrent_same_value (e : Env) (hwf : e.wf) (hsp : e.fetch_current) (N v : Nat)
    (hN : 1 ≤ N) (t0 : Nat → Nat) (chunks0 : Nat → Nat → Nat)
    (habsent : ∀ k, k < budget e → ¬ (occupied (t0 (probe_seq e v k)) ∧
      payload (t0 (probe_seq e v k)) = v &&& HTABLE_MASK_DATA))
    (hempty : ∃ k, k < budget e ∧ ¬ occupied (t0 (probe_seq e v k)))
    (sched : List Action) :
    (∀ p, p < N → ∀ r, ((exec e v N (init_world t0 chunks0) sched).procs p).pc = .done r →
      r = HTABLE_INSERTED ∨ r = HTABLE_FOUND) ∧
    (∀ p q, p < N → q < N →
      ((exec e v N (init_world t0 chunks0) sched).procs p).pc = .done HTABLE_INSERTED →
      ((exec e v N (init_world t0 chunks0) sched).procs q).pc = .done HTABLE_INSERTED → p = q) ∧
    ((∀ p, p < N → call_steps e ≤ sched.countP (Action.runs p)) →
      ∃ win, win < N ∧
        ((exec e v N (init_world t0 chunks0) sched).procs win).pc = .done HTABLE_INSERTED ∧
        ∀ p, p < N → p ≠ win →
          ((exec e v N (init_world t0 chunks0) sched).procs p).pc = .done HTABLE_FOUND) := by
  obtain ⟨ks, hff⟩ := first_free_exists e v t0 habsent hempty
  have hw0 := init_world_inv e v t0 ks N hff chunks0
  have hw := exec_inv e hwf hsp v t0 ks N hff sched _ hw0
  have hdone : ∀ p, p < N → ∀ r,
      ((exec e v N (init_world t0 chunks0) sched).procs p).pc = .done r →
      (r = HTABLE_INSERTED ∨ r = HTABLE_FOUND) ∧
      (exec e v N (init_world t0 chunks0) sched).table (probe_seq e v ks) = stored v := by
    intro p hp r hr
    have := hw.procs p hp
    unfold proc_inv at this
    rw [hr] at this
    exact this
  refine ⟨fun p hp r hr => (hdone p hp r hr).1, ?_, ?_⟩
  · intro p q hp hq hpi hqi
    obtain ⟨win, _, _, hothers⟩ := hw.winner (hdone p hp _ hpi).2
    have h1 : p = win := by
      by_contra hne; exact hothers p hp hne hpi
    have h2 : q = win := by
      by_contra hne; exact hothers q hq hne hqi
    rw [h1, h2]
  · intro hfair
    have hret : ∀ p, p < N → ∃ r,
        ((exec e v N (init_world t0 chunks0) sched).procs p).pc = .done r := by
      intro p hp
      by_contra hno
      push_neg at hno
      have h1 := togo_pos e v t0 ks _ hff.lt _ (hw.procs p hp) hno
      have h2 := exec_togo e hwf hsp v t0 ks N hff sched _ hw0 p hp
      have h3 := hfair p hp
      have h4 : ((init_world t0 chunks0).procs p).pc.togo e = call_steps e := rfl
      omega
    obtain ⟨r0, hr0⟩ := hret 0 (by omega)
    obtain ⟨win, hwin, hwpc, hothers⟩ := hw.winner (hdone 0 (by omega) r0 hr0).2
    refine ⟨win, hwin, hwpc, ?_⟩
    intro p hp hne
    obtain ⟨r, hr⟩ := hret p hp
    rcases (hdone p hp r hr).1 with h | h
    · rw [h] at hr; exact absurd hr (hothers p hp hne)
    · rw [h] at hr; exact hr

/-- Two processes of the small build insert 5 into the all-zero table under the interleaving `demo_sched`. -/
theorem C8_witness :
    small_env.wf ∧ small_env.fetch_current ∧ 1 ≤ 2 ∧
    (∀ k, k < budget small_env → ¬ (occupied ((fun _ => 0 : Nat → Nat) (probe_seq small_env 5 k)) ∧
      payload ((fun _ => 0 : Nat → Nat) (probe_seq small_env 5 k)) = 5 &&& HTABLE_MASK_DATA)) ∧
    (∃ k, k < budget small_env ∧ ¬ occupied ((fun _ => 0 : Nat → Nat) (probe_seq small_env 5 k))) ∧
    (∀ p, p < 2 → call_steps small_env ≤ demo_sched.countP (Action.runs p)) ∧
    ∃ win, win < 2 ∧
      ((exec small_env 5 2 (init_world (fun _ => 0) (fun _ _ => 0)) demo_sched).procs win).pc
        = .done HTABLE_INSERTED ∧
      ∀ p, p < 2 → p ≠ win →
        ((exec small_env 5 2 (init_world (fun _ => 0) (fun _ _ => 0)) demo_sched).procs p).pc
          = .done HTABLE_FOUND :=
  ⟨by decide, fun _ _ _ => rfl, by decide, fun _ _ h => not_occupied_zero h.1,
    ⟨0, by decide, not_occupied_zero⟩, by decide,
    (C8_concurrent_same_value small_env (by decide) (fun _ _ _ => rfl) 2 5 (by decide)
      (fun _ => 0) (fun _ _ => 0) (fun _ _ h => not_occupied_zero h.1)
      ⟨0, by decide, not_occupied_zero⟩ demo_sched).2.2 (by decide)⟩

/-- C11 (straddle arithmetic), evaluated where the code departs from it: three
threads, chunk start index `2^64 - 3`, so `a = 2 * 2^27 - 3`, `shard(a) = 1`
and `offset(a) = 2^27 - 3 > B - S`.  `query_chunk` splits, and the first
sub-fetch reads `size1 = 3` buckets from index `a`; but the second sub-fetch
reads its `29` buckets from table index 0, offset 0 of shard 0, and not from
offset 0 of shard `(shard(a) + 1) mod T = 2`. -/
theorem C11_second_fetch_at_wrap :
    HTABLE_ADDR wrap_env 18446744073709551613 = 268435453 ∧
    268435453 / wrap_env.HTABLE_BLOCK_SIZE = 1 ∧
    (268435453 / wrap_env.HTABLE_BLOCK_SIZE + 1) % wrap_env.THREADS = 2 ∧
    (query_chunk wrap_env zero_ctx 18446744073709551613 0).trace =
      [Event.store 1 none (some 1), Event.memget 1 3 0 29,
       Event.store 0 none (some 0), Event.memget 0 0 268435453 3, Event.query 0] ∧
    upc_threadof wrap_env 0 = 0 := by
  decide

/-- C12 (probe sequence), evaluated where the code departs from it: three
threads and a value whose hash is `2^64 - 3`.  The buckets 0, 1, 2 of the probe
sequence are the table indices `2 * 2^27 - 3`, `2 * 2^27 - 2`, `2 * 2^27 - 1`;
bucket 3 is index 0, where the claim has `((h mod (T*B)) + 3) mod (T*B) = 2 * 2^27`.
On a table in which those three buckets are occupied by another payload,
`htable_find_or_put(5)` returns `INSERTED` and has written index 0, not index
`2 * 2^27`. -/
theorem C12_probe_at_wrap :
    u64 (wrap_env.hash (5 &&& HTABLE_MASK_DATA)) = 18446744073709551613 ∧
    probe_seq wrap_env 5 2 = 268435455 ∧
    probe_seq wrap_env 5 3 = 0 ∧
    (u64 (wrap_env.hash (5 &&& HTABLE_MASK_DATA)) % (wrap_env.THREADS * wrap_env.HTABLE_BLOCK_SIZE) + 3) %
      (wrap_env.THREADS * wrap_env.HTABLE_BLOCK_SIZE) = 268435456 ∧
    (htable_find_or_put wrap_env wrap_ctx 5).1 = HTABLE_INSERTED ∧
    (htable_find_or_put wrap_env wrap_ctx 5).2.table 0 = 0x8000000000000005 ∧
    (htable_find_or_put wrap_env wrap_ctx 5).2.table 268435456 = 0 := by
  decide

/-- C13, refuted: in a build with `HTABLE_CHUNK_SIZE = 2^27 + 1 > HTABLE_BLOCK_SIZE`
`htable_init` does not fail; it produces the context it always produces. -/
theorem C13_init_does_not_detect :
    oversized_env.HTABLE_CHUNK_SIZE > oversized_env.HTABLE_BLOCK_SIZE ∧
    htable_init_outcome oversized_env (fun _ => 0) (fun _ => 0) ≠ none ∧
    ¬ (∀ e : Env, e.HTABLE_CHUNK_SIZE > e.HTABLE_BLOCK_SIZE →
        htable_init_outcome e (fun _ => 0) (fun _ => 0) = none) := by
  refine ⟨by decide, by simp [htable_init_outcome], fun h => ?_⟩
  have := h oversized_env (by decide)
  simp [htable_init_outcome] at this

/-- C13, amended: `htable_init` makes no check of the configuration.  In every
build, also when `HTABLE_CHUNK_SIZE > HTABLE_BLOCK_SIZE`, it does not fail and
produces a context with every handle slot `NULL`, over the memory it was
given. -/
theorem C13_init_never_fails (e : Env) (chunks0 table0 : Nat → Nat) :
    ∃ ctx, htable_init_outcome e chunks0 table0 = some ctx ∧
      (∀ s, ctx.handle s = none) ∧ ctx.chunks = chunks0 ∧ ctx.table = table0 :=
  ⟨htable_init chunks0 table0, rfl, fun _ => rfl, rfl, rfl⟩

/-- C14 (fetch/CAS address agreement): in the reference build (`wf`) on a
quiescent table (`fetch_current`), for every start `h`, every chunk number
`n < HTABLE_MAX_NR_OF_CHUNKS` and every `j < HTABLE_CHUNK_SIZE`: after
`query_chunk(h, n)` and `sync_on_chunk(n)` the staged word that the scan reads
for slot `j` of chunk `n`, `chunks[n * HTABLE_CHUNK_SIZE + j]`, equals
`table[HTABLE_ADDR(h + n * HTABLE_CHUNK_SIZE + j)]`, the bucket given to the
compare-and-swap for that slot, and the table is as before.  This covers
unsplit and split chunks; in particular a chunk that starts at the last index
`T * B - 1` stages that bucket and then bucket 0. -/
theorem C14_fetch_cas_agreement (e : Env) (hwf : e.wf) (hfc : e.fetch_current)
    (ctx : htable_ctx) (h n j : Nat) (hn : n < e.HTABLE_MAX_NR_OF_CHUNKS)
    (hj : j < e.HTABLE_CHUNK_SIZE) :
    (sync_on_chunk (query_chunk e ctx h n) n).chunks (u64 (u64 (n * e.HTABLE_CHUNK_SIZE) + j)) =
      ctx.table (HTABLE_ADDR e (u64 (h + u64 (u64 (n * e.HTABLE_CHUNK_SIZE) + j)))) ∧
    u64 (u64 (n * e.HTABLE_CHUNK_SIZE) + j) = n * e.HTABLE_CHUNK_SIZE + j ∧
    (sync_on_chunk (query_chunk e ctx h n) n).table = ctx.table ∧
    (2 ≤ e.HTABLE_CHUNK_SIZE →
      (sync_on_chunk (query_chunk e ctx (e.THREADS * e.HTABLE_BLOCK_SIZE - 1) 0) 0).chunks 0 =
        ctx.table (e.THREADS * e.HTABLE_BLOCK_SIZE - 1) ∧
      (sync_on_chunk (query_chunk e ctx (e.THREADS * e.HTABLE_BLOCK_SIZE - 1) 0) 0).chunks 1 =
        ctx.table 0) := by
  have hM := u64_BT e hwf
  have hwf2 := hwf
  obtain ⟨hB, hS1, hSB, hC1, hC, hT1, hT⟩ := hwf2
  have hm : n * e.HTABLE_CHUNK_SIZE < 288230376151711744 := by
    have h1 : n * e.HTABLE_CHUNK_SIZE ≤ 2147483647 * 134217728 :=
      Nat.mul_le_mul (by omega) (by omega)
    omega
  have hidx : u64 (u64 (n * e.HTABLE_CHUNK_SIZE) + j) = n * e.HTABLE_CHUNK_SIZE + j := by
    unfold u64; omega
  refine ⟨?_, hidx, by simp, fun h2 => ⟨?_, ?_⟩⟩
  · rw [hidx, sync_on_chunk_chunks, query_chunk_chunks e hwf hfc ctx h n _ hn,
      if_pos ⟨by omega, by omega⟩]
    rfl
  · rw [sync_on_chunk_chunks, query_chunk_chunks e hwf hfc ctx _ 0 _ hC1,
      if_pos ⟨by omega, by omega⟩]
    congr 1
    unfold probe HTABLE_ADDR
    rw [hM, hB]
    unfold u64
    have : (134217728 * e.THREADS) = e.THREADS * 134217728 := Nat.mul_comm _ _
    rw [this]
    generalize e.THREADS * 134217728 = M at *
    rw [Nat.add_zero, Nat.mod_eq_of_lt (by omega : M - 1 < 18446744073709551616)]
    exact Nat.mod_eq_of_lt (by omega)
  · rw [sync_on_chunk_chunks, query_chunk_chunks e hwf hfc ctx _ 0 _ hC1,
      if_pos ⟨by omega, by omega⟩]
    congr 1
    unfold probe HTABLE_ADDR
    rw [hM, hB]
    unfold u64
    have : (134217728 * e.THREADS) = e.THREADS * 134217728 := Nat.mul_comm _ _
    rw [this]
    generalize hMd : e.THREADS * 134217728 = M at *
    have h3 : M - 1 + 1 = M := by omega
    rw [h3, Nat.mod_eq_of_lt (by omega : M < 18446744073709551616)]
    exact Nat.mod_self M

/-- A chunk of the reference build on two threads that starts seven buckets
before the end of the first block, as in `htable_test_query_splitting`. -/
theorem C14_witness :
    (reference_env 2).wf ∧ (reference_env 2).fetch_current ∧
    0 < (reference_env 2).HTABLE_MAX_NR_OF_CHUNKS ∧ 9 < (reference_env 2).HTABLE_CHUNK_SIZE ∧
    (sync_on_chunk (query_chunk (reference_env 2) (htable_init (fun _ => 0) (fun a => a))
      134217721 0) 0).chunks (u64 (u64 (0 * (reference_env 2).HTABLE_CHUNK_SIZE) + 9)) =
        (htable_init (fun _ => 0) (fun a => a)).table
          (HTABLE_ADDR (reference_env 2)
            (u64 (134217721 + u64 (u64 (0 * (reference_env 2).HTABLE_CHUNK_SIZE) + 9)))) :=
  ⟨by decide, fun _ _ _ => rfl, by decide, by decide,
    (C14_fetch_cas_agreement (reference_env 2) (by decide) (fun _ _ _ => rfl)
      (htable_init (fun _ => 0) (fun a => a)) 134217721 0 9 (by decide) (by decide)).1⟩

/-- C19 (owner consistency): for every value `v` and every number of threads
`T >= 1` (with a table of `T * B < 2^64` buckets, `B >= 1`), `htable_owner(v)`
equals `(hash(v & 0x7fffffffffffffff) mod (T*B)) / B`, is less than `T`, is the
shard `a / B` of the first bucket `a` that `htable_find_or_put(v)` probes (and
the thread that bucket has affinity to), and is the same for `v` and
`v & 0x7fffffffffffffff`. -/
theorem C19_owner (e : Env) (hB : 1 ≤ e.HTABLE_BLOCK_SIZE) (hT : 1 ≤ e.THREADS)
    (hTB : e.HTABLE_BLOCK_SIZE * e.THREADS < 18446744073709551616) (v : Nat) :
    htable_owner e v =
      (u64 (e.hash (v &&& 0x7fffffffffffffff)) % (e.THREADS * e.HTABLE_BLOCK_SIZE)) /
        e.HTABLE_BLOCK_SIZE ∧
    htable_owner e v < e.THREADS ∧
    htable_owner e v = probe_seq e v 0 / e.HTABLE_BLOCK_SIZE ∧
    htable_owner e v = upc_threadof e (probe_seq e v 0) ∧
    htable_owner e v = htable_owner e (v &&& 0x7fffffffffffffff) := by
  have hM : u64 (e.HTABLE_BLOCK_SIZE * e.THREADS) = e.THREADS * e.HTABLE_BLOCK_SIZE := by
    unfold u64; rw [Nat.mod_eq_of_lt hTB, Nat.mul_comm]
  have hlt : ∀ x, x % (e.THREADS * e.HTABLE_BLOCK_SIZE) / e.HTABLE_BLOCK_SIZE < e.THREADS := by
    intro x
    apply Nat.div_lt_of_lt_mul
    rw [Nat.mul_comm]
    exact Nat.mod_lt _ (Nat.mul_pos (by omega) (by omega))
  have hown : htable_owner e v =
      (u64 (e.hash (v &&& HTABLE_MASK_DATA)) % (e.THREADS * e.HTABLE_BLOCK_SIZE)) /
        e.HTABLE_BLOCK_SIZE := by
    unfold htable_owner upc_threadof HTABLE_ADDR
    simp only [hM]
    exact Nat.mod_eq_of_lt (hlt _)
  have hp : probe_seq e v 0 =
      u64 (e.hash (v &&& HTABLE_MASK_DATA)) % (e.THREADS * e.HTABLE_BLOCK_SIZE) := by
    unfold probe_seq probe HTABLE_ADDR u64
    rw [Nat.add_zero, Nat.mod_mod]
    simp only [u64] at hM
    rw [hM]
  refine ⟨hown, by rw [hown]; exact hlt _, by rw [hown, hp], ?_, ?_⟩
  · rw [hown, hp]
    unfold upc_threadof
    rw [← hp, hp]
    exact (Nat.mod_eq_of_lt (hlt _)).symm
  · unfold htable_owner
    simp only []
    rw [show (v &&& 0x7fffffffffffffff) &&& HTABLE_MASK_DATA = v &&& HTABLE_MASK_DATA from
      mask_data_idem v]

/-- The reference build on four threads and the value 300000000, whose bucket
lies in the third block, that is on thread 2. -/
theorem C19_witness :
    1 ≤ (reference_env 4).HTABLE_BLOCK_SIZE ∧ 1 ≤ (reference_env 4).THREADS ∧
    (reference_env 4).HTABLE_BLOCK_SIZE * (reference_env 4).THREADS < 18446744073709551616 ∧
    htable_owner (reference_env 4) 300000000 = 2 ∧
    htable_owner (reference_env 4) 300000000 < (reference_env 4).THREADS :=
  ⟨by decide, by decide, by decide, by decide,
    (C19_owner (reference_env 4) (by decide) (by decide) (by decide) 300000000).2.1⟩

/-- C18 (refinement to a plain linear probe): in single-process execution
(`fetch_current`) of the reference build (`wf`), for every context and every
value `v`, `htable_find_or_put(v)` returns the result and leaves the table of
the reference procedure `spec_find_or_put`, which with
`d = v & 0x7fffffffffffffff` scans
`k = 0 .. HTABLE_MAX_NR_OF_CHUNKS * HTABLE_CHUNK_SIZE - 1` over
`table[((hash(d) + k) mod 2^64) mod (T*B)]`, writes `d | 0x8000000000000000`
into the first bucket with the occupancy bit clear and returns `INSERTED`,
returns `FOUND` at the first bucket occupied with payload `d`, and returns `FULL`
if the scan ends.  The failure branch of the compare-and-swap is never taken:
every compare-and-swap of the call observes the word it expected. -/
theorem C18_refines_linear_probe (e : Env) (hwf : e.wf) (hsp : e.fetch_current)
    (ctx : htable_ctx) (v : Nat) :
    (htable_find_or_put e ctx v).1 = (spec_find_or_put e ctx.table v).1 ∧
    (htable_find_or_put e ctx v).2.table = (spec_find_or_put e ctx.table v).2 ∧
    ∃ evs, (htable_find_or_put e ctx v).2.trace = evs ++ ctx.trace ∧
      ∀ a x y o, Event.cas a x y o ∈ evs → o = x := by
  have h1 := find_or_put_linear e hwf hsp ctx v
  have h2 : spec_find_or_put e ctx.table v = _ :=
    spec_scan_linear e hwf (v &&& 0x7fffffffffffffff) ctx.table
      (e.HTABLE_MAX_NR_OF_CHUNKS * e.HTABLE_CHUNK_SIZE) 0
  rw [h2]
  exact ⟨h1.1, h1.2, find_or_put_cas_exact e hwf hsp ctx v⟩

/-- The reference build on two threads: the value 5 is looked up in a table
whose bucket 5 holds the payload 9; both procedures insert it into bucket 6. -/
theorem C18_witness :
    (reference_env 2).wf ∧ (reference_env 2).fetch_current ∧
    (htable_find_or_put (reference_env 2)
      (htable_init (fun _ => 0) (fun a => if a = 5 then 0x8000000000000009 else 0)) 5).1 =
      HTABLE_INSERTED ∧
    (spec_find_or_put (reference_env 2)
      (fun a => if a = 5 then 0x8000000000000009 else 0) 5).2 6 = 0x8000000000000005 ∧
    (htable_find_or_put (reference_env 2)
      (htable_init (fun _ => 0) (fun a => if a = 5 then 0x8000000000000009 else 0)) 5).1 =
    (spec_find_or_put (reference_env 2)
      (htable_init (fun _ => 0) (fun a => if a = 5 then 0x8000000000000009 else 0)).table 5).1 :=
  ⟨by decide, fun _ _ _ => rfl, by decide, by decide,
    (C18_refines_linear_probe (reference_env 2) (by decide) (fun _ _ _ => rfl)
      (htable_init (fun _ => 0) (fun a => if a = 5 then 0x8000000000000009 else 0)) 5).1⟩

/-- C15 (saturation order): in single-process execution (`fetch_current`) of a
reference build (`wf`) whose probe budget does not exceed the block size, so
that the buckets of a probe sequence are distinct, starting from the all-zero
table right after `htable_init`: for every list `ps` whose payloads are
pairwise distinct and all hash to `h`, and every
`m <= HTABLE_MAX_NR_OF_CHUNKS * HTABLE_CHUNK_SIZE`, the calls of
`htable_find_or_put` on the first `m` elements all return `INSERTED`, and
afterwards bucket `i` of the probe sequence holds the `i`-th payload with the
occupancy bit, for every `i` below `m` and the length of the list; and when
`m` is the whole budget and the list has that many elements, a further payload
with the same hash that differs from them returns `FULL`. -/
theorem C15_saturation_order (e : Env) (hwf : e.wf) (hsp : e.fetch_current)
    (hbud : budget e ≤ e.HTABLE_BLOCK_SIZE) (chunks0 : Nat → Nat) (ps : List Nat) (h m : Nat)
    (hdist : (ps.map (fun p => p &&& HTABLE_MASK_DATA)).Nodup)
    (hh : ∀ p, p ∈ ps → u64 (e.hash (p &&& HTABLE_MASK_DATA)) = h)
    (hm : m ≤ budget e) :
    (∀ q, q ∈ calls e (htable_init chunks0 (fun _ => 0)) (ps.take m) → q.2 = HTABLE_INSERTED) ∧
    (∀ i p, i < m → ps[i]? = some p →
      (run e (htable_init chunks0 (fun _ => 0)) (ps.take m)).table (probe e h i) =
        (p &&& HTABLE_MASK_DATA) ||| HTABLE_MASK_OCCUPIED) ∧
    (∀ v, m = budget e → m ≤ ps.length → u64 (e.hash (v &&& HTABLE_MASK_DATA)) = h →
      (∀ p, p ∈ ps.take m → p &&& HTABLE_MASK_DATA ≠ v &&& HTABLE_MASK_DATA) →
      (htable_find_or_put e (run e (htable_init chunks0 (fun _ => 0)) (ps.take m)) v).1 =
        HTABLE_FULL) := by
  have hpw : ps.Pairwise (fun a b => a &&& HTABLE_MASK_DATA ≠ b &&& HTABLE_MASK_DATA) := by
    unfold List.Nodup at hdist
    rw [List.pairwise_map] at hdist
    exact hdist
  have hpw2 : ([] ++ ps.take m).Pairwise
      (fun a b => a &&& HTABLE_MASK_DATA ≠ b &&& HTABLE_MASK_DATA) :=
    hpw.sublist (List.take_sublist m ps)
  have hfill0 : filled e h (htable_init chunks0 (fun _ => 0)).table [] :=
    ⟨fun i p hp => by simp at hp, fun _ _ _ => rfl⟩
  have hlen : ([] : List Nat).length + (ps.take m).length ≤ budget e := by
    simp only [List.length_nil, List.length_take, Nat.zero_add]
    omega
  have hrun := filled_run e hwf hsp hbud h (ps.take m) [] _ hfill0 hlen hpw2
    (fun p hp => hh p (List.mem_of_mem_take hp))
  rw [List.nil_append] at hrun
  refine ⟨hrun.1, ?_, ?_⟩
  · intro i p hi hp
    have : (ps.take m)[i]? = some p := by
      rw [List.getElem?_take, if_pos hi]; exact hp
    exact hrun.2.1 i p this
  · intro v hmb hml hv hnev
    exact filled_full e hwf hsp h _ (ps.take m) v hrun.2
      (by rw [List.length_take]; omega) hnev hv

/-- The small build with chunks of two buckets and two chunks, where every
value hashes to bucket 0: the payloads 1, 2, 3, 4 fill the probe budget in this
order, and the payload 5 finds the table full. -/
theorem C15_witness :
    small_env.wf ∧ small_env.fetch_current ∧ budget small_env ≤ small_env.HTABLE_BLOCK_SIZE ∧
    ([1, 2, 3, 4].map (fun p => p &&& HTABLE_MASK_DATA)).Nodup ∧
    (∀ p, p ∈ [1, 2, 3, 4] → u64 (small_env.hash (p &&& HTABLE_MASK_DATA)) = 0) ∧
    4 ≤ budget small_env ∧
    (run small_env (htable_init (fun _ => 0) (fun _ => 0)) ([1, 2, 3, 4].take 4)).table
      (probe small_env 0 2) = (3 &&& HTABLE_MASK_DATA) ||| HTABLE_MASK_OCCUPIED ∧
    (htable_find_or_put small_env
      (run small_env (htable_init (fun _ => 0) (fun _ => 0)) ([1, 2, 3, 4].take 4)) 5).1 =
        HTABLE_FULL :=
  ⟨by decide, fun _ _ _ => rfl, by decide, by decide, fun _ _ => rfl, by decide,
    (C15_saturation_order small_env (by decide) (fun _ _ _ => rfl) (by decide) (fun _ => 0)
      [1, 2, 3, 4] 0 4 (by decide) (fun _ _ => rfl) (by decide)).2.1 2 3 (by decide) rfl,
    by decide⟩

/-- C16 (stale-snapshot handling), for every build whose probe budget fits in
64 bits, every transport, every context and every value `v`, with
`d = v & 0x7fffffffffffffff` and `h = hash(d)`.
One slot: in any context in which the staged word of the slot has the occupancy
bit clear and the table bucket differs from it, the scan returns `FOUND` after
the failed compare-and-swap if the observed payload is `d`, and otherwise goes
on with the next slot `j + 1`; in both cases the table is as before.
The whole call: the staged indices read are `0, 1, ..., m - 1`, once each, with
`m` at most the budget; every compare-and-swap comes directly after the read
of its slot `k`, which is read nowhere else in the call, addresses
`HTABLE_ADDR(h + k)`, expects a word with the occupancy bit clear, offers
`d | 0x8000000000000000` and observes the word the table had at the call; it
either succeeded, and then it is the last event, the call returned `INSERTED`
and wrote that bucket; or it failed observing the payload `d`, and then it is
the last event and the call returned `FOUND` with the table unchanged; or it
failed observing another payload, and then it is the last event only if the
call returned `FULL`.  The final table is the initial one or differs from it in
one bucket. -/
theorem C16_stale_snapshot (e : Env) (hb : budget e ≤ 18446744073709551616) (ctx : htable_ctx)
    (v : Nat) :
    (∀ (c : htable_ctx) (i j fuel : Nat),
      c.chunks (u64 (u64 (i * e.HTABLE_CHUNK_SIZE) + j)) &&& HTABLE_MASK_OCCUPIED = 0 →
      c.table (HTABLE_ADDR e (u64 (u64 (e.hash (v &&& HTABLE_MASK_DATA)) +
          u64 (u64 (i * e.HTABLE_CHUNK_SIZE) + j)))) ≠
        c.chunks (u64 (u64 (i * e.HTABLE_CHUNK_SIZE) + j)) →
      (c.table (HTABLE_ADDR e (u64 (u64 (e.hash (v &&& HTABLE_MASK_DATA)) +
          u64 (u64 (i * e.HTABLE_CHUNK_SIZE) + j)))) &&& HTABLE_MASK_DATA = v &&& HTABLE_MASK_DATA →
        scan_chunk e (u64 (e.hash (v &&& HTABLE_MASK_DATA))) (v &&& HTABLE_MASK_DATA) i (fuel + 1) j c =
          (some HTABLE_FOUND,
            c.log
              [Event.cas (HTABLE_ADDR e (u64 (u64 (e.hash (v &&& HTABLE_MASK_DATA)) +
                    u64 (u64 (i * e.HTABLE_CHUNK_SIZE) + j))))
                  (c.chunks (u64 (u64 (i * e.HTABLE_CHUNK_SIZE) + j)))
                  ((v &&& HTABLE_MASK_DATA) ||| HTABLE_MASK_OCCUPIED)
                  (c.table (HTABLE_ADDR e (u64 (u64 (e.hash (v &&& HTABLE_MASK_DATA)) +
                    u64 (u64 (i * e.HTABLE_CHUNK_SIZE) + j))))),
                Event.inspect (u64 (u64 (i * e.HTABLE_CHUNK_SIZE) + j))])) ∧
      (c.table (HTABLE_ADDR e (u64 (u64 (e.hash (v &&& HTABLE_MASK_DATA)) +
          u64 (u64 (i * e.HTABLE_CHUNK_SIZE) + j)))) &&& HTABLE_MASK_DATA ≠ v &&& HTABLE_MASK_DATA →
        scan_chunk e (u64 (e.hash (v &&& HTABLE_MASK_DATA))) (v &&& HTABLE_MASK_DATA) i (fuel + 1) j c =
          scan_chunk e (u64 (e.hash (v &&& HTABLE_MASK_DATA))) (v &&& HTABLE_MASK_DATA) i fuel (j + 1)
            (c.log
              [Event.cas (HTABLE_ADDR e (u64 (u64 (e.hash (v &&& HTABLE_MASK_DATA)) +
                    u64 (u64 (i * e.HTABLE_CHUNK_SIZE) + j))))
                  (c.chunks (u64 (u64 (i * e.HTABLE_CHUNK_SIZE) + j)))
                  ((v &&& HTABLE_MASK_DATA) ||| HTABLE_MASK_OCCUPIED)
                  (c.table (HTABLE_ADDR e (u64 (u64 (e.hash (v &&& HTABLE_MASK_DATA)) +
                    u64 (u64 (i * e.HTABLE_CHUNK_SIZE) + j))))),
                Event.inspect (u64 (u64 (i * e.HTABLE_CHUNK_SIZE) + j))]))) ∧
    ∃ evs m, (htable_find_or_put e ctx v).2.trace = evs ++ ctx.trace ∧ m ≤ budget e ∧
      inspected evs = (List.range m).reverse ∧
      (∀ l1 a x y o l2, evs = l1 ++ Event.cas a x y o :: l2 →
        (∃ k l3, l2 = Event.inspect k :: l3 ∧ Event.inspect k ∉ l1 ∧ Event.inspect k ∉ l3 ∧
          a = HTABLE_ADDR e (u64 (u64 (e.hash (v &&& HTABLE_MASK_DATA)) + k)) ∧
          x &&& HTABLE_MASK_OCCUPIED = 0 ∧ y = (v &&& HTABLE_MASK_DATA) ||| HTABLE_MASK_OCCUPIED ∧
          o = ctx.table a) ∧
        ((o = x ∧ l1 = [] ∧ (htable_find_or_put e ctx v).1 = HTABLE_INSERTED ∧
            (htable_find_or_put e ctx v).2.table = Function.update ctx.table a y) ∨
          (o ≠ x ∧ o &&& HTABLE_MASK_DATA = v &&& HTABLE_MASK_DATA ∧ l1 = [] ∧
            (htable_find_or_put e ctx v).1 = HTABLE_FOUND ∧
            (htable_find_or_put e ctx v).2.table = ctx.table) ∨
          (o ≠ x ∧ o &&& HTABLE_MASK_DATA ≠ v &&& HTABLE_MASK_DATA ∧
            (l1 = [] → (htable_find_or_put e ctx v).1 = HTABLE_FULL)))) ∧
      ((htable_find_or_put e ctx v).2.table = ctx.table ∨
        ∃ a, (htable_find_or_put e ctx v).2.table =
          Function.update ctx.table a ((v &&& HTABLE_MASK_DATA) ||| HTABLE_MASK_OCCUPIED)) := by
  constructor
  · intro c i j fuel h1 h2
    have h2b : ¬ c.chunks (u64 (u64 (i * e.HTABLE_CHUNK_SIZE) + j)) =
        c.table (HTABLE_ADDR e (u64 (u64 (e.hash (v &&& HTABLE_MASK_DATA)) +
          u64 (u64 (i * e.HTABLE_CHUNK_SIZE) + j)))) := fun hc => h2 hc.symm
    constructor
    · intro h3
      simp [scan_chunk, CAS, h1, h2, h2b, h3, htable_ctx.log]
    · intro h3
      simp [scan_chunk, CAS, h1, h2, h2b, h3, htable_ctx.log]
  · obtain ⟨evs, m, he, hok, hins, hm, hres⟩ := find_or_put_hist e hb ctx v
    refine ⟨evs, m, he, hm, hins, ?_, ?_⟩
    · intro l1 a x y o l2 hsplit
      subst hsplit
      obtain ⟨_, k, l3, hl2, ha, hx, hy, ho⟩ := hist_ok_split _ _ _ _ hok
      subst hl2
      obtain ⟨hn1, hn3⟩ := inspected_once l1 _ k m l3 hins
      refine ⟨⟨k, l3, rfl, hn1, hn3, ha, hx, hy, ho⟩, ?_⟩
      cases l1 with
      | cons ev1 l1 =>
        have hg := hok.1.1 (Event.cas a x y o) (List.mem_append_right _ (List.mem_cons_self _ _))
        exact Or.inr (Or.inr ⟨hg.1, hg.2, fun hc => absurd hc (List.cons_ne_nil _ _)⟩)
      | nil =>
        rw [List.nil_append] at hres
        rcases hres with ⟨r1, r2, _⟩ | ⟨r1, a2, x2, y2, rest, heq, htab⟩ | ⟨r1, htab, hlast⟩
        · have hg := r2 _ (List.mem_cons_self _ _)
          exact Or.inr (Or.inr ⟨hg.1, hg.2, fun _ => r1⟩)
        · injection heq with hhead _
          injection hhead with e1 e2 e3 e4
          subst e1 e2 e3 e4
          exact Or.inl ⟨rfl, rfl, r1, htab⟩
        · rcases hlast with ⟨a2, x2, y2, o2, rest, heq, hne, hpay⟩ | ⟨k2, rest, heq⟩
          · injection heq with hhead _
            injection hhead with e1 e2 e3 e4
            subst e1 e2 e3 e4
            exact Or.inr (Or.inl ⟨hne, hpay, rfl, r1, htab⟩)
          · injection heq with hhead _
            cases hhead
    · rcases hres with ⟨_, _, r3⟩ | ⟨_, a2, x2, y2, rest, heq, htab⟩ | ⟨_, htab, _⟩
      · exact Or.inl r3
      · subst heq
        obtain ⟨_, k, l3, _, _, _, hy, _⟩ := hok.1
        rw [htab, hy]
        exact Or.inr ⟨a2, rfl⟩
      · exact Or.inl htab

/-- The small build with a transport that delivers zero words, on a table
whose buckets all hold the payload 7: looking up 7 stages an unoccupied word
for slot 0, the compare-and-swap fails and observes the payload 7, and the
call returns `FOUND`. -/
theorem C16_witness :
    budget stale_env ≤ 18446744073709551616 ∧
    (htable_find_or_put stale_env sevens_ctx 7).1 = HTABLE_FOUND ∧
    (htable_find_or_put stale_env sevens_ctx 7).2.trace =
      [Event.cas 0 0 0x8000000000000007 0x8000000000000007, Event.inspect 0,
        Event.store 0 (some 0) none, Event.sync 0, Event.store 3 none none, Event.store 2 none (some 1), Event.memget 1 2 2 2,
        Event.query 1, Event.store 1 none none, Event.store 0 none (some 0),
        Event.memget 0 0 0 2, Event.query 0] ∧
    ((htable_find_or_put stale_env sevens_ctx 7).2.table = sevens_ctx.table ∨
      ∃ a, (htable_find_or_put stale_env sevens_ctx 7).2.table =
        Function.update sevens_ctx.table a ((7 &&& HTABLE_MASK_DATA) ||| HTABLE_MASK_OCCUPIED)) :=
  ⟨by decide, by decide, by decide,
    (C16_stale_snapshot stale_env (by decide) sevens_ctx 7).2.elim fun _ hx =>
      hx.elim fun _ hm => hm.2.2.2.2⟩

/-- C17 (depth-1 lookahead and slot state on return), for every build with
chunks of at least one bucket, at least one chunk and a probe budget below
`2^64`, every transport, and every context whose handle slots are in the state
that `htable_init` and earlier calls leave.  With `evs` the events of the call
`htable_find_or_put(v)`, newest first:
whenever a staged bucket `k` of chunk `i = k / HTABLE_CHUNK_SIZE` is read, and
whenever a handle slot `s` of chunk `i = s / 2` that held a handle issued by
this call is waited on (`upc_sync`, then the slot is set to `NULL`), then, if
`i + 1 < HTABLE_MAX_NR_OF_CHUNKS`, `query_chunk` has been called for chunk
`i + 1` and has issued its fetch, and `query_chunk` has not been called for
chunk `i + 2` or a later one.
On return, with `i` the chunk of the staged bucket read last: every handle slot
of the chunks `0..i` is `NULL`; a slot that holds a handle issued by this call
belongs to chunk `i + 1`, whose first slot does hold one if
`i + 1 < HTABLE_MAX_NR_OF_CHUNKS`; the slots of later chunks are as they were
before the call; and every fetch issued by this call has been waited on in the
call or is held by a slot of chunk `i + 1`. -/
theorem C17_lookahead_and_slots (e : Env) (hS : 1 ≤ e.HTABLE_CHUNK_SIZE)
    (hC : 1 ≤ e.HTABLE_MAX_NR_OF_CHUNKS) (hb : budget e < 18446744073709551616)
    (ctx : htable_ctx) (v : Nat) (hok : handles_ok (2 * e.HTABLE_MAX_NR_OF_CHUNKS) ctx) :
    ∃ evs i, (htable_find_or_put e ctx v).2.trace = evs ++ ctx.trace ∧
      (∀ l1 k l2, evs = l1 ++ Event.inspect k :: l2 → lookahead e (k / e.HTABLE_CHUNK_SIZE) l2) ∧
      (∀ l1 s id new l2, evs = l1 ++ Event.store s (some id) new :: l2 → ctx.fresh ≤ id →
        new = none ∧ (∃ l3, l2 = Event.sync id :: l3) ∧ lookahead e (s / 2) l2) ∧
      i < e.HTABLE_MAX_NR_OF_CHUNKS ∧
      (∃ k, (inspected evs).head? = some k ∧ k / e.HTABLE_CHUNK_SIZE = i) ∧
      (∀ s, s < 2 * (i + 1) → (htable_find_or_put e ctx v).2.handle s = none) ∧
      (∀ s id, (htable_find_or_put e ctx v).2.handle s = some id → ctx.fresh ≤ id →
        s / 2 = i + 1) ∧
      (i + 1 < e.HTABLE_MAX_NR_OF_CHUNKS →
        ∃ id, ctx.fresh ≤ id ∧ (htable_find_or_put e ctx v).2.handle (2 * (i + 1)) = some id) ∧
      (∀ s, 2 * (i + 2) ≤ s → (htable_find_or_put e ctx v).2.handle s = ctx.handle s) ∧
      (∀ id dst src size, Event.memget id dst src size ∈ evs → ctx.fresh ≤ id ∧
        (Event.sync id ∈ evs ∨ (htable_find_or_put e ctx v).2.handle (2 * (i + 1)) = some id ∨
          (htable_find_or_put e ctx v).2.handle (2 * (i + 1) + 1) = some id)) := by
  obtain ⟨evs, i, htr, hi, hinv, hhead⟩ := find_or_put_lookahead e hS hC hb ctx v
    (fun s id hsid => (hok.held s id hsid).2.1)
  have hok2 := find_or_put_handles_ok e hC ctx v hok
  refine ⟨evs, i, htr, ?_, ?_, hi, hhead, hinv.idle, hinv.own, hinv.held, hinv.later, ?_⟩
  · intro l1 k l2 hsplit
    subst hsplit
    exact hist_ok_split _ _ _ _ hinv.hist
  · intro l1 s id new l2 hsplit hid
    subst hsplit
    exact hist_ok_split _ _ _ _ hinv.hist hid
  · intro id dst src size hmem
    obtain ⟨l1, l2, hsplit⟩ := List.append_of_mem hmem
    have hid : ctx.fresh ≤ id := by
      rw [hsplit] at hinv
      exact hist_ok_split _ _ _ _ hinv.hist
    refine ⟨hid, ?_⟩
    have hlt : id < (htable_find_or_put e ctx v).2.fresh :=
      hok2.memget_lt id dst src size (by rw [htr]; exact List.mem_append_left _ hmem)
    rcases hok2.issued id hlt with ⟨s, hs⟩ | hcount
    · have hdiv := hinv.own s id hs hid
      have hs2 : s = 2 * (i + 1) ∨ s = 2 * (i + 1) + 1 := by omega
      rcases hs2 with h2 | h2
      · rw [h2] at hs; exact Or.inr (Or.inl hs)
      · rw [h2] at hs; exact Or.inr (Or.inr hs)
    · have hm : Event.sync id ∈ (htable_find_or_put e ctx v).2.trace :=
        List.count_pos_iff.mp (by omega)
      rw [htr] at hm
      rcases List.mem_append.mp hm with h1 | h1
      · exact Or.inl h1
      · exact absurd h1 (hok.unissued id hid)

/-- The small build with two chunks of two buckets, right after `htable_init`
with zero-filled memory: the call for the value 5 prefetches chunks 0 and 1,
waits on chunk 0, claims bucket 0 and returns from the scan of chunk 0 with the
slots 0 and 1 idle and the fetch of chunk 1 outstanding in slot 2. -/
theorem C17_witness :
    1 ≤ small_env.HTABLE_CHUNK_SIZE ∧ 1 ≤ small_env.HTABLE_MAX_NR_OF_CHUNKS ∧
    budget small_env < 18446744073709551616 ∧
    handles_ok (2 * small_env.HTABLE_MAX_NR_OF_CHUNKS) zero_ctx ∧
    (htable_find_or_put small_env zero_ctx 5).2.trace =
      [Event.cas 0 0 0x8000000000000005 0, Event.inspect 0, Event.store 0 (some 0) none,
        Event.sync 0, Event.store 3 none none, Event.store 2 none (some 1), Event.memget 1 2 2 2,
        Event.query 1, Event.store 1 none none, Event.store 0 none (some 0),
        Event.memget 0 0 0 2, Event.query 0] ∧
    (htable_find_or_put small_env zero_ctx 5).2.handle 2 = some 1 ∧
    ∃ evs i, (htable_find_or_put small_env zero_ctx 5).2.trace = evs ++ zero_ctx.trace ∧
      i < small_env.HTABLE_MAX_NR_OF_CHUNKS ∧
      ∀ s, s < 2 * (i + 1) → (htable_find_or_put small_env zero_ctx 5).2.handle s = none :=
  ⟨by decide, by decide, by decide, init_handles_ok _ _ _, by decide, by decide,
    (C17_lookahead_and_slots small_env (by decide) (by decide) (by decide) zero_ctx 5
      (init_handles_ok _ _ _)).imp fun _ hx => hx.imp fun _ hi =>
        ⟨hi.1, hi.2.2.2.1, hi.2.2.2.2.2.1⟩⟩

end Htable
